import Mathlib

/-!
Shallow embedding of the `unrouting` library (segment tokenizer, path parser,
route-tree builder and the three emitters) together with theorems settling the
specification claims.  Definitions are translated from `src/parse.ts`,
`src/tree.ts` and `src/converters.ts`.  JavaScript strings are modelled as
`String`/`List Char`, `Map`s as insertion-ordered association lists (a JS `Map`
preserves insertion order: `set` on a fresh key appends, `set` on a present key
updates in place, `delete` removes the entry), thrown exceptions as
`Except String`, and `warn` callbacks as an accumulated list of messages.
-/

namespace Unrouting

/-- Token / segment types (`SegmentType` in `src/parse.ts`). -/
inductive SegmentType where
  | static
  | dynamic
  | optional
  | catchall
  | group
  | repeatable
  | optionalRepeatable
deriving DecidableEq, Repr

/-- A token of a parsed segment (`ParsedPathSegmentToken`). -/
structure Token where
  type : SegmentType
  value : String
deriving DecidableEq, Repr

/-- JavaScript `\w` character class: ASCII letters, digits and underscore. -/
def isWordChar (c : Char) : Bool :=
  (('a' ≤ c ∧ c ≤ 'z') ∨ ('A' ≤ c ∧ c ≤ 'Z') ∨ ('0' ≤ c ∧ c ≤ '9') ∨ c = '_' : Bool)

/-- `PARAM_CHAR_RE = /[\w.]/` from `src/parse.ts`. -/
def isParamChar (c : Char) : Bool :=
  isWordChar c || c == '.'

/-- The warning emitted for a disallowed character in a dynamic parameter. -/
def warnMsg (c : Char) (absolutePath : String) : String :=
  "'" ++ String.mk [c] ++ "' is not allowed in a dynamic route parameter and has been ignored. Consider renaming '" ++ absolutePath ++ "'."

/-- JavaScript `seg[i - 1]`: `none` when `i = 0` (out of range). -/
def prevChar (seg : List Char) (i : Nat) : Option Char :=
  if i = 0 then none else seg.get? (i - 1)

/-- State of the `parseSegment` state machine: `'initial' | SegmentType`,
with `none` standing for `'initial'`. -/
abbrev SegState := Option SegmentType

/-- Result of the `parseSegment` scanning loop: final state, buffer, tokens
and accumulated warnings. -/
abbrev SegLoopResult := SegState × List Char × List Token × List String

/-- Outcome of one iteration of the `parseSegment` loop in a non-`'initial'`
state: an exception, or the next loop state.  `adv2` records that the `+`
modifier consumed an extra character (`i++` inside the loop followed by the
loop's own `i++`). -/
inductive StepOut where
  | err (m : String)
  | next (adv2 : Bool) (st : SegState) (buf : List Char) (toks : List Token) (ws : List String)
deriving Repr

/-- One iteration of the `parseSegment` loop for the `'static'`, `'catchall'`,
`'dynamic'`, `'optional'` and `'group'` cases of the `switch` (the
`'repeatable'` states have no case and fall through).  `c` is `segment[i]`. -/
def segStep (seg : List Char) (absolutePath : String) (i : Nat) (t : SegmentType)
    (buffer : List Char) (tokens : List Token) (warns : List String) (c : Char) : StepOut :=
  match t with
  | .static =>
      if c = '[' then
        .next false (some .dynamic) [] (tokens ++ [⟨.static, String.mk buffer⟩]) warns
      else if c = '(' then
        .next false (some .group) [] (tokens ++ [⟨.static, String.mk buffer⟩]) warns
      else
        .next false (some .static) (buffer ++ [c]) tokens warns
  | .repeatable =>
      -- unreachable as a state; the switch has no case for it, so only `i++`
      .next false (some .repeatable) buffer tokens warns
  | .optionalRepeatable =>
      .next false (some .optionalRepeatable) buffer tokens warns
  | st0 =>
      -- case 'catchall' | 'dynamic' | 'optional' | 'group'
      let st1 := if buffer = ['.', '.', '.'] then SegmentType.catchall else st0
      let buf1 := if buffer = ['.', '.', '.'] then [] else buffer
      let st2 := if c = '[' ∧ st1 = .dynamic then SegmentType.optional else st1
      if c = ']' ∧ (st2 ≠ .optional ∨ prevChar seg i = some ']') then
        if buf1 = [] then
          .err "Empty param"
        else if seg.get? (i + 1) = some '+' then
          .next true none []
            (tokens ++ [⟨if st2 = .optional then .optionalRepeatable else .repeatable,
              String.mk buf1⟩]) warns
        else
          .next false none [] (tokens ++ [⟨st2, String.mk buf1⟩]) warns
      else if c = ')' ∧ st2 = .group then
        if buf1 = [] then
          .err "Empty group"
        else
          .next false none [] (tokens ++ [⟨st2, String.mk buf1⟩]) warns
      else if isParamChar c then
        .next false (some st2) (buf1 ++ [c]) tokens warns
      else if (st2 = .dynamic ∨ st2 = .optional) ∧ c ≠ '[' ∧ c ≠ ']' then
        .next false (some st2) buf1 tokens (warns ++ [warnMsg c absolutePath])
      else
        .next false (some st2) buf1 tokens warns

/-- The loop measure: every iteration of the `while` loop strictly decreases
it (`i` advances, or the `'initial'` state falls into `'static'` with `i`
unchanged), so a fuel exceeding it never runs out. -/
def segMeasure (seg : List Char) (i : Nat) (state : SegState) : Nat :=
  (seg.length - i) * 2 + (if state.isNone then 1 else 0)

/-- The `while (i < segment.length)` loop of `parseSegment` (`src/parse.ts`),
structurally recursive on a fuel argument (`segLoop` starts it with more fuel
than the loop measure, which `segLoopF_stable` shows is enough, so the
out-of-fuel branch is never taken).  The `'initial'` case is inlined (it may
leave `i` unchanged: `i--` then `i++`); the other states step through
`segStep` and always advance. -/
def segLoopF (seg : List Char) (absolutePath : String) :
    Nat → Nat → SegState → List Char → List Token → List String →
    Except String SegLoopResult
  | 0, i, state, buffer, tokens, warns =>
      -- out of fuel (unreachable from `segLoop`): report the current state
      if i < seg.length then .error "out of fuel" else .ok (state, buffer, tokens, warns)
  | fuel + 1, i, state, buffer, tokens, warns =>
      if h : i < seg.length then
        match state with
        | none =>
            -- case 'initial': buffer = ''; dispatch on segment[i]
            if seg.get ⟨i, h⟩ = '[' then
              segLoopF seg absolutePath fuel (i + 1) (some .dynamic) [] tokens warns
            else if seg.get ⟨i, h⟩ = '(' then
              segLoopF seg absolutePath fuel (i + 1) (some .group) [] tokens warns
            else
              segLoopF seg absolutePath fuel i (some .static) [] tokens warns
        | some t =>
            match segStep seg absolutePath i t buffer tokens warns (seg.get ⟨i, h⟩) with
            | .err m => .error m
            | .next adv2 st' buf' toks' ws' =>
                segLoopF seg absolutePath fuel (i + (if adv2 then 2 else 1)) st' buf' toks' ws'
      else
        .ok (state, buffer, tokens, warns)

/-- The `parseSegment` loop: fuel strictly above the measure of the initial
configuration. -/
def segLoop (seg : List Char) (absolutePath : String) (i : Nat) (state : SegState)
    (buffer : List Char) (tokens : List Token) (warns : List String) :
    Except String SegLoopResult :=
  segLoopF seg absolutePath (segMeasure seg i state + 1) i state buffer tokens warns

/-- Normalization at the end of `parseSegment`: a lone `static "index"` token
becomes `static ""`. -/
def normalizeIndex (tokens : List Token) : List Token :=
  match tokens with
  | [⟨.static, v⟩] => if v = "index" then [⟨.static, ""⟩] else tokens
  | _ => tokens

/-- The code after the scanning loop of `parseSegment`: 'Unfinished param' /
'Unfinished group' errors, the final guarded flush, and index normalization. -/
def finishSeg (state : SegState) (buffer : List Char) (tokens : List Token) :
    Except String (List Token) :=
  match state with
  | some .dynamic => .error ("Unfinished param \"" ++ String.mk buffer ++ "\"")
  | some .group => .error ("Unfinished group \"" ++ String.mk buffer ++ "\"")
  | none => .ok (normalizeIndex tokens)
  | some st =>
      .ok (normalizeIndex (if buffer = [] then tokens else tokens ++ [⟨st, String.mk buffer⟩]))

/-- `parseSegment` from `src/parse.ts` (the variant at lines 566-670).
Returns the token list together with the warnings passed to `warn`. -/
def parseSegment (segment : String) (absolutePath : String) :
    Except String (List Token × List String) :=
  if segment = "" then .ok ([⟨.static, ""⟩], [])
  else
    match segLoop segment.data absolutePath 0 none [] [] [] with
    | .error e => .error e
    | .ok (st, buf, toks, warns) =>
        match finishSeg st buf toks with
        | .error e => .error e
        | .ok toks2 => .ok (toks2, warns)

/-- Sequential `mapM` over `Except`, stopping at the first exception (the
behaviour of a JavaScript loop that may throw). -/
def exceptMap (f : α → Except ε β) : List α → Except ε (List β)
  | [] => .ok []
  | x :: xs =>
      match f x with
      | .error e => .error e
      | .ok y =>
          match exceptMap f xs with
          | .error e => .error e
          | .ok ys => .ok (y :: ys)

/-- Sequential `foldlM` over `Except`, stopping at the first exception. -/
def exceptFoldl (f : σ → α → Except ε σ) : σ → List α → Except ε σ
  | acc, [] => .ok acc
  | acc, x :: xs =>
      match f acc x with
      | .error e => .error e
      | .ok acc2 => exceptFoldl f acc2 xs

/-- Metadata of a parsed path (`ParsedPath['meta']`). -/
structure PathMeta where
  modes : Option (List String) := none
  name : Option String := none
deriving DecidableEq, Repr

/-- A parsed file path (`ParsedPath` in `src/parse.ts`). -/
structure ParsedPath where
  file : String
  segments : List (List Token)
  meta : Option PathMeta := none
deriving DecidableEq, Repr

/-- Parse options (`ParsePathOptions`): `extensions`, `modes` and `roots`.
The `warn` callback is modelled by the warning list in the result and
`postfix` is unused by the code. -/
structure ParseOpts where
  extensions : Option (List String) := none
  modes : List String := []
  roots : List String := []
deriving DecidableEq, Repr

/-- `ufo.withTrailingSlash` restricted to plain paths: append `/` unless the
string already ends with one. -/
def withTrailingSlashL (cs : List Char) : List Char :=
  if cs.getLast? = some '/' then cs else cs ++ ['/']

/-- `ufo.withoutTrailingSlash`: drop one trailing `/`; an empty result (and an
empty input) becomes `"/"`. -/
def withoutTrailingSlashL (cs : List Char) : List Char :=
  let s := if cs.getLast? = some '/' then cs.dropLast else cs
  if s = [] then ['/'] else s

/-- `ufo.withoutLeadingSlash`: drop one leading `/`; an empty result becomes
`"/"`. -/
def withoutLeadingSlashL (cs : List Char) : List Char :=
  let s := if cs.head? = some '/' then cs.tail else cs
  if s = [] then ['/'] else s

/-- JavaScript `String.prototype.split` with a single-character separator. -/
def splitOnChar (sep : Char) (cs : List Char) : List (List Char) :=
  match cs with
  | [] => [[]]
  | c :: rest =>
      match splitOnChar sep rest with
      | [] => if c = sep then [[], []] else [[c]]
      | piece :: pieces => if c = sep then [] :: piece :: pieces else (c :: piece) :: pieces

/-- One leading `.` removed (`ext.replace(/^\./, '')`). -/
def stripLeadingDot (s : String) : String :=
  match s.data with
  | '.' :: rest => String.mk rest
  | _ => s

/-- Strip the default extension pattern `/\.\w+$/`: the last `.` followed by
one or more word characters running to the end of the string. -/
def stripDefaultExt (cs : List Char) : List Char :=
  let rev := cs.reverse
  let w := rev.takeWhile isWordChar
  if w ≠ [] ∧ (rev.drop w.length).head? = some '.' then
    (rev.drop (w.length + 1)).reverse
  else
    cs

/-- Strip an allow-listed extension: the regex `\.(e1|e2|…)$` removes the
longest `.ext` suffix among the (dot-stripped) listed extensions; a leftmost
match position corresponds to the longest matching suffix. -/
def stripListedExt (exts : List String) (cs : List Char) : List Char :=
  let matching := (exts.map stripLeadingDot).filter
    (fun e => ('.' :: e.data).isSuffixOf cs)
  match matching.foldl
      (fun best e => match best with
        | none => some e
        | some b => if e.length > b.length then some e else best) none with
  | some e => cs.take (cs.length - (e.length + 1))
  | none => cs

/-- Extension stripping step of `parsePathInner` (`filePath.replace(EXT_RE, '')`). -/
def stripExt (opts : ParseOpts) (cs : List Char) : List Char :=
  match opts.extensions with
  | some exts => stripListedExt exts cs
  | none => stripDefaultExt cs

/-- Character class `[\w-]` used by the named-view regexes. -/
def isViewChar (c : Char) : Bool :=
  isWordChar c || c == '-'

/-- The first match of `VIEW_MATCH_RE = /@([\w-]+)(?:\.|$)/`: scanning left to
right, an `@` whose maximal `[\w-]` run is nonempty and is followed by `.` or
the end of the string; the captured group is that run.  (`.` is not a
`[\w-]` character, so the regex cannot succeed by giving back characters.) -/
def findViewMatch : List Char → Option (List Char)
  | [] => none
  | c :: rest =>
      if c = '@' then
        let run := rest.takeWhile isViewChar
        if run ≠ [] ∧ ((rest.drop run.length).head? = none ∨ (rest.drop run.length).head? = some '.') then
          some run
        else
          findViewMatch rest
      else
        findViewMatch rest

/-- `filePath.replace(VIEW_STRIP_RE, '')` with `VIEW_STRIP_RE = /@[\w-]+/`:
remove the first `@` followed by a nonempty maximal `[\w-]` run.  Note this
may strip at an earlier position than the one `VIEW_MATCH_RE` matched. -/
def stripFirstAtRun : List Char → List Char
  | [] => []
  | c :: rest =>
      if c = '@' ∧ (rest.head?.map isViewChar).getD false then
        rest.dropWhile isViewChar
      else
        c :: stripFirstAtRun rest

/-- First supported mode whose `.mode` suffix matches, with the suffix
stripped; mirrors the inner `for … of supportedModes` loop. -/
def findModeStrip (supported : List String) (cs : List Char) : Option (String × List Char) :=
  supported.findSome? fun m =>
    if ('.' :: m.data).isSuffixOf cs then
      some (m, cs.take (cs.length - (m.data.length + 1)))
    else
      none

/-- The mode extraction loop (`while (scanning) { … }`): repeatedly strip a
trailing `.mode`, recording modes so the final list reads left to right.
Structurally recursive on a fuel argument; every successful strip removes at
least one character, so `extractModes` starts with enough fuel for the
out-of-fuel branch to be unreachable. -/
def extractModesF (supported : List String) : Nat → List Char → List String × List Char
  | 0, cs => ([], cs)
  | fuel + 1, cs =>
      match findModeStrip supported cs with
      | some (m, cs') =>
          let r := extractModesF supported fuel cs'
          (r.1 ++ [m], r.2)
      | none => ([], cs)

/-- The mode extraction loop with sufficient fuel. -/
def extractModes (supported : List String) (cs : List Char) : List String × List Char :=
  extractModesF supported (cs.length + 1) cs

/-- Root-prefix stripping: roots sorted by length (longest first), each taken
with a trailing slash and matched literally at the start of the path
(`PREFIX_RE`); the first (longest) matching root is removed. -/
def stripRoot (roots : List String) (cs : List Char) : List Char :=
  let sorted := roots.foldl (fun acc r => insertByLen acc r) []
  match sorted.find? (fun r => (withTrailingSlashL r.data).isPrefixOf cs) with
  | some r => cs.drop (withTrailingSlashL r.data).length
  | none => cs
where
  /-- Stable insertion by descending length, matching
  `[...roots].sort((a, b) => b.length - a.length)`. -/
  insertByLen : List String → String → List String
  | [], r => [r]
  | x :: xs, r => if r.length > x.length then r :: x :: xs else x :: insertByLen xs r

/-- Parse a single file path: the body of the `for (let filePath of filePaths)`
loop of `parsePathInner` (`src/parse.ts`).  Returns the `ParsedPath` and the
warnings produced while tokenizing its segments. -/
def parsePathOne (opts : ParseOpts) (filePath : String) :
    Except String (ParsedPath × List String) :=
  let originalFilePath := filePath
  let cs0 := if opts.roots = [] then filePath.data else stripRoot opts.roots filePath.data
  let cs1 := stripExt opts cs0
  -- named views: @name suffix
  let namedView := (findViewMatch cs1).map String.mk
  let cs2 := if namedView.isSome then stripFirstAtRun cs1 else cs1
  -- modes, extracted right to left
  let (modes, cs3) := extractModes opts.modes cs2
  let normalized := withoutLeadingSlashL (withoutTrailingSlashL cs3)
  let pieces := if normalized = ['/'] then [[]] else splitOnChar '/' normalized
  match exceptMap (fun p => parseSegment (String.mk p) originalFilePath) pieces with
  | .error e => .error e
  | .ok parsed =>
      let segments := parsed.map Prod.fst
      let warns := (parsed.map Prod.snd).flatten
      let hasModes := modes ≠ []
      let hasMeta := hasModes ∨ namedView.isSome
      let meta : Option PathMeta :=
        if hasMeta then
          some { modes := if hasModes then some modes else none, name := namedView }
        else
          none
      .ok ({ file := originalFilePath, segments := segments, meta := meta }, warns)

/-- `parsePath` from `src/parse.ts`: parse every file path.  (The compiled
variant `compileParsePath` produces behaviourally identical results; only the
regex precompilation differs, so it is represented by this same function.) -/
def parsePath (opts : ParseOpts) (filePaths : List String) :
    Except String (List (ParsedPath × List String)) :=
  exceptMap (parsePathOne opts) filePaths

/-- Signed three-way comparison of strings by code points, used to model the
parameterless JavaScript `Array.prototype.sort()` on strings and the external
`Intl.Collator('en-US')` comparison (which agrees with code-point order on the
lower-case ASCII strings arising in this development). -/
def lexCompare : List Char → List Char → Int
  | [], [] => 0
  | [], _ :: _ => -1
  | _ :: _, [] => 1
  | a :: as, b :: bs =>
      if a.toNat < b.toNat then -1
      else if b.toNat < a.toNat then 1
      else lexCompare as bs

/-- Insert `x` into `l` before the first element `y` with `cmp x y < 0`
(after every element it does not strictly precede). -/
def insertSorted (cmp : α → α → Int) (x : α) : List α → List α
  | [] => [x]
  | y :: ys => if cmp x y < 0 then x :: y :: ys else y :: insertSorted cmp x ys

/-- Stable sort by a signed comparator, modelling JavaScript
`Array.prototype.sort` (stable since ES2019). -/
def stableSort (cmp : α → α → Int) (l : List α) : List α :=
  l.foldl (fun acc x => insertSorted cmp x acc) []

/-- JavaScript `Array.prototype.join(sep)`. -/
def joinSep (sep : String) : List String → String
  | [] => ""
  | x :: xs => xs.foldl (fun acc s => acc ++ sep ++ s) x

/-- `modes.slice().sort()`: default JavaScript string sort. -/
def sortStringsJS (l : List String) : List String :=
  stableSort (fun a b => lexCompare a.data b.data) l

/-- A file attached to a route node (`RouteNodeFile` in `src/tree.ts`).
`priority` is an `Int` (a JavaScript number used only in comparisons); the
internal `~dedupeKey` field is `dedupeKey`. -/
structure RouteNodeFile where
  path : String
  relativePath : String
  viewName : String
  modes : Option (List String)
  groups : List String
  originalSegments : List (List Token)
  priority : Int
  dedupeKey : String
deriving DecidableEq, Repr

/-- A node of the route tree (`RouteNode`).  `children` is the insertion-ordered
`Map<string, RouteNode>`; since `createNode` always stores a node under the key
equal to its `rawSegment`, the map is represented by the list of child nodes,
keyed by their `rawSegment` field.  The mutable `parent` pointer is implicit in
the tree structure (operations carry the path of keys from the root). -/
inductive RouteNode where
  | mk (rawSegment : String) (segment : List Token) (files : List RouteNodeFile)
      (children : List RouteNode)

/-- Field accessor for `rawSegment`. -/
def RouteNode.rawSegment : RouteNode → String
  | .mk r _ _ _ => r

/-- Field accessor for `segment`. -/
def RouteNode.segment : RouteNode → List Token
  | .mk _ s _ _ => s

/-- Field accessor for `files`. -/
def RouteNode.files : RouteNode → List RouteNodeFile
  | .mk _ _ f _ => f

/-- Field accessor for `children`. -/
def RouteNode.children : RouteNode → List RouteNode
  | .mk _ _ _ c => c

/-- Replace the `files` field. -/
def RouteNode.withFiles : RouteNode → List RouteNodeFile → RouteNode
  | .mk r s _ c, f => .mk r s f c

/-- Replace the `children` field. -/
def RouteNode.withChildren : RouteNode → List RouteNode → RouteNode
  | .mk r s f _, c => .mk r s f c

/-- `children.get(key)`: first child stored under `key`. -/
def getChild (n : RouteNode) (k : String) : Option RouteNode :=
  n.children.find? (fun c => c.rawSegment == k)

/-- `children.set(key, c)`: update in place when the key is present, append
otherwise (JS `Map` insertion order). -/
def setChildList (l : List RouteNode) (k : String) (c : RouteNode) : List RouteNode :=
  match l with
  | [] => [c]
  | x :: xs => if x.rawSegment = k then c :: xs else x :: setChildList xs k c

/-- `children.delete(key)`: remove the entry stored under `key`. -/
def delChildList (l : List RouteNode) (k : String) : List RouteNode :=
  match l with
  | [] => []
  | x :: xs => if x.rawSegment = k then xs else x :: delChildList xs k

/-- The file index `Map<filePath, RouteNode>`: the reference to the owning node
is represented by the path of child keys from the root to that node (node
pointers and key paths agree on every state reachable through the API, where
an indexed node is always attached and holds the indexed file). -/
abbrev FileIndex := List (String × List String)

/-- `fileIndex.get(path)`. -/
def fiGet (fi : FileIndex) (p : String) : Option (List String) :=
  (fi.find? (fun e => e.1 == p)).map Prod.snd

/-- `fileIndex.set(path, addr)`: replace in place or append. -/
def fiSet (fi : FileIndex) (p : String) (addr : List String) : FileIndex :=
  match fi with
  | [] => [(p, addr)]
  | e :: es => if e.1 = p then (p, addr) :: es else e :: fiSet es p addr

/-- `fileIndex.delete(path)`. -/
def fiDel (fi : FileIndex) (p : String) : FileIndex :=
  match fi with
  | [] => []
  | e :: es => if e.1 = p then es else e :: fiDel es p

/-- `tokenToString` from `src/tree.ts`: canonical bracket/paren encoding. -/
def tokenToString (t : Token) : String :=
  match t.type with
  | .static => t.value
  | .dynamic => "[" ++ t.value ++ "]"
  | .optional => "[[" ++ t.value ++ "]]"
  | .catchall => "[..." ++ t.value ++ "]"
  | .repeatable => "[" ++ t.value ++ "]+"
  | .optionalRepeatable => "[[" ++ t.value ++ "]]+"
  | .group => "(" ++ t.value ++ ")"

/-- `segmentToKey`: canonical key of a segment. -/
def segmentToKey (seg : List Token) : String :=
  String.join (seg.map tokenToString)

/-- The extension match `/\.[^./]+$/` of `reconstructRelativePath`: the last
`.` followed by at least one character that is neither `.` nor `/`, running to
the end; returns the matched text or `""`. -/
def extMatch (cs : List Char) : String :=
  let rev := cs.reverse
  let run := rev.takeWhile (fun c => ¬ (c = '.' ∨ c = '/'))
  if run ≠ [] ∧ (rev.drop run.length).head? = some '.' then
    String.mk ('.' :: run.reverse)
  else
    ""

/-- `reconstructRelativePath` from `src/tree.ts`. -/
def reconstructRelativePath (pp : ParsedPath) : String :=
  let ext := extMatch pp.file.data
  let path := joinSep "/" (pp.segments.map (fun seg =>
    String.join (seg.map (fun t =>
      if t.type = .static ∧ t.value = "" then "index" else tokenToString t))))
  path ++ ext

/-- Duplicate-resolution strategy (`duplicateStrategy`). -/
inductive DupStrategy where
  | firstWins
  | lastWins
  | error
deriving DecidableEq, Repr

/-- The `viewName` of a parsed path: `parsedPath.meta?.name || 'default'`
(`||` also replaces an empty string). -/
def viewNameOf (pp : ParsedPath) : String :=
  match pp.meta with
  | some m =>
      match m.name with
      | some n => if n = "" then "default" else n
      | none => "default"
  | none => "default"

/-- The `~dedupeKey` of a file: `viewName\0groupKey\0modesKey`. -/
def dedupeKeyOf (pp : ParsedPath) (groups : List String) : String :=
  let groupKey := joinSep "," groups
  let modesKey :=
    match pp.meta.bind (·.modes) with
    | some ms => joinSep "," (sortStringsJS ms)
    | none => ""
  viewNameOf pp ++ "\x00" ++ groupKey ++ "\x00" ++ modesKey

/-- The `RouteNodeFile` built at the terminal node of `insertParsedPath`. -/
def mkFileEntry (pp : ParsedPath) (priority : Int) (groups : List String) : RouteNodeFile :=
  { path := pp.file
    relativePath := reconstructRelativePath pp
    viewName := viewNameOf pp
    modes := pp.meta.bind (·.modes)
    groups := groups
    originalSegments := pp.segments
    priority := priority
    dedupeKey := dedupeKeyOf pp groups }

/-- Replace the first file whose `~dedupeKey` matches (`files[idx] = fileEntry`
after `indexOf` of the first dedupe match). -/
def replaceFirstDedupe (files : List RouteNodeFile) (key : String) (entry : RouteNodeFile) :
    List RouteNodeFile :=
  match files with
  | [] => []
  | f :: fs => if f.dedupeKey = key then entry :: fs else f :: replaceFirstDedupe fs key entry

/-- The recursive form of `insertParsedPath` (`src/tree.ts`): walk the parsed
segments (group-only segments accumulate into `groups`), create or reuse child
nodes, and attach the file entry at the terminal node with duplicate
resolution.  `addr` is the key path from the root to `node` (the pointer
stored into the file index). -/
def insertAux (node : RouteNode) (segs : List (List Token)) (groups : List String)
    (pp : ParsedPath) (priority : Int) (strat : DupStrategy)
    (fi : FileIndex) (addr : List String) : Except String (RouteNode × FileIndex) :=
  match segs with
  | seg :: rest =>
      if seg.all (fun t => t.type = .group) then
        insertAux node rest (groups ++ seg.map (·.value)) pp priority strat fi addr
      else
        let k := segmentToKey seg
        let child := (getChild node k).getD (.mk k seg [] [])
        match insertAux child rest groups pp priority strat fi (addr ++ [k]) with
        | .error e => .error e
        | .ok (child', fi') => .ok (node.withChildren (setChildList node.children k child'), fi')
  | [] =>
      let key := dedupeKeyOf pp groups
      let entry := mkFileEntry pp priority groups
      match node.files.find? (fun f => f.dedupeKey == key) with
      | none =>
          .ok (node.withFiles (node.files ++ [entry]), fiSet fi pp.file addr)
      | some existing =>
          if strat = .error then
            .error ("Duplicate route file for view \"" ++ viewNameOf pp ++ "\": \""
              ++ existing.path ++ "\" and \"" ++ pp.file ++ "\"")
          else if strat = .lastWins ∨ priority < existing.priority then
            .ok (node.withFiles (replaceFirstDedupe node.files key entry),
              fiSet (fiDel fi existing.path) pp.file addr)
          else
            .ok (node, fi)

/-- The route tree (`RouteTree`): root node, `~dirty` flag, `~fileIndex`. -/
structure RouteTree where
  root : RouteNode
  dirty : Bool
  fileIndex : FileIndex

/-- The synthetic root node created by `buildTree`. -/
def rootNode : RouteNode :=
  .mk "" [⟨.static, ""⟩] [] []

/-- Build-tree options: parse options plus the duplicate strategy. -/
structure BuildOpts extends ParseOpts where
  duplicateStrategy : DupStrategy := .firstWins
deriving DecidableEq, Repr

/-- `buildTree` on a `string[]` input (priority 0 for every file). -/
def buildTree (opts : BuildOpts) (input : List String) : Except String RouteTree :=
  if input = [] then
    .ok ⟨rootNode, true, []⟩
  else
    match parsePath opts.toParseOpts input with
    | .error e => .error e
    | .ok parsed =>
        match exceptFoldl
            (fun (acc : RouteNode × FileIndex) p =>
              insertAux acc.1 p.1.segments [] p.1 0 opts.duplicateStrategy acc.2 [])
            (rootNode, []) parsed with
        | .error e => .error e
        | .ok (root, fi) => .ok ⟨root, true, fi⟩

/-- `buildTree` on an `InputFile[]` input (`{path, priority}` descriptors). -/
def buildTreeFiles (opts : BuildOpts) (input : List (String × Int)) :
    Except String RouteTree :=
  if input = [] then
    .ok ⟨rootNode, true, []⟩
  else
    match parsePath opts.toParseOpts (input.map Prod.fst) with
    | .error e => .error e
    | .ok parsed =>
        match exceptFoldl
            (fun (acc : RouteNode × FileIndex) p =>
              insertAux acc.1 p.1.1.segments [] p.1.1 p.2 opts.duplicateStrategy acc.2 [])
            (rootNode, []) (parsed.zip (input.map Prod.snd)) with
        | .error e => .error e
        | .ok (root, fi) => .ok ⟨root, true, fi⟩

/-- `addFile`: parse one file and insert it in place, marking the tree dirty.
`priority` is 0 when a bare string is passed. -/
def addFile (opts : BuildOpts) (t : RouteTree) (filePath : String) (priority : Int) :
    Except String RouteTree :=
  match parsePathOne opts.toParseOpts filePath with
  | .error e => .error e
  | .ok (pp, _) =>
      match insertAux t.root pp.segments [] pp priority opts.duplicateStrategy t.fileIndex [] with
      | .error e => .error e
      | .ok (root, fi) => .ok ⟨root, true, fi⟩

/-- Remove the first file with the given path (`findIndex` + `splice(idx, 1)`). -/
def removeFirstFile (files : List RouteNodeFile) (p : String) : List RouteNodeFile :=
  match files with
  | [] => []
  | f :: fs => if f.path = p then fs else f :: removeFirstFile fs p

/-- Navigate a key path from a node. -/
def navigate (n : RouteNode) : List String → Option RouteNode
  | [] => some n
  | k :: ks => (getChild n k).bind (fun c => navigate c ks)

/-- Apply `f` to the node at the given key path (identity when the path is
absent). -/
def updateAt (n : RouteNode) (addr : List String) (f : RouteNode → RouteNode) : RouteNode :=
  match addr with
  | [] => f n
  | k :: ks =>
      match getChild n k with
      | some c => n.withChildren (setChildList n.children k (updateAt c ks f))
      | none => n

/-- `pruneEmptyAncestors` along a key path: walking back up from the node at
`addr`, delete every node that has no files and no children, stopping at the
first node that still holds content. -/
def pruneAddr (n : RouteNode) (addr : List String) : RouteNode :=
  match addr with
  | [] => n
  | k :: ks =>
      match getChild n k with
      | none => n
      | some c =>
          let c' := pruneAddr c ks
          if c'.files.isEmpty ∧ c'.children.isEmpty then
            n.withChildren (delChildList n.children k)
          else
            n.withChildren (setChildList n.children k c')

mutual

/-- `removeFromNode` (DFS fallback of `removeFile`): check this node's files,
then recurse into children in order; prune the ancestor chain of a successful
removal on the way back up.  Returns `none` when the path is not found. -/
def removeFromNode : RouteNode → String → Option RouteNode
  | .mk raw seg files children, p =>
      if files.any (fun f => f.path == p) then
        some (.mk raw seg (removeFirstFile files p) children)
      else
        match removeFromChildren children p with
        | some cs' => some (.mk raw seg files cs')
        | none => none

/-- DFS over the children list, removing from the first child that contains
the path and pruning it when it becomes empty. -/
def removeFromChildren : List RouteNode → String → Option (List RouteNode)
  | [], _ => none
  | c :: cs, p =>
      match removeFromNode c p with
      | some c' =>
          if c'.files.isEmpty ∧ c'.children.isEmpty then some cs else some (c' :: cs)
      | none =>
          match removeFromChildren cs p with
          | some cs' => some (c :: cs')
          | none => none

end

/-- `removeFile` from `src/tree.ts`: fast path through the file index (splice
the file, delete the index entry, prune empty ancestors, set the dirty flag),
with a DFS fallback; returns whether a file was removed together with the
updated tree. -/
def removeFile (t : RouteTree) (p : String) : Bool × RouteTree :=
  let fallback :=
    match removeFromNode t.root p with
    | some root' => (true, RouteTree.mk root' true t.fileIndex)
    | none => (false, t)
  match fiGet t.fileIndex p with
  | some addr =>
      match navigate t.root addr with
      | some node =>
          if node.files.any (fun f => f.path == p) then
            let root1 := updateAt t.root addr (fun m => m.withFiles (removeFirstFile m.files p))
            let root2 := pruneAddr root1 addr
            (true, RouteTree.mk root2 true (fiDel t.fileIndex p))
          else
            fallback
      | none => fallback
  | none => fallback

/-- `isPageNode`: true iff the node has files attached. -/
def isPageNode (n : RouteNode) : Bool :=
  decide (n.files ≠ [])

/-- Flattened per-file information produced by `flattenTree`
(`src/converters.ts`). -/
structure FlatFileInfo where
  file : String
  relativePath : String
  segments : List (List Token)
  groups : List String
  siblingFiles : List RouteNodeFile
deriving Repr

/-- Append `f` to the bucket of `k` (insertion-ordered `Map` of arrays). -/
def assocPush (l : List (String × List RouteNodeFile)) (k : String) (f : RouteNodeFile) :
    List (String × List RouteNodeFile) :=
  match l with
  | [] => [(k, [f])]
  | e :: es => if e.1 = k then (e.1, e.2 ++ [f]) :: es else e :: assocPush es k f

/-- Per-node part of the `flattenTree` walk: split files into default/named
views, group the defaults by group path, and emit one info per group path with
the first file as primary. -/
def nodeInfos (files : List RouteNodeFile) : List FlatFileInfo :=
  let defaults := files.filter (fun f => f.viewName == "default")
  let views := files.filter (fun f => f.viewName != "default")
  let pool := if defaults.isEmpty then files else defaults
  let byGroupPath := pool.foldl (fun acc f => assocPush acc (joinSep "," f.groups) f) []
  byGroupPath.filterMap (fun e =>
    match e.2 with
    | [] => none
    | primary :: _ =>
        some { file := primary.path
               relativePath := primary.relativePath
               segments := primary.originalSegments.filter
                 (fun seg => ¬ seg.all (fun t => t.type = .group))
               groups := primary.groups
               siblingFiles := e.2 ++ views.filter (fun v => joinSep "," v.groups == e.1) })

mutual

/-- Depth-first `flattenTree` walk over a node. -/
def flattenNode : RouteNode → List FlatFileInfo
  | .mk _ _ files children => nodeInfos files ++ flattenChildren children

/-- Depth-first `flattenTree` walk over a children list. -/
def flattenChildren : List RouteNode → List FlatFileInfo
  | [] => []
  | c :: cs => flattenNode c ++ flattenChildren cs

end

/-- `flattenTree` from `src/converters.ts`. -/
def flattenTree (t : RouteTree) : List FlatFileInfo :=
  flattenNode t.root

/-- Drop all leading slashes (`segment.replace(/^\/+/, '')` in `ufo.joinURL`). -/
def dropLeadingSlashes (cs : List Char) : List Char :=
  cs.dropWhile (fun c => c = '/')

/-- `ufo.withTrailingSlash` on a `String`. -/
def withTrailingSlashS (s : String) : String :=
  if s.data.getLast? = some '/' then s else s ++ "/"

/-- `ufo.joinURL` with a single segment argument: segments that are empty or
`"/"` are skipped; otherwise the base gets a trailing slash and the segment
loses its leading slashes. -/
def joinURL (base seg : String) : String :=
  if seg = "" ∨ seg = "/" then base
  else if base = "" then seg
  else withTrailingSlashS base ++ String.mk (dropLeadingSlashes seg.data)

/-- UTF-8 bytes of a character (for percent-encoding). -/
def utf8Bytes (c : Char) : List Nat :=
  let n := c.toNat
  if n < 0x80 then [n]
  else if n < 0x800 then [0xC0 + n / 0x40, 0x80 + n % 0x40]
  else if n < 0x10000 then [0xE0 + n / 0x1000, 0x80 + (n / 0x40) % 0x40, 0x80 + n % 0x40]
  else [0xF0 + n / 0x40000, 0x80 + (n / 0x1000) % 0x40, 0x80 + (n / 0x40) % 0x40, 0x80 + n % 0x40]

/-- Upper-case hexadecimal digit. -/
def hexDigit (n : Nat) : Char :=
  if n < 10 then Char.ofNat ('0'.toNat + n) else Char.ofNat ('A'.toNat + n - 10)

/-- Percent-encoding of one byte. -/
def pctByte (b : Nat) : String :=
  String.mk ['%', hexDigit (b / 16), hexDigit (b % 16)]

/-- Characters `encodeURI` leaves unescaped (ECMAScript `uriUnescaped` plus
`uriReserved` plus `#`). -/
def encodeURIKeeps (c : Char) : Bool :=
  (('a' ≤ c ∧ c ≤ 'z') ∨ ('A' ≤ c ∧ c ≤ 'Z') ∨ ('0' ≤ c ∧ c ≤ '9') : Bool) ||
    [';', '/', '?', ':', '@', '&', '=', '+', '$', ',', '-', '_', '.', '!', '~', '*',
      '\'', '(', ')', '#'].contains c

/-- Models the external `ufo.encodePath`: `encodeURI` with `|` re-encoded as
`%7C` and the path-significant `#` and `?` re-encoded.  On the character sets
produced by the tokenizer for static values in this development the function is
the identity. -/
def encodePath (s : String) : String :=
  String.join (s.data.map (fun c =>
    if c = '#' then "%23"
    else if c = '?' then "%3F"
    else if c = '|' then "%7C"
    else if encodeURIKeeps c then String.mk [c]
    else String.join ((utf8Bytes c).map pctByte)))

/-- `escape-string-regexp`: prefix regex metacharacters with a backslash and
encode `-` as `\x2d`. -/
def escapeStringRegexp (s : String) : String :=
  String.join (s.data.map (fun c =>
    if ['|', '\\', Char.ofNat 0x7B, Char.ofNat 0x7D, '(', ')', '[', ']', '^', '$',
        '+', '*', '?', '.'].contains c then String.mk ['\\', c]
    else if c = '-' then "\\x2d"
    else String.mk [c]))

/-- `sanitizeCaptureGroup`: prefix a leading digit with `_` and strip dots. -/
def sanitizeCaptureGroup (s : String) : String :=
  let cs :=
    match s.data with
    | c :: rest => if ('0' ≤ c ∧ c ≤ '9' : Bool) then '_' :: c :: rest else c :: rest
    | [] => []
  String.mk (cs.filter (fun c => c ≠ '.'))

/-- `token.value` with every `:` escaped (`.replace(/:/g, '\\:')`). -/
def escapeColons (s : String) : String :=
  String.join (s.data.map (fun c => if c = ':' then "\\:" else String.mk [c]))

/-- `toVueRouterSegment` from `src/converters.ts`: render one segment in Vue
Router 4 syntax. -/
def toVueRouterSegment (tokens : List Token) (hasSucceeding : Bool) : String :=
  tokens.foldl (fun out t =>
    match t.type with
    | .group => out
    | .static => out ++ escapeColons (encodePath t.value)
    | .dynamic => out ++ ":" ++ t.value ++ "()"
    | .optional => out ++ ":" ++ t.value ++ "?"
    | .repeatable => out ++ ":" ++ t.value ++ "+"
    | .optionalRepeatable => out ++ ":" ++ t.value ++ "*"
    | .catchall => out ++ ":" ++ t.value ++ (if hasSucceeding then "([^/]*)*" else "(.*)*")) ""

/-- `tokens.length === 1 && tokens[0].type === 'static' && tokens[0].value === ''`. -/
def isIndexSegment (seg : List Token) : Bool :=
  match seg with
  | [⟨.static, v⟩] => v = ""
  | _ => false

/-- JavaScript `String.prototype.replaceAll` with string pattern and
replacement: non-overlapping occurrences replaced left to right.  Structurally
recursive on a fuel argument; every step consumes at least one character of
`cs`, so `replaceAllSub` starts with enough fuel for the out-of-fuel branch to
be unreachable. -/
def replaceAllSubF (pat repl : List Char) : Nat → List Char → List Char
  | 0, cs => cs
  | fuel + 1, cs =>
      match cs with
      | [] => []
      | c :: rest =>
          if pat ≠ [] ∧ pat.isPrefixOf (c :: rest) then
            repl ++ replaceAllSubF pat repl fuel ((c :: rest).drop pat.length)
          else
            c :: replaceAllSubF pat repl fuel rest

/-- `replaceAll` with sufficient fuel. -/
def replaceAllSub (cs pat repl : List Char) : List Char :=
  replaceAllSubF pat repl (cs.length + 1) cs

/-- A rou3 route pattern. -/
structure Rou3Route where
  path : String
  file : String
deriving DecidableEq, Repr

/-- One token of the rou3 emitter: `optional`, `repeatable` and
`optional-repeatable` raise the feature-named `TypeError`s. -/
def rou3Token (part : String) (t : Token) : Except String String :=
  match t.type with
  | .group => .ok part
  | .static => .ok (part ++ t.value)
  | .dynamic => .ok (part ++ (if t.value = "" then "*" else ":" ++ t.value))
  | .catchall => .ok (part ++ (if t.value = "" then "**" else "**:" ++ t.value))
  | .optional => .error "[unrouting] `toRou3` does not support optional parameters"
  | .repeatable => .error "[unrouting] `toRou3` does not support repeatable parameters"
  | .optionalRepeatable => .error "[unrouting] `toRou3` does not support optional repeatable parameters"

/-- Render one segment for rou3. -/
def rou3Segment (seg : List Token) : Except String String :=
  exceptFoldl rou3Token "" seg

/-- Render a full rou3 path: group-only segments skipped, empty parts skipped
when joining. -/
def rou3Path (segs : List (List Token)) : Except String String :=
  exceptFoldl (fun path seg =>
    if seg.all (fun t => t.type = .group) then .ok path
    else
      match rou3Segment seg with
      | .error e => .error e
      | .ok part => .ok (if part = "" then path else joinURL path part)) "/" segs

/-- `toRou3` from `src/converters.ts`. -/
def toRou3 (t : RouteTree) : Except String (List Rou3Route) :=
  exceptMap (fun info =>
    match rou3Path info.segments with
    | .error e => .error e
    | .ok p => .ok (Rou3Route.mk p info.file)) (flattenTree t)

/-- A RegExp route: the pattern is represented by its source string (the
external regex engine compiles it). -/
structure RegExpRoute where
  source : String
  keys : List String
  file : String
deriving DecidableEq, Repr

/-- One token of the RegExp emitter: append the pattern fragment and record
capture keys. -/
def regexpToken (acc : String × List String) (t : Token) : String × List String :=
  let key := sanitizeCaptureGroup t.value
  match t.type with
  | .static => (acc.1 ++ escapeStringRegexp t.value, acc.2)
  | .dynamic => (acc.1 ++ "(?<" ++ key ++ ">[^/]+)", acc.2 ++ [key])
  | .optional => (acc.1 ++ "(?<" ++ key ++ ">[^/]*)", acc.2 ++ [key])
  | .repeatable => (acc.1 ++ "(?<" ++ key ++ ">[^/]+(?:/[^/]+)*)", acc.2 ++ [key])
  | .optionalRepeatable => (acc.1 ++ "(?<" ++ key ++ ">[^/]*(?:/[^/]+)*)", acc.2 ++ [key])
  | .catchall => (acc.1 ++ "(?<" ++ key ++ ">.*)", acc.2 ++ [key])
  | .group => acc

/-- Fragment and keys of one segment. -/
def regexpSegment (seg : List Token) : String × List String :=
  seg.foldl regexpToken ("", [])

/-- A segment wrapped in the non-capturing optional group `(?:\/…)?`. -/
def isOptionalSegment (seg : List Token) : Bool :=
  seg.all (fun t =>
    t.type = .optional ∨ t.type = .catchall ∨ t.type = .group ∨ t.type = .optionalRepeatable)

/-- One step of the `toRegExp` segment fold. -/
def regexpStep (acc : String × List String) (seg : List Token) : String × List String :=
  if seg.all (fun t => t.type = .group) then acc
  else
    let (re, ks) := regexpSegment seg
    if re = "" then (acc.1, acc.2 ++ ks)
    else
      ((acc.1 ++ (if isOptionalSegment seg then "(?:\\/" ++ re ++ ")?" else "\\/" ++ re)),
        acc.2 ++ ks)

/-- Source and keys of a full path pattern: `^` … `\/?$`. -/
def regexpPath (segs : List (List Token)) : String × List String :=
  let r := segs.foldl regexpStep ("^", [])
  (r.1 ++ "\\/?$", r.2)

/-- `toRegExp` from `src/converters.ts`. -/
def toRegExp (t : RouteTree) : List RegExpRoute :=
  (flattenTree t).map (fun info =>
    let r := regexpPath info.segments
    RegExpRoute.mk r.1 r.2 info.file)

/-- An emitted Vue Router 4 route.  `metaGroups` models the only `meta` key the
code writes (`meta.groups`); `components` is the insertion-ordered record of
named views. -/
inductive VueRoute where
  | mk (name : Option String) (path : String) (file : String) (children : List VueRoute)
      (metaGroups : Option (List String)) (components : Option (List (String × String)))
      (modes : Option (List String))

/-- Field accessor for `name`. -/
def VueRoute.name : VueRoute → Option String
  | .mk n _ _ _ _ _ _ => n

/-- Field accessor for `path`. -/
def VueRoute.path : VueRoute → String
  | .mk _ p _ _ _ _ _ => p

/-- Field accessor for `file`. -/
def VueRoute.file : VueRoute → String
  | .mk _ _ f _ _ _ _ => f

/-- Field accessor for `children`. -/
def VueRoute.children : VueRoute → List VueRoute
  | .mk _ _ _ c _ _ _ => c

/-- Field accessor for `metaGroups`. -/
def VueRoute.metaGroups : VueRoute → Option (List String)
  | .mk _ _ _ _ g _ _ => g

/-- Field accessor for `components`. -/
def VueRoute.components : VueRoute → Option (List (String × String))
  | .mk _ _ _ _ _ c _ => c

/-- Field accessor for `modes`. -/
def VueRoute.modes : VueRoute → Option (List String)
  | .mk _ _ _ _ _ _ m => m

/-- The intermediate route record built by `toVueRouter4` before
`prepareRoutes` (`IntermediateRoute`). -/
inductive IRoute where
  | mk (name path file : String) (children : List IRoute) (groups : List String)
      (siblingFiles : List RouteNodeFile)

/-- Field accessor for `name`. -/
def IRoute.name : IRoute → String
  | .mk n _ _ _ _ _ => n

/-- Field accessor for `path`. -/
def IRoute.path : IRoute → String
  | .mk _ p _ _ _ _ => p

/-- Field accessor for `file`. -/
def IRoute.file : IRoute → String
  | .mk _ _ f _ _ _ => f

/-- Field accessor for `children`. -/
def IRoute.children : IRoute → List IRoute
  | .mk _ _ _ c _ _ => c

/-- Replace the `children` field. -/
def IRoute.withChildren : IRoute → List IRoute → IRoute
  | .mk n p f _ g s, c => .mk n p f c g s

/-- Record assignment on the insertion-ordered `components` record. -/
def recSet (l : List (String × String)) (k v : String) : List (String × String) :=
  match l with
  | [] => [(k, v)]
  | e :: es => if e.1 = k then (k, v) :: es else e :: recSet es k v

/-- The per-file route-placement loop of `toVueRouter4`: walk the effective
segments accumulating `route.name` and `route.path`, descending into an
existing sibling when name and (catchall-normalized) path both match, and
finally push the route at the current level. -/
def placeRoute (parent : List IRoute) (segs : List (List Token)) (name path : String)
    (file : String) (groups : List String) (sibs : List RouteNodeFile) : List IRoute :=
  match segs with
  | [] => parent ++ [.mk name path file [] groups sibs]
  | seg :: rest =>
      let isIdx := isIndexSegment seg
      let segmentName := if isIdx then "index"
        else String.join (seg.map (fun t => if t.type = .group then "" else t.value))
      let name' := name ++ (if name = "" then "" else "/") ++ segmentName
      let hasNextNonIndex :=
        match rest.head? with
        | some s => ¬ isIndexSegment s
        | none => false
      let routePath := "/" ++ toVueRouterSegment seg hasNextNonIndex
      let fullPath := joinURL (if path = "" then "/" else path) (if isIdx then "/" else routePath)
      let normalized := String.mk (replaceAllSub fullPath.data "([^/]*)*".data "(.*)*".data)
      match parent.findIdx? (fun r => r.name == name' && r.path == normalized) with
      | some j =>
          match parent.get? j with
          | some m =>
              parent.set j (m.withChildren (placeRoute m.children rest name' "" file groups sibs))
          | none => parent
      | none =>
          if segmentName = "index" ∧ path = "" then
            placeRoute parent rest name' (path ++ "/") file groups sibs
          else if segmentName ≠ "index" then
            placeRoute parent rest name' (path ++ routePath) file groups sibs
          else
            placeRoute parent rest name' path file groups sibs

/-- `part` contains a colon not preceded by a backslash, continued from a
previous character. -/
def hasUnescapedColonAux (prev : Char) : List Char → Bool
  | [] => false
  | c :: rest => if c = ':' ∧ prev ≠ '\\' then true else hasUnescapedColonAux c rest

/-- The test `UNESCAPED_COLON_RE = /(?:^|[^\\]):/`. -/
def hasUnescapedColon (cs : List Char) : Bool :=
  match cs with
  | [] => false
  | c :: rest => if c = ':' then true else hasUnescapedColonAux c rest

/-- `haystack.includes(pat)`. -/
def containsSub (pat : List Char) : List Char → Bool
  | [] => pat.isEmpty
  | c :: rest => pat.isPrefixOf (c :: rest) || containsSub pat rest

/-- `path.split('/').filter(Boolean)`. -/
def pathParts (path : String) : List String :=
  ((splitOnChar '/' path.data).map String.mk).filter (fun s => s ≠ "")

/-- Score of one vue-router path part (`computeScoreSegments`): catchalls
lowest, then optional-repeatable, optional, repeatable, required dynamic,
static highest. -/
def scorePart (part : String) : Int :=
  if containsSub "(.*)*".data part.data ∨ containsSub "([^/]*)*".data part.data then -400
  else if hasUnescapedColon part.data then
    (if part.data.contains '?' then 100
     else if part.data.contains '+' then 200
     else if part.data.contains '*' then 50
     else 300)
  else 400

/-- `computeScoreSegments` of a route path. -/
def computeScoreSegments (path : String) : List Int :=
  (pathParts path).map scorePart

/-- Element-wise score comparison, missing entries reading as `-Infinity`
(`sb - sa`: higher score first; only the sign is consumed by the sort). -/
def cmpScores : List Int → List Int → Int
  | [], [] => 0
  | [], _ :: _ => 1
  | _ :: _, [] => -1
  | a :: as, b :: bs => if a ≠ b then b - a else cmpScores as bs

/-- `compareRoutes` from `src/converters.ts`: per-segment scores, then fewer
path segments, then locale comparison. -/
def compareRoutes (a b : IRoute) : Int :=
  let s := cmpScores (computeScoreSegments a.path) (computeScoreSegments b.path)
  if s ≠ 0 then s
  else
    let ca := (pathParts a.path).length
    let cb := (pathParts b.path).length
    if ca ≠ cb then (ca : Int) - (cb : Int)
    else lexCompare a.path.data b.path.data

/-- `INDEX_RE = /\/index$/` applied by the default name generator. -/
def stripIndexSuffix (s : String) : String :=
  if "/index".data.isSuffixOf s.data then String.mk (s.data.take (s.data.length - 6)) else s

/-- `defaultGetRouteName`: strip a trailing `/index`, replace `/` by `-`,
fall back to `"index"`. -/
def defaultGetRouteName (rawName : String) : String :=
  let s1 := stripIndexSuffix rawName
  let s2 := String.mk (s1.data.map (fun c => if c = '/' then '-' else c))
  if s2 = "" then "index" else s2

/-- Sort the transformed siblings by the comparator on the untransformed
record and project the results. -/
def finishRoutes (pairs : List (IRoute × VueRoute)) : List VueRoute :=
  (stableSort (fun a b => compareRoutes a.1 b.1) pairs).map Prod.snd

mutual

/-- Emit one route (the body of the `prepareRoutes` map): name suppression
under an empty-path child, leading-slash stripping for children,
`meta.groups`, named-view `components`, and the union of sibling modes. -/
def prepareOne (r : IRoute) (isChild : Bool) (getName : String → String) : VueRoute :=
  match r with
  | .mk nm p f children groups sibs =>
      let children' := if children.isEmpty then []
        else finishRoutes (prepareList children true getName)
      let path := if isChild ∧ p.data.head? = some '/' then String.mk p.data.tail else p
      let name : Option String :=
        if children'.any (fun c => c.path == "") then none else some (getName nm)
      let views := sibs.filter (fun x => x.viewName != "default")
      let comps : Option (List (String × String)) :=
        if views.isEmpty then none
        else some (views.foldl (fun acc v => recSet acc v.viewName v.path) [("default", f)])
      let modes := sibs.foldl (fun acc x =>
        match x.modes with
        | some ms => ms.foldl (fun a m => if a.contains m then a else a ++ [m]) acc
        | none => acc) []
      VueRoute.mk name path f children' (if groups.isEmpty then none else some groups) comps
        (if modes.isEmpty then none else some modes)

/-- Transform every sibling, keeping the intermediate record for sorting. -/
def prepareList (routes : List IRoute) (isChild : Bool) (getName : String → String) :
    List (IRoute × VueRoute) :=
  match routes with
  | [] => []
  | r :: rs => (r, prepareOne r isChild getName) :: prepareList rs isChild getName

end

/-- `prepareRoutes`: score and sort the sibling list, then emit each route.
The source sorts the intermediate records and then maps; since the transform
is element-wise, this is modelled by transforming first and stable-sorting the
(record, result) pairs by the comparator on the untransformed record.  The
`names` map only feeds the `onDuplicateRouteName` callback and does not affect
the returned routes, so it is not threaded here. -/
def prepareRoutes (routes : List IRoute) (isChild : Bool) (getName : String → String) :
    List VueRoute :=
  finishRoutes (prepareList routes isChild getName)

/-- Options of `toVueRouter4`.  The callbacks are modelled by an optional name
generator and a presence flag for `onDuplicateRouteName` (which only produces
warnings, never affecting the returned routes). -/
structure VueRouterEmitOptions where
  getRouteName : Option (String → String) := none
  onDuplicateRouteName : Bool := false

/-- `toVueRouter4` from `src/converters.ts` (the route computation; the claims
about the caching layer are settled against `toVueRouter4Cached` below):
flatten, sort by relative-path length then locale order, place every file with
the name+path nesting algorithm, and prepare the final routes. -/
def toVueRouter4 (t : RouteTree) (opts : VueRouterEmitOptions) : List VueRoute :=
  let fileInfos := stableSort (fun a b =>
      let d : Int := (a.relativePath.data.length : Int) - (b.relativePath.data.length : Int)
      if d ≠ 0 then d else lexCompare a.relativePath.data b.relativePath.data)
    (flattenTree t)
  let routes := fileInfos.foldl (fun rs info =>
      placeRoute rs info.segments "" (if info.segments.isEmpty then "/" else "")
        info.file info.groups info.siblingFiles) []
  prepareRoutes routes false (opts.getRouteName.getD defaultGetRouteName)

/-- Regular expressions over characters, used to give semantics to the source
strings emitted by `toRegExp` (the runtime regex engine is external to the
library; this is the standard semantics of the emitted syntax). -/
inductive RE where
  | eps
  | cls (p : Char → Bool)
  | seq (a b : RE)
  | alt (a b : RE)
  | star (a : RE)

/-- The regex accepts the empty string. -/
def RE.nullable : RE → Bool
  | .eps => true
  | .cls _ => false
  | .seq a b => a.nullable && b.nullable
  | .alt a b => a.nullable || b.nullable
  | .star _ => true

/-- Brzozowski derivative. -/
def RE.deriv : RE → Char → RE
  | .eps, _ => .cls (fun _ => false)
  | .cls p, c => if p c then .eps else .cls (fun _ => false)
  | .seq a b, c =>
      if a.nullable then .alt (.seq (a.deriv c) b) (b.deriv c) else .seq (a.deriv c) b
  | .alt a b, c => .alt (a.deriv c) (b.deriv c)
  | .star a, c => .seq (a.deriv c) (.star a)

/-- Full-string matching via derivatives (the emitted patterns are anchored at
both ends, so `pattern.test` is exactly full-string matching up to the
pattern's own optional parts). -/
def RE.matchList (r : RE) : List Char → Bool
  | [] => r.nullable
  | c :: cs => (r.deriv c).matchList cs

/-- Concatenation of a list of regexes. -/
def catList (l : List RE) : RE :=
  l.foldr RE.seq .eps

/-- The class `[^/]`. -/
def nonSlash : RE :=
  .cls (fun c => c ≠ '/')

/-- A literal character. -/
def reLit (c : Char) : RE :=
  .cls (fun x => x = c)

/-- `r+` as `r · r*`. -/
def rePlus (r : RE) : RE :=
  .seq r (.star r)

/-- The JavaScript `.` class (any character except line terminators). -/
def reDot : RE :=
  .cls (fun c => ¬ (c = '\n' ∨ c = '\r' ∨ c = Char.ofNat 0x2028 ∨ c = Char.ofNat 0x2029))

/-- Semantics of the pattern fragment `regexpToken` emits for one token:
escaped static text matches itself; `(?<k>[^/]+)`, `(?<k>[^/]*)`,
`(?<k>[^/]+(?:/[^/]+)*)`, `(?<k>[^/]*(?:/[^/]+)*)` and `(?<k>.*)` as written;
a group token contributes nothing. -/
def tokenRE (t : Token) : RE :=
  match t.type with
  | .static => catList (t.value.data.map reLit)
  | .dynamic => rePlus nonSlash
  | .optional => .star nonSlash
  | .repeatable => .seq (rePlus nonSlash) (.star (.seq (reLit '/') (rePlus nonSlash)))
  | .optionalRepeatable => .seq (.star nonSlash) (.star (.seq (reLit '/') (rePlus nonSlash)))
  | .catchall => .star reDot
  | .group => .eps

/-- Semantics of one segment of the emitted pattern: `(?:\/X)?` for optional
segments, `\/X` otherwise (mirroring `regexpStep`, including its guard
skipping segments with an empty fragment). -/
def segmentRE (seg : List Token) : RE :=
  let body := RE.seq (reLit '/') (catList (seg.map tokenRE))
  if isOptionalSegment seg then .alt .eps body else body

/-- Semantics of the full emitted pattern `^…\/?$`: the segments in order
followed by the optional trailing slash. -/
def pathRE (segs : List (List Token)) : RE :=
  let body := segs.foldl (fun acc seg =>
    if seg.all (fun t => t.type = .group) then acc
    else if (regexpSegment seg).1 = "" then acc
    else RE.seq acc (segmentRE seg)) .eps
  .seq body (.alt .eps (reLit '/'))

/-- Whether the pattern emitted for `segs` matches the whole string `s`. -/
def regexpMatches (segs : List (List Token)) (s : String) : Bool :=
  (pathRE segs).matchList s.data

/-- A cached `toVueRouter4` result stored on the tree (`~cachedVueRouter`). -/
structure CachedVueRouter where
  fingerprint : String
  routes : List VueRoute

/-- A route tree together with its converter cache slot. -/
structure CachingTree where
  tree : RouteTree
  cache : Option CachedVueRouter

/-- Options of the caching emitter: the callbacks of `VueRouterEmitOptions`
plus the `attrs` table (whose only role in the claims settled here is its
appearance in the cache fingerprint). -/
structure VueRouterEmitOptionsC extends VueRouterEmitOptions where
  attrs : List (String × List String) := []

/-- Modelled from the spec: the serialization of `attrs` used by the cache
fingerprint. -/
def serializeAttrs (attrs : List (String × List String)) : String :=
  joinSep ";" (attrs.map (fun e => e.1 ++ "=" ++ joinSep "," e.2))

/-- Modelled from the spec: the cache fingerprint of the options — presence of
each callback and the serialized `attrs`. -/
def optionsFingerprint (o : VueRouterEmitOptionsC) : String :=
  (if o.getRouteName.isSome then "G" else "g")
    ++ (if o.onDuplicateRouteName then "D" else "d")
    ++ "|" ++ serializeAttrs o.attrs

mutual

/-- Deep clone of a route: every node of the object graph is rebuilt, so the
caller receives a value deep-equal to, but sharing no object with, the cached
one. -/
def cloneVueRoute : VueRoute → VueRoute
  | .mk n p f c g comps m => .mk n p f (cloneVueRoutes c) g comps m

/-- Deep clone of a route list. -/
def cloneVueRoutes : List VueRoute → List VueRoute
  | [] => []
  | r :: rs => cloneVueRoute r :: cloneVueRoutes rs

end

/-- Modelled from the spec: the caching layer of `toVueRouter4`, which is
missing from `src/converters.ts` (the repository's tests exercise it through
the `~cachedVueRouter` slot).  The result is memoized on the tree keyed by the
options fingerprint, reused while the tree is not dirty, recomputed (clearing
the dirty flag and storing a fresh cache entry) otherwise, and returned as a
deep clone on every call. -/
def toVueRouter4Cached (st : CachingTree) (o : VueRouterEmitOptionsC) :
    List VueRoute × CachingTree :=
  let fp := optionsFingerprint o
  let recompute :=
    let rs := toVueRouter4 st.tree o.toVueRouterEmitOptions
    (cloneVueRoutes rs,
      CachingTree.mk (RouteTree.mk st.tree.root false st.tree.fileIndex) (some ⟨fp, rs⟩))
  match st.cache with
  | some c =>
      if st.tree.dirty = false ∧ c.fingerprint = fp then (cloneVueRoutes c.routes, st)
      else recompute
  | none => recompute

/-- A token type the rou3 emitter supports. -/
def supportedTok (t : Token) : Bool :=
  t.type = .static ∨ t.type = .dynamic ∨ t.type = .catchall ∨ t.type = .group

mutual

/-- Every token of every file of every node of the subtree satisfies `P`. -/
def nodeTokens (P : Token → Bool) : RouteNode → Bool
  | .mk _ _ files children =>
      files.all (fun f => f.originalSegments.all (fun seg => seg.all P)) &&
        nodeTokensList P children

/-- `nodeTokens` over a children list. -/
def nodeTokensList (P : Token → Bool) : List RouteNode → Bool
  | [] => true
  | c :: cs => nodeTokens P c && nodeTokensList P cs

end

mutual

/-- Some file with the given path is attached somewhere in the subtree. -/
def pathInNode (p : String) : RouteNode → Bool
  | .mk _ _ files children => files.any (fun f => f.path == p) || pathInChildren p children

/-- `pathInNode` over a children list. -/
def pathInChildren (p : String) : List RouteNode → Bool
  | [] => false
  | c :: cs => pathInNode p c || pathInChildren p cs

end

mutual

/-- Every strict descendant of the node holds a file or a child (the shape
every tree reachable through the API has: insertion only creates chains
ending in a file, and removal prunes emptied chains). -/
def noEmptyDesc : RouteNode → Bool
  | .mk _ _ _ children => noEmptyDescList children

/-- Children are nonempty and recursively so. -/
def noEmptyDescList : List RouteNode → Bool
  | [] => true
  | c :: cs =>
      (¬ (c.files.isEmpty ∧ c.children.isEmpty) : Bool) && noEmptyDesc c && noEmptyDescList cs

end

mutual

/-- The `rawSegment` keys of every children list in the subtree are distinct
(the `Map` keying invariant). -/
def childKeysNodup : RouteNode → Bool
  | .mk _ _ _ children =>
      (children.map RouteNode.rawSegment).Nodup && childKeysNodupList children

/-- `childKeysNodup` over a children list. -/
def childKeysNodupList : List RouteNode → Bool
  | [] => true
  | c :: cs => childKeysNodup c && childKeysNodupList cs

end

/-- The keys of the non-group segments: the child-key path from the root to
the node an insertion of these segments reaches. -/
def effKeys (segs : List (List Token)) : List String :=
  (segs.filter (fun s => ¬ s.all (fun t => t.type = .group))).map segmentToKey

/-- The group names accumulated by the insertion walk of these segments. -/
def groupsOfSegs (segs : List (List Token)) : List String :=
  ((segs.filter (fun s => s.all (fun t => t.type = .group))).map
    (fun s => s.map Token.value)).flatten

/-- One API operation on a route tree (for the file-index invariant). -/
inductive TreeOp where
  | add (path : String) (priority : Int)
  | remove (path : String)

/-- Apply one operation (`addFile` or `removeFile`) with fixed options. -/
def applyOp (opts : BuildOpts) (t : RouteTree) : TreeOp → Except String RouteTree
  | .add p prio => addFile opts t p prio
  | .remove p => .ok (removeFile t p).2

/-- Apply a sequence of operations. -/
def applyOps (opts : BuildOpts) : RouteTree → List TreeOp → Except String RouteTree
  | t, [] => .ok t
  | t, op :: ops =>
      match applyOp opts t op with
      | .error e => .error e
      | .ok t2 => applyOps opts t2 ops

mutual

/-- Every file of every node in the subtree at address `addr` has a file-index
entry pointing exactly at its node. -/
def filesIndexed (fi : FileIndex) : RouteNode → List String → Bool
  | .mk _ _ files children, addr =>
      files.all (fun f => fiGet fi f.path == some addr) &&
        filesIndexedChildren fi children addr

/-- `filesIndexed` over children. -/
def filesIndexedChildren (fi : FileIndex) : List RouteNode → List String → Bool
  | [], _ => true
  | c :: cs, addr =>
      filesIndexed fi c (addr ++ [c.rawSegment]) && filesIndexedChildren fi cs addr

end

/-- Every file-index entry points at a node holding exactly one file with that
path. -/
def entriesValid (root : RouteNode) (fi : FileIndex) : Bool :=
  fi.all (fun e =>
    match navigate root e.2 with
    | some n => (n.files.filter (fun f => f.path == e.1)).length == 1
    | none => false)

/-- The file-index coherence invariant of claim C9: every file held by a node
appears in exactly one index entry, and that entry maps its path to the node
holding it (no stale and no missing entries). -/
def coherent (t : RouteTree) : Bool :=
  filesIndexed t.fileIndex t.root [] && entriesValid t.root t.fileIndex &&
    (t.fileIndex.map Prod.fst).Nodup

/-- The walk of `insertParsedPath` reaches a terminal that holds no file with
the incoming dedupe key, so the insertion is a plain push (the precondition of
the add/remove roundtrip; follows the recursion of `insertAux`). -/
def insertIsPush (node : RouteNode) (segs : List (List Token)) (groups : List String)
    (pp : ParsedPath) : Bool :=
  match segs with
  | seg :: rest =>
      if seg.all (fun t => t.type = .group) then
        insertIsPush node rest (groups ++ seg.map (·.value)) pp
      else
        match getChild node (segmentToKey seg) with
        | some child => insertIsPush child rest groups pp
        | none => true
  | [] => (node.files.find? (fun f => f.dedupeKey == dedupeKeyOf pp groups)).isNone

mutual

/-- The (path, address) pairs the tree holds: one per file, with the child-key
path from the node to the file's owner.  The file index of a coherent tree is
exactly this list up to order. -/
def treeEntries : RouteNode → List (String × List String)
  | .mk _ _ files children =>
      files.map (fun f => (f.path, ([] : List String))) ++ treeEntriesChildren children

/-- `treeEntries` over a children list, prefixing each child's key. -/
def treeEntriesChildren : List RouteNode → List (String × List String)
  | [] => []
  | c :: cs =>
      (treeEntries c).map (fun e => (e.1, c.rawSegment :: e.2)) ++ treeEntriesChildren cs

end

/-- A held file is canonical for an address: it parses back, its parsed
segments spell that address, and the stored entry is exactly the one the
insertion would build there. -/
def canonFile (opts : BuildOpts) (addr : List String) (f : RouteNodeFile) : Bool :=
  match parsePathOne opts.toParseOpts f.path with
  | .ok (pp, _) =>
      effKeys pp.segments == addr &&
        f == mkFileEntry pp f.priority (groupsOfSegs pp.segments)
  | .error _ => false

mutual

/-- Canonical placement (the state invariant of trees built with one fixed
options record): every file parses back to itself and sits at the address its
parsed segments determine, and the per-node dedupe keys are distinct. -/
def canonicalNode (opts : BuildOpts) : RouteNode → List String → Bool
  | .mk _ _ files children, addr =>
      files.all (canonFile opts addr) &&
      decide ((files.map (fun f => f.dedupeKey)).Nodup) &&
      canonicalChildren opts children addr

/-- `canonicalNode` over a children list. -/
def canonicalChildren (opts : BuildOpts) : List RouteNode → List String → Bool
  | [], _ => true
  | c :: cs, addr =>
      canonicalNode opts c (addr ++ [c.rawSegment]) && canonicalChildren opts cs addr

end

/-- The file-index exactness of claim C9: the index is, up to order, exactly
the (path, owning-node address) table of the files the tree holds, with every
path appearing in exactly one entry. -/
abbrev indexExact (t : RouteTree) : Prop :=
  t.fileIndex.Perm (treeEntries t.root) ∧ (t.fileIndex.map Prod.fst).Nodup

/-- The subtree transform of `removeFile`'s fast path: splice the first file
with the path out of the node at the address, then prune emptied ancestors
along the same address. -/
def removeAt (node : RouteNode) (A : List String) (p : String) : RouteNode :=
  pruneAddr (updateAt node A (fun m => m.withFiles (removeFirstFile m.files p))) A

/-- The full inductive invariant behind claim C9: canonical placement, unique
child keys, no empty descendants, and file-index exactness. -/
abbrev treeInv (opts : BuildOpts) (t : RouteTree) : Prop :=
  canonicalNode opts t.root [] = true ∧
  childKeysNodup t.root = true ∧
  noEmptyDesc t.root = true ∧
  t.fileIndex.Perm (treeEntries t.root) ∧
  (t.fileIndex.map Prod.fst).Nodup

/-- `treeInv` restated on the accumulator pairs of `buildTree`'s fold. -/
abbrev pairInv (opts : BuildOpts) (s : RouteNode × FileIndex) : Prop :=
  canonicalNode opts s.1 [] = true ∧
  childKeysNodup s.1 = true ∧
  noEmptyDesc s.1 = true ∧
  s.2.Perm (treeEntries s.1) ∧
  (s.2.map Prod.fst).Nodup

/-! Theorems.  The claim theorems are named `claim_Cn`; everything else is
supporting lemmas. -/

set_option maxHeartbeats 1600000 in
/-- The only exceptions of `segStep` are 'Empty param' and 'Empty group'. -/
theorem segStep_err_shape {seg : List Char} {p : String} {i : Nat} {t : SegmentType}
    {buffer : List Char} {tokens : List Token} {warns : List String} {c : Char} {m : String}
    (h : segStep seg p i t buffer tokens warns c = .err m) :
    m = "Empty param" ∨ m = "Empty group" := by
  unfold segStep at h
  cases t <;> (try (repeat' split at h)) <;> (try simp_all) <;>
    (try (repeat' split at h)) <;> simp_all

/-- With fuel above the loop measure, the scanning loop can only raise
'Empty param' or 'Empty group'. -/
theorem segLoopF_error_shape {seg : List Char} {p : String} :
    ∀ {fuel i : Nat} {st : SegState} {buf : List Char} {toks : List Token}
      {ws : List String} {m : String},
    segMeasure seg i st < fuel →
    segLoopF seg p fuel i st buf toks ws = .error m →
    m = "Empty param" ∨ m = "Empty group" := by
  intro fuel
  induction fuel with
  | zero => intro i st buf toks ws m hμ; omega
  | succ fuel ih =>
      intro i st buf toks ws m hμ h
      rw [segLoopF] at h
      split at h
      case isTrue hlt =>
        cases st with
        | none =>
            by_cases h1 : seg.get ⟨i, hlt⟩ = '['
            · rw [if_pos h1] at h
              refine ih ?_ h
              have hi : i < seg.length := hlt
              simp [segMeasure] at hμ ⊢
              omega
            · rw [if_neg h1] at h
              by_cases h2 : seg.get ⟨i, hlt⟩ = '('
              · rw [if_pos h2] at h
                refine ih ?_ h
                have hi : i < seg.length := hlt
                simp [segMeasure] at hμ ⊢
                omega
              · rw [if_neg h2] at h
                refine ih ?_ h
                have hi : i < seg.length := hlt
                simp [segMeasure] at hμ ⊢
                omega
        | some t =>
            cases hstep : segStep seg p i t buf toks ws (seg.get ⟨i, hlt⟩) with
            | err m' =>
                simp only [hstep, Except.error.injEq] at h
                subst h
                exact segStep_err_shape hstep
            | next adv2 st' buf' toks' ws' =>
                simp only [hstep] at h
                refine ih ?_ h
                have hi : i < seg.length := hlt
                cases st' <;> cases adv2 <;> simp [segMeasure] at hμ ⊢ <;> omega
      case isFalse => exact Except.noConfusion h

/-- `finishSeg` can only raise 'Unfinished param' / 'Unfinished group'. -/
theorem finishSeg_error_shape {st : SegState} {buf : List Char} {toks : List Token}
    {m : String} (h : finishSeg st buf toks = .error m) :
    (∃ b, m = "Unfinished param \"" ++ b ++ "\"") ∨
    (∃ b, m = "Unfinished group \"" ++ b ++ "\"") := by
  cases st with
  | none => simp [finishSeg] at h
  | some t =>
      cases t <;> simp only [finishSeg] at h <;> (try exact Except.noConfusion h)
      · injection h with h2
        exact Or.inl ⟨String.mk buf, h2.symm⟩
      · injection h with h2
        exact Or.inr ⟨String.mk buf, h2.symm⟩

/-- Every exception of `parseSegment` is one of the four malformed-syntax
messages. -/
theorem parseSegment_error_shape {s p m : String} (h : parseSegment s p = .error m) :
    m = "Empty param" ∨ m = "Empty group" ∨
    (∃ b, m = "Unfinished param \"" ++ b ++ "\"") ∨
    (∃ b, m = "Unfinished group \"" ++ b ++ "\"") := by
  unfold parseSegment at h
  split at h
  · exact Except.noConfusion h
  · cases hl : segLoop s.data p 0 none [] [] [] with
    | error e =>
        rw [hl] at h
        have h2 : (Except.error e : Except String (List Token × List String)) =
            Except.error m := h
        injection h2 with h3
        subst h3
        have h4 : segLoopF s.data p (segMeasure s.data 0 none + 1) 0 none [] [] [] =
            Except.error e := hl
        have := segLoopF_error_shape (Nat.lt_succ_self _) h4
        tauto
    | ok r =>
        obtain ⟨st, buf, toks, ws⟩ := r
        rw [hl] at h
        have h2 : (match finishSeg st buf toks with
            | Except.error e => (Except.error e : Except String (List Token × List String))
            | Except.ok toks2 => Except.ok (toks2, ws)) = Except.error m := h
        cases hf : finishSeg st buf toks with
        | error e =>
            simp only [hf] at h2
            injection h2 with h3
            subst h3
            have := finishSeg_error_shape hf
            tauto
        | ok toks2 =>
            simp only [hf] at h2
            exact Except.noConfusion h2

/-- Claim C5: `parseSegment` throws exactly in the four malformed-syntax
cases — 'Empty param', 'Empty group', 'Unfinished param', 'Unfinished group' —
and never with any other message; each of the four does occur; and a
disallowed character inside a dynamic parameter name is dropped from the
value and reported through `warn` instead of being thrown. -/
theorem claim_C5 :
    (∀ s p m : String, parseSegment s p = .error m →
      m = "Empty param" ∨ m = "Empty group" ∨
      (∃ b, m = "Unfinished param \"" ++ b ++ "\"") ∨
      (∃ b, m = "Unfinished group \"" ++ b ++ "\"")) ∧
    parseSegment "[]" "f.vue" = .error "Empty param" ∧
    parseSegment "a()b" "f.vue" = .error "Empty group" ∧
    parseSegment "[x" "f.vue" = .error "Unfinished param \"x\"" ∧
    parseSegment "(x" "f.vue" = .error "Unfinished group \"x\"" ∧
    parseSegment "[a-b]" "f.vue" = .ok ([⟨.dynamic, "ab"⟩], [warnMsg '-' "f.vue"]) :=
  ⟨fun _ _ _ h => parseSegment_error_shape h, rfl, rfl, rfl, rfl, rfl⟩

/-- Witness for C5: the universally quantified part applied at the concrete
erroring input `"[x"`. -/
theorem claim_C5_witness :
    parseSegment "[x" "f.vue" = .error "Unfinished param \"x\"" ∧
    ("Unfinished param \"x\"" = "Empty param" ∨ "Unfinished param \"x\"" = "Empty group" ∨
      (∃ b, "Unfinished param \"x\"" = "Unfinished param \"" ++ b ++ "\"") ∨
      (∃ b, "Unfinished param \"x\"" = "Unfinished group \"" ++ b ++ "\"")) :=
  ⟨rfl, claim_C5.1 "[x" "f.vue" "Unfinished param \"x\"" rfl⟩

/-- Claim C10: a segment string that ends while the tokenizer is in the
`optional` or `catchall` state does not throw: the buffered name is flushed
as a token of that state's type; end-of-input in the `dynamic` and `group`
states raises 'Unfinished param' / 'Unfinished group' instead. -/
theorem claim_C10 :
    (∀ (s p : String) (t : SegmentType) (buf : List Char) (toks : List Token)
        (ws : List String),
      s ≠ "" →
      segLoop s.data p 0 none [] [] [] = .ok (some t, buf, toks, ws) →
      (t = .optional ∨ t = .catchall) →
      parseSegment s p =
        .ok (normalizeIndex (if buf = [] then toks else toks ++ [⟨t, String.mk buf⟩]), ws)) ∧
    (∀ (s p : String) (buf : List Char) (toks : List Token) (ws : List String),
      s ≠ "" →
      segLoop s.data p 0 none [] [] [] = .ok (some .dynamic, buf, toks, ws) →
      parseSegment s p = .error ("Unfinished param \"" ++ String.mk buf ++ "\"")) ∧
    (∀ (s p : String) (buf : List Char) (toks : List Token) (ws : List String),
      s ≠ "" →
      segLoop s.data p 0 none [] [] [] = .ok (some .group, buf, toks, ws) →
      parseSegment s p = .error ("Unfinished group \"" ++ String.mk buf ++ "\"")) ∧
    parseSegment "[[foo" "f.vue" = .ok ([⟨.optional, "foo"⟩], []) ∧
    parseSegment "[...bar" "f.vue" = .ok ([⟨.catchall, "bar"⟩], []) := by
  refine ⟨?_, ?_, ?_, rfl, rfl⟩
  · intro s p t buf toks ws hne hl ht
    unfold parseSegment
    rw [if_neg hne, hl]
    rcases ht with h | h <;> subst h <;> simp [Except.bind, finishSeg]
  · intro s p buf toks ws hne hl
    unfold parseSegment
    rw [if_neg hne, hl]
    simp [Except.bind, finishSeg]
  · intro s p buf toks ws hne hl
    unfold parseSegment
    rw [if_neg hne, hl]
    simp [Except.bind, finishSeg]

/-- Witness for C10: the flush part applied at `"[[foo"` and the
'Unfinished param' part applied at `"[x"`. -/
theorem claim_C10_witness :
    parseSegment "[[foo" "f.vue" = .ok ([⟨.optional, "foo"⟩], []) ∧
    parseSegment "[x" "f.vue" = .error ("Unfinished param \"" ++ String.mk ['x'] ++ "\"") := by
  constructor
  · have := claim_C10.1 "[[foo" "f.vue" .optional ['f', 'o', 'o'] [] [] (by decide) rfl
      (Or.inl rfl)
    simpa using this
  · exact claim_C10.2.1 "[x" "f.vue" ['x'] [] [] (by decide) rfl

/-- One `toRegExp` fold step only appends to the accumulated source. -/
theorem regexpStep_src (acc : String × List String) (seg : List Token) :
    ∃ x, (regexpStep acc seg).1 = acc.1 ++ x := by
  unfold regexpStep
  split
  · exact ⟨"", (String.append_empty acc.1).symm⟩
  · rcases hrs : regexpSegment seg with ⟨re, ks⟩
    simp only [hrs]
    split
    · exact ⟨"", (String.append_empty acc.1).symm⟩
    · exact ⟨_, rfl⟩

/-- The `toRegExp` segment fold only appends to the accumulated source. -/
theorem regexpFold_src (segs : List (List Token)) :
    ∀ acc : String × List String, ∃ m : String, (List.foldl regexpStep acc segs).1 = acc.1 ++ m := by
  induction segs with
  | nil => exact fun acc => ⟨"", (String.append_empty acc.1).symm⟩
  | cons seg rest ih =>
      intro acc
      obtain ⟨x, hx⟩ := regexpStep_src acc seg
      obtain ⟨m, hm⟩ := ih (regexpStep acc seg)
      exact ⟨x ++ m, by rw [List.foldl_cons, hm, hx, String.append_assoc]⟩

/-- Every pattern source built by `regexpPath` is anchored: it starts with `^`
and ends with the optional trailing slash and the end anchor. -/
theorem regexpPath_src (segs : List (List Token)) :
    ∃ m, (regexpPath segs).1 = "^" ++ m ++ "\\/?$" := by
  obtain ⟨m, hm⟩ := regexpFold_src segs ("^", [])
  exact ⟨m, by rw [regexpPath, hm]⟩

/-- Every route emitted by `toRegExp` has an anchored pattern. -/
theorem toRegExp_anchored (t : RouteTree) (r : RegExpRoute) (hr : r ∈ toRegExp t) :
    ∃ m, r.source = "^" ++ m ++ "\\/?$" := by
  unfold toRegExp at hr
  obtain ⟨info, -, hinfo⟩ := List.mem_map.mp hr
  subst hinfo
  exact regexpPath_src info.segments

/-- Claim C6: every pattern produced by `toRegExp` is anchored at both ends
(leading `^`, trailing `\/?$`), so it matches only a complete path; the
pattern for the single input `'[slug].vue'` is `^\/(?<slug>[^/]+)\/?$`, built
from the effective segments `[[dynamic slug]]`, and its standard regex
semantics matches `"/file"` but none of `"/file/extra"`, `"file"`, `""`. -/
theorem claim_C6 :
    (∀ (t : RouteTree) (r : RegExpRoute), r ∈ toRegExp t →
      ∃ m, r.source = "^" ++ m ++ "\\/?$") ∧
    (buildTree {} ["[slug].vue"]).map toRegExp =
      .ok [⟨"^\\/(?<slug>[^/]+)\\/?$", ["slug"], "[slug].vue"⟩] ∧
    (buildTree {} ["[slug].vue"]).map (fun t => (flattenTree t).map (fun i => i.segments)) =
      .ok [[[⟨.dynamic, "slug"⟩]]] ∧
    regexpMatches [[⟨.dynamic, "slug"⟩]] "/file" = true ∧
    regexpMatches [[⟨.dynamic, "slug"⟩]] "/file/extra" = false ∧
    regexpMatches [[⟨.dynamic, "slug"⟩]] "file" = false ∧
    regexpMatches [[⟨.dynamic, "slug"⟩]] "" = false :=
  ⟨toRegExp_anchored, rfl, rfl, rfl, rfl, rfl, rfl⟩

/-- Witness for C6: the anchoring statement applied to the concrete tree built
from `'[slug].vue'`. -/
theorem claim_C6_witness :
    ∃ m, ("^\\/(?<slug>[^/]+)\\/?$" : String) = "^" ++ m ++ "\\/?$" := by
  exact claim_C6.1
    ⟨RouteNode.mk "" [⟨.static, ""⟩] []
      [RouteNode.mk "[slug]" [⟨.dynamic, "slug"⟩]
        [mkFileEntry ⟨"[slug].vue", [[⟨.dynamic, "slug"⟩]], none⟩ 0 []] []],
      true, [("[slug].vue", ["[slug]"])]⟩
    ⟨"^\\/(?<slug>[^/]+)\\/?$", ["slug"], "[slug].vue"⟩ (List.Mem.head _)

/-- The three rou3 error messages. -/
theorem rou3Token_err_shape {part : String} {t : Token} {m : String}
    (h : rou3Token part t = .error m) :
    m = "[unrouting] `toRou3` does not support optional parameters" ∨
    m = "[unrouting] `toRou3` does not support repeatable parameters" ∨
    m = "[unrouting] `toRou3` does not support optional repeatable parameters" := by
  unfold rou3Token at h
  rcases t with ⟨ty, v⟩
  cases ty <;> simp_all

/-- A supported token never raises. -/
theorem rou3Token_ok {part : String} {t : Token} (h : supportedTok t) :
    ∃ y, rou3Token part t = .ok y := by
  unfold rou3Token supportedTok at *
  rcases t with ⟨ty, v⟩
  cases ty <;> simp_all <;> exact ⟨_, rfl⟩

/-- An unsupported token always raises. -/
theorem rou3Token_err_of_unsupported {part : String} {t : Token} (h : ¬ supportedTok t) :
    ∃ m, rou3Token part t = .error m := by
  unfold rou3Token supportedTok at *
  rcases t with ⟨ty, v⟩
  cases ty <;> simp_all <;> exact ⟨_, rfl⟩

/-- Error shape of the rou3 segment fold. -/
theorem rou3SegmentFold_err_shape {seg : List Token} :
    ∀ {acc m : String}, exceptFoldl rou3Token acc seg = .error m →
    m = "[unrouting] `toRou3` does not support optional parameters" ∨
    m = "[unrouting] `toRou3` does not support repeatable parameters" ∨
    m = "[unrouting] `toRou3` does not support optional repeatable parameters" := by
  induction seg with
  | nil => intro acc m h; exact Except.noConfusion h
  | cons x xs ih =>
      intro acc m h
      rw [exceptFoldl] at h
      cases hx : rou3Token acc x with
      | error e =>
          rw [hx] at h
          injection h with h2
          subst h2
          exact rou3Token_err_shape hx
      | ok y =>
          rw [hx] at h
          exact ih h

/-- A segment containing an unsupported token makes the fold raise. -/
theorem rou3SegmentFold_err_of_unsupported {seg : List Token}
    (h : ∃ tok ∈ seg, ¬ supportedTok tok) :
    ∀ acc : String, ∃ m, exceptFoldl rou3Token acc seg = .error m := by
  induction seg with
  | nil => simp at h
  | cons x xs ih =>
      intro acc
      by_cases hx : supportedTok x
      · obtain ⟨y, hy⟩ := @rou3Token_ok acc _ hx
        have hrest : ∃ tok ∈ xs, ¬ supportedTok tok := by
          obtain ⟨tok, htok, hts⟩ := h
          rcases List.mem_cons.mp htok with rfl | hmem
          · exact absurd hx hts
          · exact ⟨tok, hmem, hts⟩
        obtain ⟨m, hm⟩ := ih hrest y
        exact ⟨m, by rw [exceptFoldl, hy]; exact hm⟩
      · obtain ⟨m, hm⟩ := @rou3Token_err_of_unsupported acc _ hx
        exact ⟨m, by rw [exceptFoldl, hm]⟩

/-- A segment of supported tokens never raises. -/
theorem rou3SegmentFold_ok {seg : List Token} (h : ∀ tok ∈ seg, supportedTok tok) :
    ∀ acc : String, ∃ y, exceptFoldl rou3Token acc seg = .ok y := by
  induction seg with
  | nil => exact fun acc => ⟨acc, rfl⟩
  | cons x xs ih =>
      intro acc
      obtain ⟨y, hy⟩ := @rou3Token_ok acc _ (h x (by simp))
      obtain ⟨z, hz⟩ := ih (fun tok ht => h tok (by simp [ht])) y
      exact ⟨z, by rw [exceptFoldl, hy]; exact hz⟩

/-- Error shape of the rou3 path fold. -/
theorem rou3PathFold_err_shape {segs : List (List Token)} :
    ∀ {acc m : String},
    exceptFoldl (fun path seg =>
      if seg.all (fun t => t.type = .group) then .ok path
      else
        match rou3Segment seg with
        | .error e => .error e
        | .ok part => .ok (if part = "" then path else joinURL path part)) acc segs
      = .error m →
    m = "[unrouting] `toRou3` does not support optional parameters" ∨
    m = "[unrouting] `toRou3` does not support repeatable parameters" ∨
    m = "[unrouting] `toRou3` does not support optional repeatable parameters" := by
  induction segs with
  | nil => intro acc m h; exact Except.noConfusion h
  | cons seg rest ih =>
      intro acc m h
      rw [exceptFoldl] at h
      by_cases hg : seg.all (fun t => t.type = .group)
      · rw [if_pos hg] at h
        exact ih h
      · rw [if_neg hg] at h
        cases hs : rou3Segment seg with
        | error e =>
            rw [hs] at h
            injection h with h2
            subst h2
            exact rou3SegmentFold_err_shape hs
        | ok part =>
            rw [hs] at h
            exact ih h

/-- If some effective segment contains an unsupported token, the path fold
raises. -/
theorem rou3PathFold_err_of_unsupported {segs : List (List Token)}
    (h : ∃ seg ∈ segs, ∃ tok ∈ seg, ¬ supportedTok tok) :
    ∀ acc : String, ∃ m,
    exceptFoldl (fun path seg =>
      if seg.all (fun t => t.type = .group) then .ok path
      else
        match rou3Segment seg with
        | .error e => .error e
        | .ok part => .ok (if part = "" then path else joinURL path part)) acc segs
      = .error m := by
  induction segs with
  | nil => simp at h
  | cons seg rest ih =>
      intro acc
      by_cases hin : ∃ tok ∈ seg, ¬ supportedTok tok
      · obtain ⟨tok, htok, hts⟩ := hin
        have hg : ¬ seg.all (fun t => t.type = .group) = true := by
          intro hall
          exact hts (by
            unfold supportedTok
            have := List.all_eq_true.mp hall tok htok
            simp_all)
        cases hsg : rou3Segment seg with
        | error e => exact ⟨e, by rw [exceptFoldl, if_neg hg, hsg]⟩
        | ok part =>
            obtain ⟨m, hm⟩ := rou3SegmentFold_err_of_unsupported ⟨tok, htok, hts⟩ ""
            rw [rou3Segment] at hsg
            rw [hm] at hsg
            exact Except.noConfusion hsg
      · obtain ⟨s, hs, tok, htok, hts⟩ := h
        have hmem : s ∈ rest := by
          rcases List.mem_cons.mp hs with rfl | hmem
          · exact absurd ⟨tok, htok, hts⟩ hin
          · exact hmem
        by_cases hg : seg.all (fun t => t.type = .group)
        · obtain ⟨m, hm⟩ := ih ⟨s, hmem, tok, htok, hts⟩ acc
          exact ⟨m, by rw [exceptFoldl, if_pos hg]; exact hm⟩
        · cases hsg : rou3Segment seg with
          | error e => exact ⟨e, by rw [exceptFoldl, if_neg hg, hsg]⟩
          | ok part =>
              obtain ⟨m, hm⟩ :=
                ih ⟨s, hmem, tok, htok, hts⟩ (if part = "" then acc else joinURL acc part)
              refine ⟨m, ?_⟩
              rw [exceptFoldl, if_neg hg, hsg]
              exact hm

/-- If every token of every segment is supported, the path fold succeeds. -/
theorem rou3PathFold_ok {segs : List (List Token)}
    (h : ∀ seg ∈ segs, ∀ tok ∈ seg, supportedTok tok) :
    ∀ acc : String, ∃ y,
    exceptFoldl (fun path seg =>
      if seg.all (fun t => t.type = .group) then .ok path
      else
        match rou3Segment seg with
        | .error e => .error e
        | .ok part => .ok (if part = "" then path else joinURL path part)) acc segs
      = .ok y := by
  induction segs with
  | nil => exact fun acc => ⟨acc, rfl⟩
  | cons seg rest ih =>
      intro acc
      by_cases hg : seg.all (fun t => t.type = .group)
      · obtain ⟨y, hy⟩ := ih (fun s hs tok ht => h s (by simp [hs]) tok ht) acc
        exact ⟨y, by rw [exceptFoldl, if_pos hg]; exact hy⟩
      · obtain ⟨part, hpart⟩ := rou3SegmentFold_ok (h seg (by simp)) ""
        obtain ⟨y, hy⟩ :=
          ih (fun s hs tok ht => h s (by simp [hs]) tok ht)
            (if part = "" then acc else joinURL acc part)
        refine ⟨y, ?_⟩
        rw [exceptFoldl, if_neg hg]
        rw [show rou3Segment seg = .ok part from hpart]
        exact hy

/-- Error shape of `toRou3`. -/
theorem toRou3_err_shape {t : RouteTree} {m : String} (h : toRou3 t = .error m) :
    m = "[unrouting] `toRou3` does not support optional parameters" ∨
    m = "[unrouting] `toRou3` does not support repeatable parameters" ∨
    m = "[unrouting] `toRou3` does not support optional repeatable parameters" := by
  unfold toRou3 at h
  generalize flattenTree t = infos at h
  induction infos with
  | nil => exact Except.noConfusion h
  | cons info rest ih =>
      rw [exceptMap] at h
      cases hp : rou3Path info.segments with
      | error e =>
          rw [hp] at h
          simp only at h
          injection h with h2
          subst h2
          exact rou3PathFold_err_shape hp
      | ok p =>
          rw [hp] at h
          simp only at h
          cases hr : exceptMap (fun info =>
              match rou3Path info.segments with
              | .error e => .error e
              | .ok p => .ok (Rou3Route.mk p info.file)) rest with
          | error e =>
              rw [hr] at h
              injection h with h2
              subst h2
              exact ih hr
          | ok rs =>
              rw [hr] at h
              exact Except.noConfusion h

/-- If some element maps to an error, `exceptMap` raises (the first error in
list order, whichever it is). -/
theorem exceptMap_err_of_mem {α β : Type} {f : α → Except String β} {l : List α}
    {x : α} (hx : x ∈ l) {m : String} (hfx : f x = .error m) :
    ∃ m2, exceptMap f l = .error m2 := by
  induction l with
  | nil => simp at hx
  | cons y ys ih =>
      rcases List.mem_cons.mp hx with rfl | hmem
      · exact ⟨m, by rw [exceptMap, hfx]⟩
      · cases hfy : f y with
        | error e => exact ⟨e, by rw [exceptMap, hfy]⟩
        | ok z =>
            obtain ⟨m2, hm2⟩ := ih hmem
            exact ⟨m2, by simp only [exceptMap, hfy, hm2]⟩

/-- If every element maps to a value, `exceptMap` succeeds. -/
theorem exceptMap_ok {α β : Type} {f : α → Except String β} {l : List α}
    (h : ∀ x ∈ l, ∃ y, f x = .ok y) :
    ∃ ys, exceptMap f l = .ok ys := by
  induction l with
  | nil => exact ⟨[], rfl⟩
  | cons x xs ih =>
      obtain ⟨y, hy⟩ := h x (by simp)
      obtain ⟨ys, hys⟩ := ih (fun z hz => h z (by simp [hz]))
      exact ⟨y :: ys, by simp only [exceptMap, hy, hys]⟩

/-- `assocPush` only stores files that were in some bucket or are the pushed
file. -/
theorem assocPush_buckets {l : List (String × List RouteNodeFile)}
    {Q : RouteNodeFile → Prop} (hl : ∀ e ∈ l, ∀ f ∈ e.2, Q f)
    {k : String} {g : RouteNodeFile} (hg : Q g) :
    ∀ e ∈ assocPush l k g, ∀ f ∈ e.2, Q f := by
  induction l with
  | nil =>
      intro e he f hf
      rw [assocPush] at he
      simp only [List.mem_singleton] at he
      subst he
      simp only [List.mem_singleton] at hf
      subst hf
      exact hg
  | cons p ps ih =>
      intro e he f hf
      rw [assocPush] at he
      by_cases hk : p.1 = k
      · rw [if_pos hk] at he
        rcases List.mem_cons.mp he with rfl | hmem
        · rcases List.mem_append.mp hf with h1 | h2
          · exact hl p (by simp) f h1
          · simp only [List.mem_singleton] at h2
            subst h2
            exact hg
        · exact hl e (by simp [hmem]) f hf
      · rw [if_neg hk] at he
        rcases List.mem_cons.mp he with rfl | hmem
        · exact hl e (by simp) f hf
        · exact ih (fun e2 he2 f2 hf2 => hl e2 (by simp [he2]) f2 hf2) e hmem f hf

/-- The `byGroupPath` fold of `nodeInfos` only stores files of the pool. -/
theorem foldl_assocPush_buckets (pool : List RouteNodeFile)
    {Q : RouteNodeFile → Prop} (hp : ∀ f ∈ pool, Q f) :
    ∀ init, (∀ e ∈ init, ∀ f ∈ e.2, Q f) →
    ∀ e ∈ pool.foldl (fun acc f => assocPush acc (joinSep "," f.groups) f) init,
      ∀ f ∈ e.2, Q f := by
  induction pool with
  | nil => intro init hinit e he f hf; exact hinit e he f hf
  | cons g gs ih =>
      intro init hinit e he f hf
      rw [List.foldl_cons] at he
      exact ih (fun f2 hf2 => hp f2 (by simp [hf2])) _
        (assocPush_buckets hinit (hp g (by simp))) e he f hf

/-- Every info emitted by `nodeInfos` takes its segments from some file of the
node, with group-only segments dropped. -/
theorem nodeInfos_primary {files : List RouteNodeFile} {info : FlatFileInfo}
    (h : info ∈ nodeInfos files) :
    ∃ primary ∈ files, info.segments =
      primary.originalSegments.filter
        (fun seg => ¬ seg.all (fun t => t.type = .group)) := by
  simp only [nodeInfos] at h
  obtain ⟨e, he, hinfo⟩ := List.mem_filterMap.mp h
  cases he2 : e.2 with
  | nil =>
      rw [he2] at hinfo
      exact Option.noConfusion hinfo
  | cons primary rest =>
      rw [he2] at hinfo
      injection hinfo with h3
      have hpool : ∀ f ∈ (if (files.filter
            (fun f => f.viewName == "default")).isEmpty then files
          else files.filter (fun f => f.viewName == "default")), f ∈ files := by
        intro f hf
        split at hf
        · exact hf
        · exact (List.mem_filter.mp hf).1
      refine ⟨primary, ?_, ?_⟩
      · exact foldl_assocPush_buckets _ hpool [] (by simp) e he primary
          (by rw [he2]; simp)
      · rw [← h3]

mutual

/-- If every token in the subtree satisfies `P`, so does every token of every
segment of every flattened info. -/
theorem flattenNode_tokens {P : Token → Bool} :
    ∀ n : RouteNode, nodeTokens P n = true →
      ∀ info ∈ flattenNode n, ∀ seg ∈ info.segments, ∀ tok ∈ seg, P tok = true
  | .mk raw sg files children => by
      intro hn info hinfo seg hseg tok htok
      rw [flattenNode] at hinfo
      rw [nodeTokens] at hn
      simp only [Bool.and_eq_true] at hn
      rcases List.mem_append.mp hinfo with h1 | h2
      · obtain ⟨primary, hp, hsegs⟩ := nodeInfos_primary h1
        rw [hsegs] at hseg
        have h4 := List.all_eq_true.mp (List.all_eq_true.mp hn.1 primary hp)
          seg (List.mem_filter.mp hseg).1
        exact List.all_eq_true.mp h4 tok htok
      · exact flattenChildren_tokens children hn.2 info h2 seg hseg tok htok

/-- `flattenNode_tokens` over a children list. -/
theorem flattenChildren_tokens {P : Token → Bool} :
    ∀ cs : List RouteNode, nodeTokensList P cs = true →
      ∀ info ∈ flattenChildren cs, ∀ seg ∈ info.segments, ∀ tok ∈ seg, P tok = true
  | [] => by
      intro _ info hinfo
      rw [flattenChildren] at hinfo
      simp at hinfo
  | c :: cs => by
      intro h info hinfo seg hseg tok htok
      rw [flattenChildren] at hinfo
      rw [nodeTokensList] at h
      simp only [Bool.and_eq_true] at h
      rcases List.mem_append.mp hinfo with h1 | h2
      · exact flattenNode_tokens c h.1 info h1 seg hseg tok htok
      · exact flattenChildren_tokens cs h.2 info h2 seg hseg tok htok

end

/-- An unsupported token in an effective segment makes `toRou3` raise. -/
theorem toRou3_err_of_unsupported {t : RouteTree}
    (h : ∃ info ∈ flattenTree t, ∃ seg ∈ info.segments, ∃ tok ∈ seg,
      ¬ supportedTok tok) :
    ∃ m, toRou3 t = .error m := by
  obtain ⟨info, hinfo, hseg⟩ := h
  obtain ⟨m, hm⟩ := rou3PathFold_err_of_unsupported hseg "/"
  unfold toRou3
  have hf : (match rou3Path info.segments with
      | .error e => (.error e : Except String Rou3Route)
      | .ok p => .ok (Rou3Route.mk p info.file)) = .error m := by
    rw [show rou3Path info.segments = Except.error m from hm]
  exact exceptMap_err_of_mem hinfo hf

/-- A tree of supported tokens never makes `toRou3` raise. -/
theorem toRou3_ok {t : RouteTree} (h : nodeTokens supportedTok t.root = true) :
    ∃ rs, toRou3 t = .ok rs := by
  unfold toRou3
  apply exceptMap_ok
  intro info hinfo
  have hsup : ∀ seg ∈ info.segments, ∀ tok ∈ seg, supportedTok tok := by
    intro seg hseg tok htok
    exact flattenNode_tokens t.root h info hinfo seg hseg tok htok
  obtain ⟨p, hp⟩ := rou3PathFold_ok hsup "/"
  refine ⟨Rou3Route.mk p info.file, ?_⟩
  show (match rou3Path info.segments with
    | .error e => (.error e : Except String Rou3Route)
    | .ok p => .ok (Rou3Route.mk p info.file)) = _
  rw [show rou3Path info.segments = Except.ok p from hp]

set_option maxHeartbeats 8000000 in
/-- Claim C8: a tree with an optional, repeatable or optional-repeatable token
in an effective (flattened, non-group-only) segment makes `toRou3` throw one
of the three feature-named `TypeError`s; a tree holding only static, dynamic,
catchall and group tokens never throws; and one input file of each
unsupported kind (`'[[o]].vue'` optional, `'[a]+.vue'` repeatable,
`'[[a]]+.vue'` optional repeatable) produces its own distinct message, while
a supported-only input list succeeds. -/
theorem claim_C8 :
    (∀ t : RouteTree,
      (∃ info ∈ flattenTree t, ∃ seg ∈ info.segments, ∃ tok ∈ seg,
        ¬ supportedTok tok) →
      ∃ m, toRou3 t = .error m ∧
        (m = "[unrouting] `toRou3` does not support optional parameters" ∨
         m = "[unrouting] `toRou3` does not support repeatable parameters" ∨
         m = "[unrouting] `toRou3` does not support optional repeatable parameters")) ∧
    (∀ t : RouteTree, nodeTokens supportedTok t.root = true →
      ∃ rs, toRou3 t = .ok rs) ∧
    (buildTree {} ["[[o]].vue"]).bind toRou3 =
      .error "[unrouting] `toRou3` does not support optional parameters" ∧
    (buildTree {} ["[a]+.vue"]).bind toRou3 =
      .error "[unrouting] `toRou3` does not support repeatable parameters" ∧
    (buildTree {} ["[[a]]+.vue"]).bind toRou3 =
      .error "[unrouting] `toRou3` does not support optional repeatable parameters" ∧
    (buildTree {} ["a.vue", "[b].vue", "[...c].vue", "(g)/d.vue"]).bind toRou3 =
      .ok [⟨"/a", "a.vue"⟩, ⟨"/:b", "[b].vue"⟩, ⟨"/**:c", "[...c].vue"⟩,
        ⟨"/d", "(g)/d.vue"⟩] := by
  refine ⟨?_, fun t h => toRou3_ok h, rfl, rfl, rfl, rfl⟩
  intro t h
  obtain ⟨m, hm⟩ := toRou3_err_of_unsupported h
  exact ⟨m, hm, toRou3_err_shape hm⟩

/-- Witness for C8: both universally quantified parts applied at concrete
trees, one holding an optional token and one holding only supported tokens. -/
theorem claim_C8_witness :
    (∃ m, toRou3 ⟨RouteNode.mk "" [⟨.static, ""⟩] []
        [RouteNode.mk "[[opt]]" [⟨.optional, "opt"⟩]
          [mkFileEntry ⟨"[[opt]].vue", [[⟨.optional, "opt"⟩]], none⟩ 0 []] []],
        true, [("[[opt]].vue", ["[[opt]]"])]⟩ = .error m ∧
      (m = "[unrouting] `toRou3` does not support optional parameters" ∨
       m = "[unrouting] `toRou3` does not support repeatable parameters" ∨
       m = "[unrouting] `toRou3` does not support optional repeatable parameters")) ∧
    (∃ rs, toRou3 ⟨RouteNode.mk "" [⟨.static, ""⟩] []
        [RouteNode.mk "about" [⟨.static, "about"⟩]
          [mkFileEntry ⟨"about.vue", [[⟨.static, "about"⟩]], none⟩ 0 []] []],
        true, [("about.vue", ["about"])]⟩ = .ok rs) :=
  ⟨claim_C8.1 _ (by decide), claim_C8.2.1 _ (by decide)⟩

/-- `insertSorted` on (record, result) pairs compared on the record agrees
with `insertSorted` on the records followed by pairing. -/
theorem insertSorted_pair {α β : Type} (cmp : α → α → Int) (cmpP : α × β → α × β → Int)
    (hcmp : ∀ a b, cmpP a b = cmp a.1 b.1) (f : α → β) (x : α) :
    ∀ l : List α,
    insertSorted cmpP (x, f x) (l.map (fun r => (r, f r))) =
      (insertSorted cmp x l).map (fun r => (r, f r))
  | [] => rfl
  | y :: ys => by
      simp only [List.map_cons, insertSorted, hcmp]
      by_cases h : cmp x y < 0
      · simp [h]
      · simp [h, insertSorted_pair cmp cmpP hcmp f x ys]

/-- The insertion-sort fold on pairs mirrors the fold on the records. -/
theorem stableSortAux_pair {α β : Type} (cmp : α → α → Int) (cmpP : α × β → α × β → Int)
    (hcmp : ∀ a b, cmpP a b = cmp a.1 b.1) (f : α → β) :
    ∀ (l acc : List α),
    (l.map (fun r => (r, f r))).foldl (fun acc2 x => insertSorted cmpP x acc2)
        (acc.map (fun r => (r, f r))) =
      (l.foldl (fun acc2 x => insertSorted cmp x acc2) acc).map (fun r => (r, f r))
  | [], acc => rfl
  | x :: xs, acc => by
      simp only [List.map_cons, List.foldl_cons]
      rw [insertSorted_pair cmp cmpP hcmp f x acc]
      exact stableSortAux_pair cmp cmpP hcmp f xs (insertSorted cmp x acc)

/-- `stableSort` on (record, result) pairs compared on the record agrees with
`stableSort` on the records followed by pairing. -/
theorem stableSort_pair {α β : Type} (cmp : α → α → Int) (cmpP : α × β → α × β → Int)
    (hcmp : ∀ a b, cmpP a b = cmp a.1 b.1) (f : α → β) (l : List α) :
    stableSort cmpP (l.map (fun r => (r, f r))) =
      (stableSort cmp l).map (fun r => (r, f r)) := by
  unfold stableSort
  exact stableSortAux_pair cmp cmpP hcmp f l []

/-- `prepareList` just pairs every route with its transform. -/
theorem prepareList_eq_map (routes : List IRoute) (isChild : Bool) (g : String → String) :
    prepareList routes isChild g = routes.map (fun r => (r, prepareOne r isChild g)) := by
  induction routes with
  | nil => rfl
  | cons r rs ih => rw [prepareList, ih, List.map_cons]

/-- `prepareRoutes` emits the siblings sorted by `compareRoutes`. -/
theorem prepareRoutes_sorted (routes : List IRoute) (isChild : Bool) (g : String → String) :
    prepareRoutes routes isChild g =
      (stableSort compareRoutes routes).map (fun r => prepareOne r isChild g) := by
  unfold prepareRoutes finishRoutes
  rw [prepareList_eq_map,
    stableSort_pair compareRoutes (fun a b => compareRoutes a.1 b.1) (fun a b => rfl)
      (fun r => prepareOne r isChild g) routes,
    List.map_map]
  rfl

/-- The top-level list returned by `toVueRouter4` is some sibling list sorted
by `compareRoutes` and then emitted. -/
theorem toVueRouter4_sorted (t : RouteTree) (opts : VueRouterEmitOptions) :
    ∃ rs : List IRoute, toVueRouter4 t opts =
      (stableSort compareRoutes rs).map
        (fun r => prepareOne r false (opts.getRouteName.getD defaultGetRouteName)) :=
  ⟨_, prepareRoutes_sorted _ false _⟩

/-- Skipping one mismatching head character of the haystack. -/
theorem containsSub_cons_ne {p0 a : Char} {ps rest : List Char} (hne : (p0 == a) = false) :
    containsSub (p0 :: ps) (a :: rest) = containsSub (p0 :: ps) rest := by
  rw [containsSub, List.isPrefixOf_cons₂, hne, Bool.false_and, Bool.false_or]

/-- A needle with a non-alphabetic head skips any alphabetic run. -/
theorem containsSub_append_alpha {p0 : Char} {ps : List Char} (h0 : p0.isAlpha = false) :
    ∀ (v : List Char), v.all Char.isAlpha = true →
    ∀ (rest : List Char), containsSub (p0 :: ps) (v ++ rest) = containsSub (p0 :: ps) rest
  | [], _, rest => rfl
  | c :: cs, hall, rest => by
      simp only [List.all_cons, Bool.and_eq_true] at hall
      have hne : (p0 == c) = false := by
        rcases Bool.eq_false_or_eq_true (p0 == c) with h | h
        · have hpc : p0 = c := beq_iff_eq.mp h
          subst hpc
          rw [hall.1] at h0
          exact Bool.noConfusion h0
        · exact h
      rw [List.cons_append, containsSub_cons_ne hne]
      exact containsSub_append_alpha h0 cs hall.2 rest

/-- A non-alphabetic character does not occur in an alphabetic run. -/
theorem contains_append_alpha {x : Char} (hx : x.isAlpha = false) :
    ∀ (v : List Char), v.all Char.isAlpha = true →
    ∀ (post : List Char), post.contains x = false → (v ++ post).contains x = false
  | [], _, _, hp => hp
  | c :: cs, hall, post, hp => by
      simp only [List.all_cons, Bool.and_eq_true] at hall
      have hne : (x == c) = false := by
        rcases Bool.eq_false_or_eq_true (x == c) with h | h
        · have hxc : x = c := beq_iff_eq.mp h
          subst hxc
          rw [hall.1] at hx
          exact Bool.noConfusion hx
        · exact h
      rw [List.cons_append, List.contains_cons, hne, Bool.false_or]
      exact contains_append_alpha hx cs hall.2 post hp

/-- A character of the suffix is found across any prefix. -/
theorem contains_append_right {x : Char} : ∀ (l1 l2 : List Char),
    l2.contains x = true → (l1 ++ l2).contains x = true
  | [], _, h => h
  | c :: cs, l2, h => by
      rw [List.cons_append, List.contains_cons, contains_append_right cs l2 h, Bool.or_true]

/-- An alphabetic run holds no unescaped colon (continuation scan). -/
theorem hasUnescapedColonAux_alpha : ∀ (v : List Char), v.all Char.isAlpha = true →
    ∀ prev, hasUnescapedColonAux prev v = false
  | [], _, _ => rfl
  | c :: cs, hall, prev => by
      simp only [List.all_cons, Bool.and_eq_true] at hall
      rw [hasUnescapedColonAux]
      have hc : ¬ (c = ':' ∧ prev ≠ '\\') := by
        rintro ⟨rfl, -⟩
        exact absurd hall.1 (by decide)
      rw [if_neg hc]
      exact hasUnescapedColonAux_alpha cs hall.2 c

/-- An alphabetic run holds no unescaped colon. -/
theorem hasUnescapedColon_alpha : ∀ (v : List Char), v.all Char.isAlpha = true →
    hasUnescapedColon v = false
  | [], _ => rfl
  | c :: cs, hall => by
      simp only [List.all_cons, Bool.and_eq_true] at hall
      rw [hasUnescapedColon]
      have hc : ¬ c = ':' := by
        intro h
        subst h
        exact absurd hall.1 (by decide)
      rw [if_neg hc]
      exact hasUnescapedColonAux_alpha cs hall.2 c

/-- A required dynamic part `:name()` scores 300. -/
theorem scorePart_dynamic (v : String) (hv : v.data.all Char.isAlpha = true) :
    scorePart (":" ++ v ++ "()") = 300 := by
  have hd : (":" ++ v ++ "()").data = ':' :: (v.data ++ "()".data) := by
    rw [String.data_append, String.data_append, List.append_assoc]
    rfl
  have h1 : containsSub "(.*)*".data (':' :: (v.data ++ "()".data)) = false := by
    rw [containsSub_cons_ne (by decide), containsSub_append_alpha (by decide) v.data hv]
    decide
  have h2 : containsSub "([^/]*)*".data (':' :: (v.data ++ "()".data)) = false := by
    rw [containsSub_cons_ne (by decide), containsSub_append_alpha (by decide) v.data hv]
    decide
  have h3 : hasUnescapedColon (':' :: (v.data ++ "()".data)) = true := by
    rw [hasUnescapedColon, if_pos rfl]
  have h4 : (':' :: (v.data ++ "()".data)).contains '?' = false := by
    rw [List.contains_cons, contains_append_alpha (by decide) v.data hv "()".data (by decide)]
    decide
  have h5 : (':' :: (v.data ++ "()".data)).contains '+' = false := by
    rw [List.contains_cons, contains_append_alpha (by decide) v.data hv "()".data (by decide)]
    decide
  have h6 : (':' :: (v.data ++ "()".data)).contains '*' = false := by
    rw [List.contains_cons, contains_append_alpha (by decide) v.data hv "()".data (by decide)]
    decide
  unfold scorePart
  rw [hd]
  rw [if_neg (by simp [h1, h2]), if_pos h3, if_neg (by simp only [h4]; decide),
    if_neg (by simp only [h5]; decide), if_neg (by simp only [h6]; decide)]

/-- A repeatable part `:name+` scores 200. -/
theorem scorePart_repeatable (v : String) (hv : v.data.all Char.isAlpha = true) :
    scorePart (":" ++ v ++ "+") = 200 := by
  have hd : (":" ++ v ++ "+").data = ':' :: (v.data ++ "+".data) := by
    rw [String.data_append, String.data_append, List.append_assoc]
    rfl
  have h1 : containsSub "(.*)*".data (':' :: (v.data ++ "+".data)) = false := by
    rw [containsSub_cons_ne (by decide), containsSub_append_alpha (by decide) v.data hv]
    decide
  have h2 : containsSub "([^/]*)*".data (':' :: (v.data ++ "+".data)) = false := by
    rw [containsSub_cons_ne (by decide), containsSub_append_alpha (by decide) v.data hv]
    decide
  have h3 : hasUnescapedColon (':' :: (v.data ++ "+".data)) = true := by
    rw [hasUnescapedColon, if_pos rfl]
  have h4 : (':' :: (v.data ++ "+".data)).contains '?' = false := by
    rw [List.contains_cons, contains_append_alpha (by decide) v.data hv "+".data (by decide)]
    decide
  have h5 : (':' :: (v.data ++ "+".data)).contains '+' = true := by
    rw [List.contains_cons, contains_append_right v.data "+".data (by decide), Bool.or_true]
  unfold scorePart
  rw [hd]
  rw [if_neg (by simp [h1, h2]), if_pos h3, if_neg (by simp only [h4]; decide), if_pos h5]

/-- An optional part `:name?` scores 100. -/
theorem scorePart_optional (v : String) (hv : v.data.all Char.isAlpha = true) :
    scorePart (":" ++ v ++ "?") = 100 := by
  have hd : (":" ++ v ++ "?").data = ':' :: (v.data ++ "?".data) := by
    rw [String.data_append, String.data_append, List.append_assoc]
    rfl
  have h1 : containsSub "(.*)*".data (':' :: (v.data ++ "?".data)) = false := by
    rw [containsSub_cons_ne (by decide), containsSub_append_alpha (by decide) v.data hv]
    decide
  have h2 : containsSub "([^/]*)*".data (':' :: (v.data ++ "?".data)) = false := by
    rw [containsSub_cons_ne (by decide), containsSub_append_alpha (by decide) v.data hv]
    decide
  have h3 : hasUnescapedColon (':' :: (v.data ++ "?".data)) = true := by
    rw [hasUnescapedColon, if_pos rfl]
  have h4 : (':' :: (v.data ++ "?".data)).contains '?' = true := by
    rw [List.contains_cons, contains_append_right v.data "?".data (by decide), Bool.or_true]
  unfold scorePart
  rw [hd]
  rw [if_neg (by simp [h1, h2]), if_pos h3, if_pos h4]

/-- An optional repeatable part `:name*` scores 50. -/
theorem scorePart_optionalRepeatable (v : String) (hv : v.data.all Char.isAlpha = true) :
    scorePart (":" ++ v ++ "*") = 50 := by
  have hd : (":" ++ v ++ "*").data = ':' :: (v.data ++ "*".data) := by
    rw [String.data_append, String.data_append, List.append_assoc]
    rfl
  have h1 : containsSub "(.*)*".data (':' :: (v.data ++ "*".data)) = false := by
    rw [containsSub_cons_ne (by decide), containsSub_append_alpha (by decide) v.data hv]
    decide
  have h2 : containsSub "([^/]*)*".data (':' :: (v.data ++ "*".data)) = false := by
    rw [containsSub_cons_ne (by decide), containsSub_append_alpha (by decide) v.data hv]
    decide
  have h3 : hasUnescapedColon (':' :: (v.data ++ "*".data)) = true := by
    rw [hasUnescapedColon, if_pos rfl]
  have h4 : (':' :: (v.data ++ "*".data)).contains '?' = false := by
    rw [List.contains_cons, contains_append_alpha (by decide) v.data hv "*".data (by decide)]
    decide
  have h5 : (':' :: (v.data ++ "*".data)).contains '+' = false := by
    rw [List.contains_cons, contains_append_alpha (by decide) v.data hv "*".data (by decide)]
    decide
  have h6 : (':' :: (v.data ++ "*".data)).contains '*' = true := by
    rw [List.contains_cons, contains_append_right v.data "*".data (by decide), Bool.or_true]
  unfold scorePart
  rw [hd]
  rw [if_neg (by simp [h1, h2]), if_pos h3, if_neg (by simp only [h4]; decide),
    if_neg (by simp only [h5]; decide), if_pos h6]

/-- A terminal catchall part `:name(.*)*` scores -400. -/
theorem scorePart_catchall (v : String) (hv : v.data.all Char.isAlpha = true) :
    scorePart (":" ++ v ++ "(.*)*") = -400 := by
  have hd : (":" ++ v ++ "(.*)*").data = ':' :: (v.data ++ "(.*)*".data) := by
    rw [String.data_append, String.data_append, List.append_assoc]
    rfl
  have h1 : containsSub "(.*)*".data (':' :: (v.data ++ "(.*)*".data)) = true := by
    rw [containsSub_cons_ne (by decide), containsSub_append_alpha (by decide) v.data hv]
    decide
  unfold scorePart
  rw [hd]
  rw [if_pos (Or.inl h1)]

/-- A purely alphabetic static part scores 400. -/
theorem scorePart_static (s : String) (hs : s.data.all Char.isAlpha = true) :
    scorePart s = 400 := by
  have h1 : containsSub "(.*)*".data s.data = false := by
    rw [← List.append_nil s.data, containsSub_append_alpha (by decide) s.data hs]
    decide
  have h2 : containsSub "([^/]*)*".data s.data = false := by
    rw [← List.append_nil s.data, containsSub_append_alpha (by decide) s.data hs]
    decide
  have h3 : hasUnescapedColon s.data = false := hasUnescapedColon_alpha s.data hs
  unfold scorePart
  rw [if_neg (by simp [h1, h2]), if_neg (by simp [h3])]

set_option maxHeartbeats 8000000 in
/-- Claim C7: the sibling lists emitted by `toVueRouter4` are exactly some
intermediate sibling records sorted by `compareRoutes` (per-segment scores
element-wise from the first part, then part count, then locale comparison);
the per-part scores order static (400) above required dynamic (300) above
repeatable (200) above optional (100) above optional repeatable (50) above
terminal catchall (-400); score ties fall back to locale order; and the
pipeline on `['[slug].vue','about.vue','index.vue']` places `'about'` before
`':slug()'` (with `'index'` last). -/
theorem claim_C7 :
    (∀ (t : RouteTree) (opts : VueRouterEmitOptions), ∃ rs : List IRoute,
      toVueRouter4 t opts = (stableSort compareRoutes rs).map
        (fun r => prepareOne r false (opts.getRouteName.getD defaultGetRouteName))) ∧
    (∀ v : String, v.data.all Char.isAlpha = true →
      scorePart (":" ++ v ++ "()") = 300 ∧
      scorePart (":" ++ v ++ "+") = 200 ∧
      scorePart (":" ++ v ++ "?") = 100 ∧
      scorePart (":" ++ v ++ "*") = 50 ∧
      scorePart (":" ++ v ++ "(.*)*") = -400) ∧
    (∀ s : String, s.data.all Char.isAlpha = true → scorePart s = 400) ∧
    compareRoutes (.mk "a" "/a" "a.vue" [] [] []) (.mk "b" "/b" "b.vue" [] [] []) = -1 ∧
    (buildTree {} ["[slug].vue", "about.vue", "index.vue"]).map (fun t => toVueRouter4 t {}) =
      .ok [.mk (some "about") "/about" "about.vue" [] none none none,
        .mk (some "slug") "/:slug()" "[slug].vue" [] none none none,
        .mk (some "index") "/" "index.vue" [] none none none] :=
  ⟨toVueRouter4_sorted,
   fun v hv => ⟨scorePart_dynamic v hv, scorePart_repeatable v hv, scorePart_optional v hv,
     scorePart_optionalRepeatable v hv, scorePart_catchall v hv⟩,
   scorePart_static, rfl, rfl⟩

/-- Witness for C7: the score-shape statements applied at the concrete names
arising in the example (`slug`, `about`). -/
theorem claim_C7_witness :
    (scorePart (":" ++ "slug" ++ "()") = 300 ∧ scorePart (":" ++ "slug" ++ "+") = 200 ∧
     scorePart (":" ++ "slug" ++ "?") = 100 ∧ scorePart (":" ++ "slug" ++ "*") = 50 ∧
     scorePart (":" ++ "slug" ++ "(.*)*") = -400) ∧ scorePart "about" = 400 :=
  ⟨claim_C7.2.1 "slug" (by decide), claim_C7.2.2.1 "about" (by decide)⟩

/-- `find?` skips a prefix with no matches. -/
theorem find?_append_none {α : Type} {p : α → Bool} :
    ∀ (l1 : List α), l1.find? p = none → ∀ (l2 : List α), (l1 ++ l2).find? p = l2.find? p
  | [], _, _ => rfl
  | f :: fs, h, l2 => by
      have hf : ¬ p f = true := by
        intro hb
        rw [List.find?_cons_of_pos _ hb] at h
        exact Option.noConfusion h
      have hfs : fs.find? p = none := by
        rw [List.find?_cons_of_neg _ hf] at h
        exact h
      rw [List.cons_append, List.find?_cons_of_neg _ hf]
      exact find?_append_none fs hfs l2

/-- Splitting a failed `find?` over a cons cell. -/
theorem find?_cons_none {α : Type} {p : α → Bool} {f : α} {fs : List α}
    (h : (f :: fs).find? p = none) : p f = false ∧ fs.find? p = none := by
  have hall := List.find?_eq_none.mp h
  refine ⟨?_, List.find?_eq_none.mpr (fun x hx => hall x (by simp [hx]))⟩
  have hn := hall f (by simp)
  rcases Bool.eq_false_or_eq_true (p f) with hb | hb
  · exact absurd hb hn
  · exact hb

/-- When no earlier file matches the dedupe key, replacing the first match in
`files ++ [e]` replaces exactly `e`. -/
theorem replaceFirstDedupe_append {key : String} :
    ∀ (files : List RouteNodeFile), files.find? (fun f => f.dedupeKey == key) = none →
    ∀ (e e2 : RouteNodeFile), e.dedupeKey = key →
    replaceFirstDedupe (files ++ [e]) key e2 = files ++ [e2]
  | [], _, e, e2, he => by
      rw [List.nil_append, replaceFirstDedupe, if_pos he, List.nil_append]
  | f :: fs, h, e, e2, he => by
      obtain ⟨hf, hfs⟩ := find?_cons_none h
      have hf2 : ¬ f.dedupeKey = key := by
        intro hb
        simp [hb] at hf
      rw [List.cons_append, replaceFirstDedupe, if_neg hf2,
        replaceFirstDedupe_append fs hfs e e2 he, List.cons_append]

/-- Two colliding `first-wins` insertions at the same node: the second file
replaces the first exactly when its priority is strictly lower. -/
theorem insert_twice_firstWins (node : RouteNode) (ppA ppB : ParsedPath) (pA pB : Int)
    (g : List String) (fi : FileIndex) (addr : List String)
    (hk : dedupeKeyOf ppB g = dedupeKeyOf ppA g)
    (hfind : node.files.find? (fun f => f.dedupeKey == dedupeKeyOf ppA g) = none) :
    ∃ nA fiA nB fiB,
      insertAux node [] g ppA pA .firstWins fi addr = .ok (nA, fiA) ∧
      insertAux nA [] g ppB pB .firstWins fiA addr = .ok (nB, fiB) ∧
      nB.files = node.files ++
        [if pB < pA then mkFileEntry ppB pB g else mkFileEntry ppA pA g] := by
  rcases node with ⟨raw, sg, fls, ch⟩
  rw [show (RouteNode.mk raw sg fls ch).files = fls from rfl] at hfind
  have hkeyA : (mkFileEntry ppA pA g).dedupeKey = dedupeKeyOf ppA g := rfl
  have h1 : insertAux (RouteNode.mk raw sg fls ch) [] g ppA pA .firstWins fi addr =
      .ok (RouteNode.mk raw sg (fls ++ [mkFileEntry ppA pA g]) ch,
        fiSet fi ppA.file addr) := by
    simp only [insertAux, RouteNode.files, RouteNode.withFiles, hfind]
  have hfind2 : (fls ++ [mkFileEntry ppA pA g]).find?
      (fun f => f.dedupeKey == dedupeKeyOf ppB g) = some (mkFileEntry ppA pA g) := by
    rw [hk, find?_append_none fls hfind [mkFileEntry ppA pA g],
      List.find?_cons_of_pos _ (by simp [hkeyA])]
  by_cases hp : pB < pA
  · have h2 : insertAux (RouteNode.mk raw sg (fls ++ [mkFileEntry ppA pA g]) ch) [] g
        ppB pB .firstWins (fiSet fi ppA.file addr) addr =
        .ok (RouteNode.mk raw sg (fls ++ [mkFileEntry ppB pB g]) ch,
          fiSet (fiDel (fiSet fi ppA.file addr) (mkFileEntry ppA pA g).path)
            ppB.file addr) := by
      simp only [insertAux, RouteNode.files, RouteNode.withFiles, hfind2]
      rw [if_neg (by decide),
        if_pos (Or.inr (show pB < (mkFileEntry ppA pA g).priority from hp)),
        replaceFirstDedupe_append fls (by rw [hk]; exact hfind) (mkFileEntry ppA pA g)
          (mkFileEntry ppB pB g) (by rw [hk]; exact hkeyA)]
    refine ⟨_, _, _, _, h1, h2, ?_⟩
    simp only [RouteNode.files, if_pos hp]
  · have h2 : insertAux (RouteNode.mk raw sg (fls ++ [mkFileEntry ppA pA g]) ch) [] g
        ppB pB .firstWins (fiSet fi ppA.file addr) addr =
        .ok (RouteNode.mk raw sg (fls ++ [mkFileEntry ppA pA g]) ch,
          fiSet fi ppA.file addr) := by
      simp only [insertAux, RouteNode.files, RouteNode.withFiles, hfind2]
      rw [if_neg (by decide), if_neg ?hc]
      case hc =>
        rintro (h | h)
        · exact absurd h (by decide)
        · exact hp h
    refine ⟨_, _, _, _, h1, h2, ?_⟩
    simp only [RouteNode.files, if_neg hp]

set_option maxHeartbeats 8000000 in
/-- Claim C2: under the default `first-wins` strategy, when a second file
collides at the same node with the same dedupe key, the file with the strictly
lower priority number ends up attached (so the lower-priority file wins in
either insertion order), and equal priorities keep the first-inserted file;
witnessed end-to-end by `buildTreeFiles` on two files mapping to the same
route position. -/
theorem claim_C2 :
    (∀ (node : RouteNode) (ppA ppB : ParsedPath) (pA pB : Int) (g : List String)
      (fi : FileIndex) (addr : List String),
      dedupeKeyOf ppB g = dedupeKeyOf ppA g →
      node.files.find? (fun f => f.dedupeKey == dedupeKeyOf ppA g) = none →
      ∃ nA fiA nB fiB,
        insertAux node [] g ppA pA .firstWins fi addr = .ok (nA, fiA) ∧
        insertAux nA [] g ppB pB .firstWins fiA addr = .ok (nB, fiB) ∧
        nB.files = node.files ++
          [if pB < pA then mkFileEntry ppB pB g else mkFileEntry ppA pA g]) ∧
    (buildTreeFiles {} [("a.vue", 1), ("a.ts", 0)]).map
      (fun t => (flattenTree t).map (fun i => i.file)) = .ok ["a.ts"] ∧
    (buildTreeFiles {} [("a.ts", 0), ("a.vue", 1)]).map
      (fun t => (flattenTree t).map (fun i => i.file)) = .ok ["a.ts"] ∧
    (buildTreeFiles {} [("a.vue", 0), ("a.ts", 0)]).map
      (fun t => (flattenTree t).map (fun i => i.file)) = .ok ["a.vue"] :=
  ⟨insert_twice_firstWins, rfl, rfl, rfl⟩

/-- Witness for C2: the node-level statement applied at the root node with two
default-view files of priorities 1 and 0. -/
theorem claim_C2_witness :
    ∃ nA fiA nB fiB,
      insertAux rootNode [] [] ⟨"a.vue", [], none⟩ 1 .firstWins [] [] = .ok (nA, fiA) ∧
      insertAux nA [] [] ⟨"a.ts", [], none⟩ 0 .firstWins fiA [] = .ok (nB, fiB) ∧
      nB.files = rootNode.files ++
        [if (0 : Int) < 1 then mkFileEntry ⟨"a.ts", [], none⟩ 0 []
         else mkFileEntry ⟨"a.vue", [], none⟩ 1 []] :=
  claim_C2.1 rootNode ⟨"a.vue", [], none⟩ ⟨"a.ts", [], none⟩ 1 0 [] [] [] rfl rfl

/-- Counterexample to C4 as stated: on a clean tree, `removeFile` of an absent
path reports failure and returns the tree unchanged, leaving the dirty flag
false instead of setting it. -/
theorem claim_C4_counterexample :
    removeFile ⟨rootNode, false, []⟩ "x.vue" = (false, ⟨rootNode, false, []⟩) ∧
    (removeFile ⟨rootNode, false, []⟩ "x.vue").2.dirty = false :=
  ⟨rfl, rfl⟩

/-- Claim C4 (amended): `buildTree`, `buildTreeFiles` and `addFile` always
return a tree whose dirty flag is set; `removeFile` sets the dirty flag on
exactly the invocations that remove a file, and returns the tree unchanged
(dirty flag included) when the given path is not present. -/
theorem claim_C4 :
    (∀ (opts : BuildOpts) (input : List String) (t : RouteTree),
      buildTree opts input = .ok t → t.dirty = true) ∧
    (∀ (opts : BuildOpts) (input : List (String × Int)) (t : RouteTree),
      buildTreeFiles opts input = .ok t → t.dirty = true) ∧
    (∀ (opts : BuildOpts) (t : RouteTree) (p : String) (prio : Int) (t2 : RouteTree),
      addFile opts t p prio = .ok t2 → t2.dirty = true) ∧
    (∀ (t : RouteTree) (p : String),
      (removeFile t p).1 = true → (removeFile t p).2.dirty = true) ∧
    (∀ (t : RouteTree) (p : String),
      (removeFile t p).1 = false → (removeFile t p).2 = t) := by
  refine ⟨?_, ?_, ?_, ?_, ?_⟩
  · intro opts input t h
    unfold buildTree at h
    split at h
    · injection h with h2
      rw [← h2]
    · split at h
      · exact Except.noConfusion h
      · split at h
        · exact Except.noConfusion h
        · injection h with h2
          rw [← h2]
  · intro opts input t h
    unfold buildTreeFiles at h
    split at h
    · injection h with h2
      rw [← h2]
    · split at h
      · exact Except.noConfusion h
      · split at h
        · exact Except.noConfusion h
        · injection h with h2
          rw [← h2]
  · intro opts t p prio t2 h
    unfold addFile at h
    split at h
    · exact Except.noConfusion h
    · split at h
      · exact Except.noConfusion h
      · injection h with h2
        rw [← h2]
  · intro t p
    unfold removeFile
    repeat' split
    all_goals intro h
    all_goals simp_all
  · intro t p
    unfold removeFile
    repeat' split
    all_goals intro h
    all_goals simp_all

/-- Witness for C4: the build conjunct applied at the empty input and the
not-found conjunct applied at the clean empty tree. -/
theorem claim_C4_witness :
    (⟨rootNode, true, ([] : FileIndex)⟩ : RouteTree).dirty = true ∧
    (removeFile ⟨rootNode, false, []⟩ "x.vue").2 = ⟨rootNode, false, []⟩ :=
  ⟨claim_C4.1 {} [] ⟨rootNode, true, []⟩ rfl,
   claim_C4.2.2.2.2 ⟨rootNode, false, []⟩ "x.vue" rfl⟩

/-- Every call of the caching emitter leaves a clean tree and a cache entry
keyed by the options fingerprint, and returns a clone of that entry. -/
theorem toVueRouter4Cached_entry (st : CachingTree) (o : VueRouterEmitOptionsC) :
    (toVueRouter4Cached st o).2.tree.dirty = false ∧
    ∃ c, (toVueRouter4Cached st o).2.cache = some c ∧
      c.fingerprint = optionsFingerprint o ∧
      (toVueRouter4Cached st o).1 = cloneVueRoutes c.routes := by
  cases hc : st.cache with
  | none =>
      simp only [toVueRouter4Cached, hc]
      refine ⟨?_, ⟨⟨optionsFingerprint o, toVueRouter4 st.tree o.toVueRouterEmitOptions⟩,
        ?_, ?_, ?_⟩⟩ <;> trivial
  | some c =>
      by_cases h : st.tree.dirty = false ∧ c.fingerprint = optionsFingerprint o
      · simp only [toVueRouter4Cached, hc]
        rw [if_pos h]
        exact ⟨h.1, ⟨c, hc, h.2, rfl⟩⟩
      · simp only [toVueRouter4Cached, hc]
        rw [if_neg h]
        refine ⟨?_, ⟨⟨optionsFingerprint o, toVueRouter4 st.tree o.toVueRouterEmitOptions⟩,
        ?_, ?_, ?_⟩⟩ <;> trivial

/-- A matching cache entry on a clean tree is reused: the call returns a clone
of the cached routes and leaves the state untouched. -/
theorem toVueRouter4Cached_hit (st : CachingTree) (o : VueRouterEmitOptionsC)
    (c : CachedVueRouter) (hc : st.cache = some c) (hd : st.tree.dirty = false)
    (hf : c.fingerprint = optionsFingerprint o) :
    toVueRouter4Cached st o = (cloneVueRoutes c.routes, st) := by
  simp only [toVueRouter4Cached, hc]
  rw [if_pos ⟨hd, hf⟩]

/-- A second call on the unmodified tree returns the same routes and the same
state. -/
theorem toVueRouter4Cached_idem (st : CachingTree) (o : VueRouterEmitOptionsC) :
    toVueRouter4Cached (toVueRouter4Cached st o).2 o =
      ((toVueRouter4Cached st o).1, (toVueRouter4Cached st o).2) := by
  obtain ⟨hd, c, hc, hf, hr⟩ := toVueRouter4Cached_entry st o
  rw [toVueRouter4Cached_hit _ o c hc hd hf, hr]

mutual

/-- The deep clone rebuilds a route into an equal value. -/
theorem cloneVueRoute_id : ∀ r : VueRoute, cloneVueRoute r = r
  | .mk n p f c g comps m => by
      rw [cloneVueRoute, cloneVueRoutes_id c]

/-- The deep clone rebuilds a route list into an equal value. -/
theorem cloneVueRoutes_id : ∀ rs : List VueRoute, cloneVueRoutes rs = rs
  | [] => rfl
  | r :: rs => by rw [cloneVueRoutes, cloneVueRoute_id r, cloneVueRoutes_id rs]

end

/-- Claim C3 (settled against the spec-modelled caching layer
`toVueRouter4Cached`, the repository's `src/converters.ts` holding no cache
code): every call leaves a clean tree and a cache entry keyed by the options
fingerprint and returns a deep clone of it; a matching entry on a clean tree
is reused with the state untouched; a second call on the unmodified tree
returns equal routes and equal state; and the clone rebuilds every node into
a (deep-)equal value, so the two calls share no object of the rebuilt
graphs. -/
theorem claim_C3 :
    (∀ (st : CachingTree) (o : VueRouterEmitOptionsC),
      (toVueRouter4Cached st o).2.tree.dirty = false ∧
      ∃ c, (toVueRouter4Cached st o).2.cache = some c ∧
        c.fingerprint = optionsFingerprint o ∧
        (toVueRouter4Cached st o).1 = cloneVueRoutes c.routes) ∧
    (∀ (st : CachingTree) (o : VueRouterEmitOptionsC) (c : CachedVueRouter),
      st.cache = some c → st.tree.dirty = false →
      c.fingerprint = optionsFingerprint o →
      toVueRouter4Cached st o = (cloneVueRoutes c.routes, st)) ∧
    (∀ (st : CachingTree) (o : VueRouterEmitOptionsC),
      toVueRouter4Cached (toVueRouter4Cached st o).2 o =
        ((toVueRouter4Cached st o).1, (toVueRouter4Cached st o).2)) ∧
    (∀ rs : List VueRoute, cloneVueRoutes rs = rs) :=
  ⟨toVueRouter4Cached_entry,
   fun st o c hc hd hf => toVueRouter4Cached_hit st o c hc hd hf,
   toVueRouter4Cached_idem, cloneVueRoutes_id⟩

/-- Witness for C3: the cache-hit conjunct applied at a concrete clean state
holding an empty cached route list under the default options. -/
theorem claim_C3_witness :
    toVueRouter4Cached ⟨⟨rootNode, false, []⟩, some ⟨optionsFingerprint {}, []⟩⟩ {} =
      (cloneVueRoutes [], ⟨⟨rootNode, false, []⟩, some ⟨optionsFingerprint {}, []⟩⟩) :=
  claim_C3.2.1 ⟨⟨rootNode, false, []⟩, some ⟨optionsFingerprint {}, []⟩⟩ {}
    ⟨optionsFingerprint {}, []⟩ rfl rfl rfl

/-- Setting a key and looking it up finds the new child. -/
theorem find?_set_same : ∀ (l : List RouteNode) (k : String) (c : RouteNode),
    c.rawSegment = k →
    (setChildList l k c).find? (fun x => x.rawSegment == k) = some c
  | [], k, c, hc => by
      rw [setChildList]
      exact List.find?_cons_of_pos _ (by simp [hc])
  | x :: xs, k, c, hc => by
      rw [setChildList]
      by_cases hx : x.rawSegment = k
      · rw [if_pos hx]
        exact List.find?_cons_of_pos _ (by simp [hc])
      · rw [if_neg hx, List.find?_cons_of_neg _ (by simp [hx])]
        exact find?_set_same xs k c hc

/-- Setting the same key twice keeps only the second value. -/
theorem set_set_same : ∀ (l : List RouteNode) (k : String) (c c2 : RouteNode),
    c.rawSegment = k →
    setChildList (setChildList l k c) k c2 = setChildList l k c2
  | [], k, c, c2, hc => by simp [setChildList, hc]
  | x :: xs, k, c, c2, hc => by
      by_cases hx : x.rawSegment = k
      · simp [setChildList, hx, hc]
      · simp only [setChildList, if_neg hx]
        rw [set_set_same xs k c c2 hc]

/-- Setting a key back to the child the lookup finds is the identity. -/
theorem set_find?_id : ∀ (l : List RouteNode) (k : String) (c : RouteNode),
    l.find? (fun x => x.rawSegment == k) = some c →
    setChildList l k c = l
  | [], k, c, h => by simp at h
  | x :: xs, k, c, h => by
      by_cases hx : x.rawSegment = k
      · rw [List.find?_cons_of_pos _ (by simp [hx])] at h
        injection h with h2
        rw [setChildList, if_pos hx, h2]
      · rw [List.find?_cons_of_neg _ (by simp [hx])] at h
        rw [setChildList, if_neg hx, set_find?_id xs k c h]

/-- Setting an absent key appends the child. -/
theorem set_absent_append : ∀ (l : List RouteNode) (k : String) (c : RouteNode),
    l.find? (fun x => x.rawSegment == k) = none →
    setChildList l k c = l ++ [c]
  | [], _, _, _ => rfl
  | x :: xs, k, c, h => by
      obtain ⟨hx, hxs⟩ := find?_cons_none h
      have hx2 : ¬ x.rawSegment = k := by intro hb; simp [hb] at hx
      rw [setChildList, if_neg hx2, set_absent_append xs k c hxs, List.cons_append]

/-- Setting a key appended after a run without it replaces the appended child. -/
theorem set_append_replace : ∀ (l : List RouteNode) (k : String) (c c2 : RouteNode),
    l.find? (fun x => x.rawSegment == k) = none → c.rawSegment = k →
    setChildList (l ++ [c]) k c2 = l ++ [c2]
  | [], k, c, c2, _, hc => by simp [setChildList, hc]
  | x :: xs, k, c, c2, h, hc => by
      obtain ⟨hx, hxs⟩ := find?_cons_none h
      have hx2 : ¬ x.rawSegment = k := by intro hb; simp [hb] at hx
      rw [List.cons_append, setChildList, if_neg hx2,
        set_append_replace xs k c c2 hxs hc, List.cons_append]

/-- Deleting a key appended after a run without it restores the run. -/
theorem del_append : ∀ (l : List RouteNode) (k : String) (c : RouteNode),
    l.find? (fun x => x.rawSegment == k) = none → c.rawSegment = k →
    delChildList (l ++ [c]) k = l
  | [], k, c, _, hc => by simp [delChildList, hc]
  | x :: xs, k, c, h, hc => by
      obtain ⟨hx, hxs⟩ := find?_cons_none h
      have hx2 : ¬ x.rawSegment = k := by intro hb; simp [hb] at hx
      rw [List.cons_append, delChildList, if_neg hx2, del_append xs k c hxs hc]

/-- Looking up a key appended after a run without it. -/
theorem find?_append_self (l : List RouteNode) (k : String) (c : RouteNode)
    (h : l.find? (fun x => x.rawSegment == k) = none) (hc : c.rawSegment = k) :
    (l ++ [c]).find? (fun x => x.rawSegment == k) = some c := by
  rw [find?_append_none l h [c]]
  exact List.find?_cons_of_pos _ (by simp [hc])

/-- `fiSet` of an absent path, looked up. -/
theorem fiFind_set_self : ∀ (fi : FileIndex) (p : String) (a : List String),
    fi.find? (fun e => e.1 == p) = none →
    (fiSet fi p a).find? (fun e => e.1 == p) = some (p, a)
  | [], p, a, _ => by
      rw [fiSet]
      exact List.find?_cons_of_pos _ (by simp)
  | e :: es, p, a, h => by
      obtain ⟨he, hes⟩ := find?_cons_none h
      have he2 : ¬ e.1 = p := by intro hb; simp [hb] at he
      rw [fiSet, if_neg he2, List.find?_cons_of_neg _ (by simp [he2]),
        fiFind_set_self es p a hes]

/-- `fiGet` finds a freshly set absent path. -/
theorem fiGet_set_self (fi : FileIndex) (p : String) (a : List String)
    (h : fiGet fi p = none) : fiGet (fiSet fi p a) p = some a := by
  unfold fiGet at h ⊢
  rw [fiFind_set_self fi p a (Option.map_eq_none'.mp h)]
  rfl

/-- `fiDel` of a freshly set absent path restores the index. -/
theorem fiDel_set_self : ∀ (fi : FileIndex) (p : String) (a : List String),
    fi.find? (fun e => e.1 == p) = none →
    fiDel (fiSet fi p a) p = fi
  | [], p, a, _ => by simp [fiSet, fiDel]
  | e :: es, p, a, h => by
      obtain ⟨he, hes⟩ := find?_cons_none h
      have he2 : ¬ e.1 = p := by intro hb; simp [hb] at he
      rw [fiSet, if_neg he2, fiDel, if_neg he2, fiDel_set_self es p a hes]

/-- `removeFirstFile` across a run without the path removes the appended
entry. -/
theorem removeFirst_append : ∀ (files : List RouteNodeFile) (p : String)
    (e : RouteNodeFile),
    files.any (fun f => f.path == p) = false → e.path = p →
    removeFirstFile (files ++ [e]) p = files
  | [], p, e, _, he => by simp [removeFirstFile, he]
  | f :: fs, p, e, h, he => by
      rw [List.any_cons] at h
      obtain ⟨h1, h2⟩ := Bool.or_eq_false_iff.mp h
      have h1b : ¬ f.path = p := by intro hb; simp [hb] at h1
      rw [List.cons_append, removeFirstFile, if_neg h1b,
        removeFirst_append fs p e h2 he]

/-- `any` finds an appended matching entry. -/
theorem any_append_self (files : List RouteNodeFile) (p : String) (e : RouteNodeFile)
    (he : e.path = p) : (files ++ [e]).any (fun f => f.path == p) = true := by
  rw [List.any_append]
  simp [he]

/-- A member of children with no matching path has no matching path. -/
theorem pathInNode_of_mem : ∀ (l : List RouteNode) (p : String) (c : RouteNode),
    pathInChildren p l = false → c ∈ l → pathInNode p c = false
  | [], _, c, _, hm => absurd hm (List.not_mem_nil c)
  | x :: xs, p, c, h, hm => by
      rw [pathInChildren] at h
      obtain ⟨h1, h2⟩ := Bool.or_eq_false_iff.mp h
      rcases List.mem_cons.mp hm with rfl | hm2
      · exact h1
      · exact pathInNode_of_mem xs p c h2 hm2

/-- A member of a no-empty-descendant children list is nonempty and
recursively well-shaped. -/
theorem noEmpty_of_mem : ∀ (l : List RouteNode) (c : RouteNode),
    noEmptyDescList l = true → c ∈ l →
    (¬ (c.files.isEmpty = true ∧ c.children.isEmpty = true)) ∧ noEmptyDesc c = true
  | [], c, _, hm => absurd hm (List.not_mem_nil c)
  | x :: xs, c, h, hm => by
      rw [noEmptyDescList] at h
      simp only [Bool.and_eq_true] at h
      rcases List.mem_cons.mp hm with rfl | hm2
      · exact ⟨of_decide_eq_true h.1.1, h.1.2⟩
      · exact noEmpty_of_mem xs c h.2 hm2

/-- `insertAux` keeps the key of the node it returns. -/
theorem insertAux_raw {pp : ParsedPath} {prio : Int} {strat : DupStrategy} :
    ∀ (segs : List (List Token)) (node : RouteNode) (g : List String)
      (fi : FileIndex) (addr : List String) (n2 : RouteNode) (fi2 : FileIndex),
    insertAux node segs g pp prio strat fi addr = .ok (n2, fi2) →
    n2.rawSegment = node.rawSegment
  | [], node, g, fi, addr, n2, fi2 => by
      intro h
      rcases node with ⟨raw, sg, fls, ch⟩
      simp only [insertAux] at h
      repeat' split at h
      all_goals first
        | exact Except.noConfusion h
        | (injection h with h2; injection h2 with h3 h4; subst h3; rfl)
  | seg :: rest, node, g, fi, addr, n2, fi2 => by
      intro h
      simp only [insertAux] at h
      split at h
      · exact insertAux_raw rest node _ fi addr n2 fi2 h
      · split at h
        · exact Except.noConfusion h
        · injection h with h2
          injection h2 with h3 h4
          rcases node with ⟨raw, sg, fls, ch⟩
          subst h3
          rfl

/-- `updateAt` with a key-preserving transform keeps the node's key. -/
theorem updateAt_raw (f : RouteNode → RouteNode)
    (hf : ∀ m, (f m).rawSegment = m.rawSegment) :
    ∀ (addr : List String) (n : RouteNode), (updateAt n addr f).rawSegment = n.rawSegment
  | [], n => hf n
  | k :: ks, n => by
      rw [updateAt]
      split
      · rcases n with ⟨raw, sg, fls, ch⟩
        rfl
      · rfl

/-- Insertion into a fresh node is always a plain push. -/
theorem insertIsPush_fresh {pp : ParsedPath} :
    ∀ (rest : List (List Token)) (k : String) (sg : List Token) (g : List String),
    insertIsPush (RouteNode.mk k sg [] []) rest g pp = true
  | [], _, _, _ => rfl
  | seg :: rest, k, sg, g => by
      rw [insertIsPush]
      by_cases hg : seg.all (fun t => t.type = .group)
      · rw [if_pos hg]
        exact insertIsPush_fresh rest k sg _
      · rw [if_neg hg]
        rfl

/-- The undo lemma of claim C1: a plain-push insertion of a path not yet in
the subtree is inverted exactly by the splice/prune removal along the address
the file index records. -/
theorem insertAux_undo {pp : ParsedPath} {prio : Int} {strat : DupStrategy} :
    ∀ (segs : List (List Token)) (node : RouteNode) (g : List String)
      (fi : FileIndex) (addr : List String) (node2 : RouteNode) (fi2 : FileIndex),
    insertAux node segs g pp prio strat fi addr = .ok (node2, fi2) →
    insertIsPush node segs g pp = true →
    pathInNode pp.file node = false →
    noEmptyDesc node = true →
    ∃ rel,
      fi2 = fiSet fi pp.file (addr ++ rel) ∧
      (∃ nodeT, navigate node2 rel = some nodeT ∧
        nodeT.files.any (fun f => f.path == pp.file) = true) ∧
      pruneAddr (updateAt node2 rel
        (fun m => m.withFiles (removeFirstFile m.files pp.file))) rel = node
  | [], node, g, fi, addr, node2, fi2 => by
      intro h hpush hpath hne
      rcases node with ⟨raw, sg, fls, ch⟩
      rw [insertIsPush] at hpush
      have hfind : fls.find? (fun f => f.dedupeKey == dedupeKeyOf pp g) = none :=
        Option.isNone_iff_eq_none.mp hpush
      simp only [insertAux, RouteNode.files, RouteNode.withFiles, hfind] at h
      injection h with h2
      injection h2 with h3 h4
      subst h3
      subst h4
      refine ⟨[], by rw [List.append_nil], ?_, ?_⟩
      · refine ⟨_, rfl, ?_⟩
        exact any_append_self fls pp.file (mkFileEntry pp prio g) rfl
      · rw [pathInNode] at hpath
        obtain ⟨hp1, hp2⟩ := Bool.or_eq_false_iff.mp hpath
        show (RouteNode.mk raw sg (fls ++ [mkFileEntry pp prio g]) ch).withFiles
          (removeFirstFile (fls ++ [mkFileEntry pp prio g]) pp.file) = _
        rw [removeFirst_append fls pp.file (mkFileEntry pp prio g) hp1 rfl]
        rfl
  | seg :: rest, node, g, fi, addr, node2, fi2 => by
      intro h hpush hpath hne
      simp only [insertAux] at h
      rw [insertIsPush] at hpush
      by_cases hg : seg.all (fun t => t.type = .group)
      · rw [if_pos hg] at h hpush
        exact insertAux_undo rest node _ fi addr node2 fi2 h hpush hpath hne
      · rw [if_neg hg] at h hpush
        rcases node with ⟨raw, sg, fls, ch⟩
        cases hgc : getChild (RouteNode.mk raw sg fls ch) (segmentToKey seg) with
        | some child =>
            rw [hgc] at h hpush
            simp only [Option.getD] at h
            cases hins : insertAux child rest g pp prio strat fi
                (addr ++ [segmentToKey seg]) with
            | error e =>
                rw [hins] at h
                exact Except.noConfusion h
            | ok pr =>
                rcases pr with ⟨child2, fi2x⟩
                rw [hins] at h
                injection h with h2
                injection h2 with h3 h4
                have hck : child.rawSegment = segmentToKey seg := by
                  have := List.find?_some hgc
                  simpa using this
                have hmem : child ∈ ch := List.mem_of_find?_eq_some hgc
                have hc2k : child2.rawSegment = segmentToKey seg := by
                  rw [insertAux_raw rest child g fi _ child2 fi2x hins, hck]
                rw [pathInNode] at hpath
                obtain ⟨-, hp2⟩ := Bool.or_eq_false_iff.mp hpath
                rw [noEmptyDesc] at hne
                obtain ⟨hcne, hcnd⟩ := noEmpty_of_mem ch child hne hmem
                obtain ⟨rel, hfi, ⟨nodeT, hnav, hany⟩, hprune⟩ :=
                  insertAux_undo rest child g fi (addr ++ [segmentToKey seg])
                    child2 fi2x hins hpush (pathInNode_of_mem ch pp.file child hp2 hmem)
                    hcnd
                subst h3
                subst h4
                have hup : (updateAt child2 rel
                    (fun m => m.withFiles (removeFirstFile m.files pp.file))).rawSegment =
                    segmentToKey seg := by
                  rw [updateAt_raw _ (fun m => by rcases m with ⟨a, b, c, d⟩; rfl), hc2k]
                refine ⟨segmentToKey seg :: rel, ?_, ?_, ?_⟩
                · rw [hfi, List.append_assoc]
                  rfl
                · refine ⟨nodeT, ?_, hany⟩
                  simp only [RouteNode.withChildren, RouteNode.children]
                  rw [navigate]
                  simp only [show getChild (RouteNode.mk raw sg fls
                      (setChildList ch (segmentToKey seg) child2)) (segmentToKey seg) =
                      some child2 from find?_set_same ch (segmentToKey seg) child2 hc2k]
                  exact hnav
                · simp only [RouteNode.withChildren, RouteNode.children]
                  rw [updateAt]
                  simp only [show getChild (RouteNode.mk raw sg fls
                      (setChildList ch (segmentToKey seg) child2)) (segmentToKey seg) =
                      some child2 from find?_set_same ch (segmentToKey seg) child2 hc2k]
                  simp only [RouteNode.withChildren, RouteNode.children]
                  rw [set_set_same ch (segmentToKey seg) child2 _ hc2k]
                  rw [pruneAddr]
                  simp only [show getChild (RouteNode.mk raw sg fls
                      (setChildList ch (segmentToKey seg) (updateAt child2 rel
                        (fun m => m.withFiles (removeFirstFile m.files pp.file)))))
                      (segmentToKey seg) = some (updateAt child2 rel
                        (fun m => m.withFiles (removeFirstFile m.files pp.file))) from
                    find?_set_same ch (segmentToKey seg) _ hup]
                  rw [hprune]
                  rw [if_neg hcne]
                  simp only [RouteNode.withChildren, RouteNode.children]
                  rw [set_set_same ch (segmentToKey seg) _ child hup]
                  rw [set_find?_id ch (segmentToKey seg) child hgc]
        | none =>
            rw [hgc] at h hpush
            simp only [Option.getD] at h
            cases hins : insertAux (RouteNode.mk (segmentToKey seg) seg [] []) rest g pp
                prio strat fi (addr ++ [segmentToKey seg]) with
            | error e =>
                rw [hins] at h
                exact Except.noConfusion h
            | ok pr =>
                rcases pr with ⟨child2, fi2x⟩
                rw [hins] at h
                injection h with h2
                injection h2 with h3 h4
                have hc2k : child2.rawSegment = segmentToKey seg := by
                  rw [insertAux_raw rest _ g fi _ child2 fi2x hins]
                  rfl
                obtain ⟨rel, hfi, ⟨nodeT, hnav, hany⟩, hprune⟩ :=
                  insertAux_undo rest (RouteNode.mk (segmentToKey seg) seg [] []) g fi
                    (addr ++ [segmentToKey seg]) child2 fi2x hins
                    (insertIsPush_fresh rest (segmentToKey seg) seg g) rfl rfl
                subst h3
                subst h4
                have hup : (updateAt child2 rel
                    (fun m => m.withFiles (removeFirstFile m.files pp.file))).rawSegment =
                    segmentToKey seg := by
                  rw [updateAt_raw _ (fun m => by rcases m with ⟨a, b, c, d⟩; rfl), hc2k]
                refine ⟨segmentToKey seg :: rel, ?_, ?_, ?_⟩
                · rw [hfi, List.append_assoc]
                  rfl
                · refine ⟨nodeT, ?_, hany⟩
                  simp only [RouteNode.withChildren, RouteNode.children]
                  rw [set_absent_append ch (segmentToKey seg) child2 hgc]
                  rw [navigate]
                  simp only [show getChild (RouteNode.mk raw sg fls (ch ++ [child2]))
                      (segmentToKey seg) = some child2 from
                    find?_append_self ch (segmentToKey seg) child2 hgc hc2k]
                  exact hnav
                · simp only [RouteNode.withChildren, RouteNode.children]
                  rw [set_absent_append ch (segmentToKey seg) child2 hgc]
                  rw [updateAt]
                  simp only [show getChild (RouteNode.mk raw sg fls (ch ++ [child2]))
                      (segmentToKey seg) = some child2 from
                    find?_append_self ch (segmentToKey seg) child2 hgc hc2k]
                  simp only [RouteNode.withChildren, RouteNode.children]
                  rw [set_append_replace ch (segmentToKey seg) child2 _ hgc hc2k]
                  rw [pruneAddr]
                  simp only [show getChild (RouteNode.mk raw sg fls
                      (ch ++ [updateAt child2 rel
                        (fun m => m.withFiles (removeFirstFile m.files pp.file))]))
                      (segmentToKey seg) = some (updateAt child2 rel
                        (fun m => m.withFiles (removeFirstFile m.files pp.file))) from
                    find?_append_self ch (segmentToKey seg) _ hgc hup]
                  rw [hprune]
                  rw [if_pos ⟨rfl, rfl⟩]
                  simp only [RouteNode.withChildren, RouteNode.children]
                  rw [del_append ch (segmentToKey seg) _ hgc hup]

/-- `toVueRouter4` reads only the root of the tree. -/
theorem toVueRouter4_root (t1 t2 : RouteTree) (h : t1.root = t2.root)
    (o : VueRouterEmitOptions) : toVueRouter4 t1 o = toVueRouter4 t2 o := by
  unfold toVueRouter4 flattenTree
  rw [h]

/-- The tree-level roundtrip: a successful `addFile` of a path not yet present
(and not colliding with an existing dedupe key) is undone exactly by
`removeFile` of that path, restoring root and file index, hence the converter
output. -/
theorem addFile_removeFile_roundtrip (opts : BuildOpts) (t : RouteTree) (fp : String)
    (prio : Int) (pp : ParsedPath) (ws : List String) (t2 : RouteTree)
    (hparse : parsePathOne opts.toParseOpts fp = .ok (pp, ws))
    (hpath : pathInNode pp.file t.root = false)
    (hfi : fiGet t.fileIndex pp.file = none)
    (hne : noEmptyDesc t.root = true)
    (hpush : insertIsPush t.root pp.segments [] pp = true)
    (hadd : addFile opts t fp prio = .ok t2) :
    (removeFile t2 pp.file).1 = true ∧
    (removeFile t2 pp.file).2.root = t.root ∧
    (removeFile t2 pp.file).2.fileIndex = t.fileIndex ∧
    ∀ o, toVueRouter4 (removeFile t2 pp.file).2 o = toVueRouter4 t o := by
  unfold addFile at hadd
  simp only [hparse] at hadd
  cases hins : insertAux t.root pp.segments [] pp prio opts.duplicateStrategy
      t.fileIndex [] with
  | error e =>
      rw [hins] at hadd
      exact Except.noConfusion hadd
  | ok pr =>
      rcases pr with ⟨root2, fi2⟩
      rw [hins] at hadd
      injection hadd with h2
      subst h2
      obtain ⟨rel, hfieq, ⟨nodeT, hnav, hany⟩, hprune⟩ :=
        insertAux_undo pp.segments t.root [] t.fileIndex [] root2 fi2 hins hpush
          hpath hne
      have hfge : fiGet fi2 pp.file = some rel := by
        rw [hfieq]
        exact fiGet_set_self t.fileIndex pp.file ([] ++ rel) hfi
      have hdel : fiDel fi2 pp.file = t.fileIndex := by
        rw [hfieq]
        exact fiDel_set_self t.fileIndex pp.file ([] ++ rel)
          (Option.map_eq_none'.mp hfi)
      have hrem : removeFile ⟨root2, true, fi2⟩ pp.file =
          (true, ⟨t.root, true, t.fileIndex⟩) := by
        simp only [removeFile]
        simp only [hfge]
        simp only [hnav]
        rw [if_pos hany]
        rw [hprune, hdel]
      rw [hrem]
      exact ⟨rfl, rfl, rfl, fun o => toVueRouter4_root _ _ rfl o⟩

set_option maxHeartbeats 8000000 in
/-- Counterexample to C1 as stated: when the added path is already present in
the tree, `addFile` keeps the original (first-wins, equal priority, same
dedupe key) without indexing anything new, and the following `removeFile`
deletes the pre-existing file, so the converter output is not restored. -/
theorem claim_C1_counterexample :
    ((buildTree {} ["a.vue"]).bind (fun t => addFile {} t "a.vue" 0)).map
      (fun t2 => toVueRouter4 (removeFile t2 "a.vue").2 {}) = .ok [] ∧
    (buildTree {} ["a.vue"]).map (fun t => toVueRouter4 t {}) =
      .ok [VueRoute.mk (some "a") "/a" "a.vue" [] none none none] :=
  ⟨rfl, rfl⟩

set_option maxHeartbeats 8000000 in
/-- Claim C1 (amended): `addFile` of a path that is not yet present in the
tree nor in the file index, into an API-shaped tree (no empty descendants)
and without a dedupe-key collision at the target node, followed by
`removeFile` of that path, reports a removal and restores the tree root and
the file index — hence the output of `toVueRouter4` for every option record;
shown end-to-end on the pipeline for a fresh path. -/
theorem claim_C1 :
    (∀ (opts : BuildOpts) (t : RouteTree) (fp : String) (prio : Int)
      (pp : ParsedPath) (ws : List String) (t2 : RouteTree),
      parsePathOne opts.toParseOpts fp = .ok (pp, ws) →
      pathInNode pp.file t.root = false →
      fiGet t.fileIndex pp.file = none →
      noEmptyDesc t.root = true →
      insertIsPush t.root pp.segments [] pp = true →
      addFile opts t fp prio = .ok t2 →
      (removeFile t2 pp.file).1 = true ∧
      (removeFile t2 pp.file).2.root = t.root ∧
      (removeFile t2 pp.file).2.fileIndex = t.fileIndex ∧
      ∀ o, toVueRouter4 (removeFile t2 pp.file).2 o = toVueRouter4 t o) ∧
    ((buildTree {} ["a.vue"]).bind (fun t => addFile {} t "b.vue" 0)).map
      (fun t2 => toVueRouter4 (removeFile t2 "b.vue").2 {}) =
      (buildTree {} ["a.vue"]).map (fun t => toVueRouter4 t {}) :=
  ⟨addFile_removeFile_roundtrip, rfl⟩

set_option maxHeartbeats 8000000 in
/-- Witness for C1: the roundtrip statement applied to the concrete tree built
from `'a.vue'` and the fresh path `'b.vue'`. -/
theorem claim_C1_witness :
    (removeFile ⟨RouteNode.mk "" [⟨.static, ""⟩] []
        [RouteNode.mk "a" [⟨.static, "a"⟩]
          [mkFileEntry ⟨"a.vue", [[⟨.static, "a"⟩]], none⟩ 0 []] [],
         RouteNode.mk "b" [⟨.static, "b"⟩]
          [mkFileEntry ⟨"b.vue", [[⟨.static, "b"⟩]], none⟩ 0 []] []],
        true, [("a.vue", ["a"]), ("b.vue", ["b"])]⟩ "b.vue").1 = true ∧
    (removeFile ⟨RouteNode.mk "" [⟨.static, ""⟩] []
        [RouteNode.mk "a" [⟨.static, "a"⟩]
          [mkFileEntry ⟨"a.vue", [[⟨.static, "a"⟩]], none⟩ 0 []] [],
         RouteNode.mk "b" [⟨.static, "b"⟩]
          [mkFileEntry ⟨"b.vue", [[⟨.static, "b"⟩]], none⟩ 0 []] []],
        true, [("a.vue", ["a"]), ("b.vue", ["b"])]⟩ "b.vue").2.root =
      (⟨RouteNode.mk "" [⟨.static, ""⟩] []
        [RouteNode.mk "a" [⟨.static, "a"⟩]
          [mkFileEntry ⟨"a.vue", [[⟨.static, "a"⟩]], none⟩ 0 []] []],
        true, [("a.vue", ["a"])]⟩ : RouteTree).root ∧
    (removeFile ⟨RouteNode.mk "" [⟨.static, ""⟩] []
        [RouteNode.mk "a" [⟨.static, "a"⟩]
          [mkFileEntry ⟨"a.vue", [[⟨.static, "a"⟩]], none⟩ 0 []] [],
         RouteNode.mk "b" [⟨.static, "b"⟩]
          [mkFileEntry ⟨"b.vue", [[⟨.static, "b"⟩]], none⟩ 0 []] []],
        true, [("a.vue", ["a"]), ("b.vue", ["b"])]⟩ "b.vue").2.fileIndex =
      [("a.vue", ["a"])] := by
  have h := claim_C1.1 {} ⟨RouteNode.mk "" [⟨.static, ""⟩] []
      [RouteNode.mk "a" [⟨.static, "a"⟩]
        [mkFileEntry ⟨"a.vue", [[⟨.static, "a"⟩]], none⟩ 0 []] []],
      true, [("a.vue", ["a"])]⟩ "b.vue" 0 ⟨"b.vue", [[⟨.static, "b"⟩]], none⟩ []
    ⟨RouteNode.mk "" [⟨.static, ""⟩] []
      [RouteNode.mk "a" [⟨.static, "a"⟩]
        [mkFileEntry ⟨"a.vue", [[⟨.static, "a"⟩]], none⟩ 0 []] [],
       RouteNode.mk "b" [⟨.static, "b"⟩]
        [mkFileEntry ⟨"b.vue", [[⟨.static, "b"⟩]], none⟩ 0 []] []],
      true, [("a.vue", ["a"]), ("b.vue", ["b"])]⟩ rfl rfl rfl rfl rfl rfl
  exact ⟨h.1, h.2.1, h.2.2.1⟩

/-- `parsePathOne` keeps the input path in the `file` field. -/
theorem parsePathOne_file {opts : ParseOpts} {fp : String} {pp : ParsedPath}
    {ws : List String} (h : parsePathOne opts fp = .ok (pp, ws)) : pp.file = fp := by
  simp only [parsePathOne] at h
  repeat' split at h
  all_goals first
    | exact Except.noConfusion h
    | (injection h with h2; injection h2 with h3 h4; subst h3; rfl)

/-- `effKeys` drops a group-only segment. -/
theorem effKeys_cons_group {seg : List Token} {rest : List (List Token)}
    (h : seg.all (fun t => t.type = .group) = true) :
    effKeys (seg :: rest) = effKeys rest := by
  unfold effKeys
  rw [List.filter_cons, if_neg (by simp [h])]

/-- `effKeys` keeps a non-group segment's key. -/
theorem effKeys_cons_key {seg : List Token} {rest : List (List Token)}
    (h : ¬ seg.all (fun t => t.type = .group) = true) :
    effKeys (seg :: rest) = segmentToKey seg :: effKeys rest := by
  unfold effKeys
  rw [List.filter_cons, if_pos (by simp [h]), List.map_cons]

/-- `groupsOfSegs` collects a group-only segment's names. -/
theorem groupsOfSegs_cons_group {seg : List Token} {rest : List (List Token)}
    (h : seg.all (fun t => t.type = .group) = true) :
    groupsOfSegs (seg :: rest) = seg.map Token.value ++ groupsOfSegs rest := by
  unfold groupsOfSegs
  rw [List.filter_cons, if_pos h, List.map_cons, List.flatten_cons]

/-- `groupsOfSegs` skips a non-group segment. -/
theorem groupsOfSegs_cons_key {seg : List Token} {rest : List (List Token)}
    (h : ¬ seg.all (fun t => t.type = .group) = true) :
    groupsOfSegs (seg :: rest) = groupsOfSegs rest := by
  unfold groupsOfSegs
  rw [List.filter_cons, if_neg h]

/-- `treeEntriesChildren` distributes over append. -/
theorem teCh_append : ∀ (a b : List RouteNode),
    treeEntriesChildren (a ++ b) = treeEntriesChildren a ++ treeEntriesChildren b
  | [], b => rfl
  | c :: cs, b => by
      rw [List.cons_append, treeEntriesChildren, treeEntriesChildren, teCh_append cs b,
        List.append_assoc]

/-- Membership in children entries decomposes through one child. -/
theorem te_child_mem : ∀ {cs : List RouteNode} {p : String} {rel : List String},
    (p, rel) ∈ treeEntriesChildren cs →
    ∃ c ∈ cs, ∃ rel2, rel = c.rawSegment :: rel2 ∧ (p, rel2) ∈ treeEntries c := by
  intro cs
  induction cs with
  | nil =>
      intro p rel h
      rw [treeEntriesChildren] at h
      simp at h
  | cons c cs ih =>
      intro p rel h
      rw [treeEntriesChildren] at h
      rcases List.mem_append.mp h with h1 | h2
      · obtain ⟨e, he, heq⟩ := List.mem_map.mp h1
        rcases e with ⟨q, rel2⟩
        injection heq with hq hrel
        subst hq
        exact ⟨c, by simp, rel2, hrel.symm, he⟩
      · obtain ⟨c2, hc2, rel2, hrel, hm⟩ := ih h2
        exact ⟨c2, by simp [hc2], rel2, hrel, hm⟩

/-- A node with no files and no children holds no entries. -/
theorem te_nil : ∀ (n : RouteNode), n.files = [] → n.children = [] → treeEntries n = []
  | .mk raw sg files ch, hf, hc => by
      rw [RouteNode.files] at hf
      rw [RouteNode.children] at hc
      subst hf
      subst hc
      rfl

/-- Splitting a list at the first `find?` hit. -/
theorem find?_split {α : Type} {p : α → Bool} : ∀ {l : List α} {c : α},
    l.find? p = some c → ∃ l1 l2, l = l1 ++ c :: l2 ∧ ∀ x ∈ l1, p x = false := by
  intro l
  induction l with
  | nil =>
      intro c h
      simp at h
  | cons x xs ih =>
      intro c h
      by_cases hx : p x = true
      · rw [List.find?_cons_of_pos _ hx] at h
        injection h with h2
        subst h2
        exact ⟨[], xs, rfl, by simp⟩
      · rw [List.find?_cons_of_neg _ hx] at h
        obtain ⟨l1, l2, hl, hall⟩ := ih h
        refine ⟨x :: l1, l2, by rw [hl, List.cons_append], ?_⟩
        intro y hy
        rcases List.mem_cons.mp hy with rfl | hy2
        · exact Bool.eq_false_iff.mpr hx
        · exact hall y hy2

/-- `setChildList` replaces the first matching child. -/
theorem setChildList_split (k : String) (c2 : RouteNode) :
    ∀ (l1 : List RouteNode) (c : RouteNode) (l2 : List RouteNode),
    (∀ x ∈ l1, (x.rawSegment == k) = false) → c.rawSegment = k →
    setChildList (l1 ++ c :: l2) k c2 = l1 ++ c2 :: l2
  | [], c, l2, _, hc => by rw [List.nil_append, setChildList, if_pos hc, List.nil_append]
  | x :: xs, c, l2, hall, hc => by
      have hx : ¬ x.rawSegment = k := by
        intro hb
        have hx2 := hall x (by simp)
        simp [hb] at hx2
      rw [List.cons_append, setChildList, if_neg hx,
        setChildList_split k c2 xs c l2 (fun y hy => hall y (by simp [hy])) hc,
        List.cons_append]

/-- `delChildList` removes the first matching child. -/
theorem delChildList_split (k : String) :
    ∀ (l1 : List RouteNode) (c : RouteNode) (l2 : List RouteNode),
    (∀ x ∈ l1, (x.rawSegment == k) = false) → c.rawSegment = k →
    delChildList (l1 ++ c :: l2) k = l1 ++ l2
  | [], c, l2, _, hc => by rw [List.nil_append, delChildList, if_pos hc, List.nil_append]
  | x :: xs, c, l2, hall, hc => by
      have hx : ¬ x.rawSegment = k := by
        intro hb
        have hx2 := hall x (by simp)
        simp [hb] at hx2
      rw [List.cons_append, delChildList, if_neg hx,
        delChildList_split k xs c l2 (fun y hy => hall y (by simp [hy])) hc,
        List.cons_append]

/-- A list is never a proper extension of itself. -/
theorem self_append_cons {a : List String} {x : String} {y : List String}
    (h : a = a ++ x :: y) : False := by
  have h2 := congrArg List.length h
  simp at h2

/-- `fiSet` of an absent key appends the entry. -/
theorem fiSet_absent : ∀ (fi : FileIndex) (p : String) (a : List String),
    fi.find? (fun e => e.1 == p) = none → fiSet fi p a = fi ++ [(p, a)]
  | [], _, _, _ => rfl
  | e :: es, p, a, h => by
      obtain ⟨he, hes⟩ := find?_cons_none h
      have he2 : ¬ e.1 = p := by
        intro hb
        simp [hb] at he
      rw [fiSet, if_neg he2, fiSet_absent es p a hes, List.cons_append]

/-- `fiDel` removes the first entry with the key. -/
theorem fiDel_split (p : String) : ∀ (f1 : List (String × List String))
    (e : String × List String) (f2 : List (String × List String)),
    (∀ x ∈ f1, (x.1 == p) = false) → e.1 = p →
    fiDel (f1 ++ e :: f2) p = f1 ++ f2
  | [], e, f2, _, he => by rw [List.nil_append, fiDel, if_pos he, List.nil_append]
  | x :: xs, e, f2, hall, he => by
      have hx : ¬ x.1 = p := by
        intro hb
        have hx2 := hall x (by simp)
        simp [hb] at hx2
      rw [List.cons_append, fiDel, if_neg hx,
        fiDel_split p xs e f2 (fun y hy => hall y (by simp [hy])) he, List.cons_append]

/-- A key outside the key column is not found. -/
theorem find?_none_of_not_memKeys : ∀ (fi : List (String × List String)) (p : String),
    p ∉ fi.map Prod.fst → fi.find? (fun e => e.1 == p) = none
  | [], _, _ => rfl
  | e :: es, p, h => by
      have h1 : ¬ e.1 = p := by
        intro hb
        exact h (by simp [hb])
      rw [List.find?_cons_of_neg _ (by simp [h1]),
        find?_none_of_not_memKeys es p (fun hm => h (by simp [hm]))]

/-- A member of a canonical children list is canonical at its own address. -/
theorem canonicalChildren_mem {opts : BuildOpts} :
    ∀ (cs : List RouteNode) (addr : List String),
    canonicalChildren opts cs addr = true →
    ∀ c ∈ cs, canonicalNode opts c (addr ++ [c.rawSegment]) = true
  | [], _, _, c, hm => absurd hm (List.not_mem_nil c)
  | x :: xs, addr, h, c, hm => by
      rw [canonicalChildren] at h
      simp only [Bool.and_eq_true] at h
      rcases List.mem_cons.mp hm with rfl | hm2
      · exact h.1
      · exact canonicalChildren_mem xs addr h.2 c hm2

mutual

/-- In a canonical subtree every held path parses back and its parsed segments
spell exactly the address where it is held. -/
theorem canon_path_addr {opts : BuildOpts} :
    ∀ (node : RouteNode) (addr : List String) (p : String) (rel : List String),
    canonicalNode opts node addr = true → (p, rel) ∈ treeEntries node →
    ∃ pp2 ws2, parsePathOne opts.toParseOpts p = .ok (pp2, ws2) ∧
      effKeys pp2.segments = addr ++ rel
  | .mk raw sg files ch, addr, p, rel => by
      intro hc hm
      rw [canonicalNode] at hc
      simp only [Bool.and_eq_true] at hc
      rw [treeEntries] at hm
      rcases List.mem_append.mp hm with h1 | h2
      · obtain ⟨f, hf, heq⟩ := List.mem_map.mp h1
        injection heq with hq hrel
        subst hq
        have hcf := List.all_eq_true.mp hc.1.1 f hf
        cases hparse : parsePathOne opts.toParseOpts f.path with
        | error e =>
            rw [canonFile, hparse] at hcf
            exact Bool.noConfusion hcf
        | ok pr =>
            rcases pr with ⟨pp2, ws2⟩
            simp only [canonFile, hparse, Bool.and_eq_true, beq_iff_eq] at hcf
            refine ⟨pp2, ws2, rfl, ?_⟩
            rw [hcf.1, ← hrel, List.append_nil]
      · obtain ⟨c, hcm, rel2, hrel2, hm2⟩ := te_child_mem h2
        obtain ⟨pp2, ws2, hp, he⟩ :=
          canon_path_addr c (addr ++ [c.rawSegment]) p rel2
            (canonicalChildren_mem ch addr hc.2 c hcm) hm2
        refine ⟨pp2, ws2, hp, ?_⟩
        rw [he, hrel2, List.append_assoc]
        rfl

end

/-- A member of a key-unique children list has key-unique children itself. -/
theorem childKeysNodup_of_mem : ∀ (l : List RouteNode) (c : RouteNode),
    childKeysNodupList l = true → c ∈ l → childKeysNodup c = true
  | [], c, _, hm => absurd hm (List.not_mem_nil c)
  | x :: xs, c, h, hm => by
      rw [childKeysNodupList] at h
      simp only [Bool.and_eq_true] at h
      rcases List.mem_cons.mp hm with rfl | hm2
      · exact h.1
      · exact childKeysNodup_of_mem xs c h.2 hm2

/-- `canonicalChildren` distributes over append. -/
theorem canonicalChildren_append {opts : BuildOpts} : ∀ (a b : List RouteNode)
    (addr : List String),
    canonicalChildren opts (a ++ b) addr =
      (canonicalChildren opts a addr && canonicalChildren opts b addr)
  | [], b, addr => by
      rw [List.nil_append, canonicalChildren, Bool.true_and]
  | c :: cs, b, addr => by
      rw [List.cons_append, canonicalChildren, canonicalChildren,
        canonicalChildren_append cs b addr, Bool.and_assoc]

/-- `noEmptyDescList` distributes over append. -/
theorem noEmptyDescList_append : ∀ (a b : List RouteNode),
    noEmptyDescList (a ++ b) = (noEmptyDescList a && noEmptyDescList b)
  | [], b => by rw [List.nil_append, noEmptyDescList, Bool.true_and]
  | c :: cs, b => by
      rw [List.cons_append, noEmptyDescList, noEmptyDescList,
        noEmptyDescList_append cs b, Bool.and_assoc, Bool.and_assoc, Bool.and_assoc]

/-- `childKeysNodupList` distributes over append. -/
theorem childKeysNodupList_append : ∀ (a b : List RouteNode),
    childKeysNodupList (a ++ b) = (childKeysNodupList a && childKeysNodupList b)
  | [], b => by rw [List.nil_append, childKeysNodupList, Bool.true_and]
  | c :: cs, b => by
      rw [List.cons_append, childKeysNodupList, childKeysNodupList,
        childKeysNodupList_append cs b, Bool.and_assoc]

/-- `replaceFirstDedupe` replaces the first matching file. -/
theorem replaceFirstDedupe_split (key : String) (entry : RouteNodeFile) :
    ∀ (w1 : List RouteNodeFile) (ex : RouteNodeFile) (w2 : List RouteNodeFile),
    (∀ x ∈ w1, (x.dedupeKey == key) = false) → ex.dedupeKey = key →
    replaceFirstDedupe (w1 ++ ex :: w2) key entry = w1 ++ entry :: w2
  | [], ex, w2, _, he => by
      rw [List.nil_append, replaceFirstDedupe, if_pos he, List.nil_append]
  | x :: xs, ex, w2, hall, he => by
      have hx : ¬ x.dedupeKey = key := by
        intro hb
        have hx2 := hall x (by simp)
        simp [hb] at hx2
      rw [List.cons_append, replaceFirstDedupe, if_neg hx,
        replaceFirstDedupe_split key entry xs ex w2 (fun y hy => hall y (by simp [hy])) he,
        List.cons_append]

/-- `parsePathOne` is a function: two parses of the same path agree. -/
theorem pp_det {opts : ParseOpts} {p : String} {pp pp2 : ParsedPath}
    {ws0 ws2 : List String} (hpp : parsePathOne opts p = .ok (pp, ws0))
    (h2 : parsePathOne opts p = .ok (pp2, ws2)) : pp2 = pp := by
  rw [hpp] at h2
  injection h2 with h3
  injection h3 with h4 h5
  exact h4.symm

/-- Unfolding a canonical-file fact at the file's own parse. -/
theorem canonFile_spec {opts : BuildOpts} {addr : List String} {f : RouteNodeFile}
    (h : canonFile opts addr f = true) {pp : ParsedPath} {ws0 : List String}
    (hpp : parsePathOne opts.toParseOpts pp.file = .ok (pp, ws0))
    (hpath : f.path = pp.file) :
    effKeys pp.segments = addr ∧ f = mkFileEntry pp f.priority (groupsOfSegs pp.segments) := by
  rw [canonFile, hpath] at h
  simp only [hpp, Bool.and_eq_true, beq_iff_eq] at h
  exact h

/-- The entry `insertParsedPath` attaches is canonical for the terminal
address. -/
theorem canonFile_entry {opts : BuildOpts} {pp : ParsedPath} {ws0 : List String}
    (hpp : parsePathOne opts.toParseOpts pp.file = .ok (pp, ws0)) {prio : Int}
    {g : List String} (hg : groupsOfSegs pp.segments = g) {addr : List String}
    (he : effKeys pp.segments = addr) :
    canonFile opts addr (mkFileEntry pp prio g) = true := by
  have h1 : (mkFileEntry pp prio g).path = pp.file := rfl
  rw [canonFile, h1]
  simp only [hpp]
  have h2 : (mkFileEntry pp prio g).priority = prio := rfl
  rw [h2, hg, he]
  simp

/-- `treeEntries` on a constructor. -/
theorem te_mk (raw : String) (sg : List Token) (files : List RouteNodeFile)
    (ch : List RouteNode) :
    treeEntries (.mk raw sg files ch) =
      files.map (fun f => (f.path, ([] : List String))) ++ treeEntriesChildren ch := by
  rw [treeEntries]

/-- `treeEntriesChildren` on a cons. -/
theorem teCh_cons (c : RouteNode) (cs : List RouteNode) :
    treeEntriesChildren (c :: cs) =
      (treeEntries c).map (fun e => (e.1, c.rawSegment :: e.2)) ++ treeEntriesChildren cs := by
  rw [treeEntriesChildren]

/-- A node with an entry holds a file or a child. -/
theorem te_ne_nonempty {n : RouteNode} (h : treeEntries n ≠ []) :
    ¬ (n.files.isEmpty = true ∧ n.children.isEmpty = true) := by
  intro hc
  exact h (te_nil n (List.isEmpty_iff.mp hc.1) (List.isEmpty_iff.mp hc.2))

/-- `removeFirstFile` removes the first matching file. -/
theorem removeFirstFile_split (p : String) :
    ∀ (w1 : List RouteNodeFile) (f0 : RouteNodeFile) (w2 : List RouteNodeFile),
    (∀ x ∈ w1, (x.path == p) = false) → f0.path = p →
    removeFirstFile (w1 ++ f0 :: w2) p = w1 ++ w2
  | [], f0, w2, _, he => by
      rw [List.nil_append, removeFirstFile, if_pos he, List.nil_append]
  | x :: xs, f0, w2, hall, he => by
      have hx : ¬ x.path = p := by
        intro hb
        have hx2 := hall x (by simp)
        simp [hb] at hx2
      rw [List.cons_append, removeFirstFile, if_neg hx,
        removeFirstFile_split p xs f0 w2 (fun y hy => hall y (by simp [hy])) he,
        List.cons_append]

/-- `any` yields a `find?` hit. -/
theorem any_find?_some {α : Type} {l : List α} {q : α → Bool} (h : l.any q = true) :
    ∃ x, l.find? q = some x := by
  have h2 : ∃ x ∈ l, q x = true := List.any_eq_true.mp h
  have h3 : (l.find? q).isSome = true := List.find?_isSome.mpr (by
    obtain ⟨x, hx, hq⟩ := h2
    exact ⟨x, hx, hq⟩)
  exact Option.isSome_iff_exists.mp h3

/-- With distinct keys, `find?` on a member's key returns that member. -/
theorem find?_mem_nodup : ∀ (l : List RouteNode),
    (l.map RouteNode.rawSegment).Nodup → ∀ c ∈ l,
    l.find? (fun x => x.rawSegment == c.rawSegment) = some c
  | [], _, c, hm => absurd hm (List.not_mem_nil c)
  | x :: xs, h, c, hm => by
      rw [List.map_cons, List.nodup_cons] at h
      rcases List.mem_cons.mp hm with rfl | hm2
      · exact List.find?_cons_of_pos _ (by simp)
      · have hx : ¬ x.rawSegment = c.rawSegment := by
          intro hb
          exact h.1 (hb ▸ List.mem_map_of_mem RouteNode.rawSegment hm2)
        rw [List.find?_cons_of_neg _ (by simp [hx])]
        exact find?_mem_nodup xs h.2 c hm2

/-- An absent child key matches no child. -/
theorem getChild_none_keys {n : RouteNode} {k : String} (h : getChild n k = none) :
    ∀ x ∈ n.children, (x.rawSegment == k) = false := by
  intro x hx
  have h2 := List.find?_eq_none.mp h x hx
  simpa using h2

/-- `fiDel` returns a sublist of the index. -/
theorem fiDel_sublist : ∀ (fi : FileIndex) (p : String), (fiDel fi p).Sublist fi
  | [], _ => List.Sublist.refl []
  | e :: es, p => by
      rw [fiDel]
      by_cases he : e.1 = p
      · rw [if_pos he]
        exact List.sublist_cons_self e es
      · rw [if_neg he]
        exact List.Sublist.cons₂ e (fiDel_sublist es p)

/-- Deleting a key from a key-unique index removes it entirely. -/
theorem keys_fiDel_not_mem : ∀ (fi : FileIndex) (p : String),
    (fi.map Prod.fst).Nodup → p ∉ (fiDel fi p).map Prod.fst
  | [], _, _ => by simp [fiDel]
  | e :: es, p, h => by
      rw [List.map_cons, List.nodup_cons] at h
      rw [fiDel]
      by_cases he : e.1 = p
      · rw [if_pos he]
        rw [← he]
        exact h.1
      · rw [if_neg he, List.map_cons]
        intro hm
        rcases List.mem_cons.mp hm with hx | hm2
        · exact he hx.symm
        · exact keys_fiDel_not_mem es p h.2 hm2

/-- Splitting a mapped list around a distinguished middle element of a
duplicate-free image. -/
theorem nodup_of_middle {α β : Type} (f : α → β) (l1 : List α) (c : α) (l2 : List α)
    (h : ((l1 ++ c :: l2).map f).Nodup) :
    f c ∉ l1.map f ∧ f c ∉ l2.map f ∧ ((l1 ++ l2).map f).Nodup := by
  rw [List.map_append, List.map_cons] at h
  rcases List.nodup_append.mp h with ⟨h1, h2, hdisj⟩
  rcases List.nodup_cons.mp h2 with ⟨hc2, h3⟩
  refine ⟨?_, hc2, ?_⟩
  · intro hm
    exact hdisj hm (by simp)
  · rw [List.map_append]
    exact List.nodup_append.mpr ⟨h1, h3, fun a ha1 ha2 => hdisj ha1 (by simp [ha2])⟩

/-- In a list whose image under `f` is duplicate-free around `c`, any member
sharing `c`'s image is `c`. -/
theorem mem_eq_of_key_unique {α β : Type} (f : α → β) (l1 : List α) (c : α) (l2 : List α)
    (h : ((l1 ++ c :: l2).map f).Nodup) :
    ∀ x ∈ l1 ++ c :: l2, f x = f c → x = c := by
  obtain ⟨hn1, hn2, _⟩ := nodup_of_middle f l1 c l2 h
  intro x hx hfx
  rcases List.mem_append.mp hx with h1 | h2
  · exact absurd (hfx ▸ List.mem_map_of_mem f h1) hn1
  · rcases List.mem_cons.mp h2 with rfl | h3
    · rfl
    · exact absurd (hfx ▸ List.mem_map_of_mem f h3) hn2

/-- Removing the key of a middle entry of a key-unique permutation of the
index leaves a permutation of the rest. -/
theorem fiDel_perm {fi : FileIndex} {p : String} {rel : List String}
    {l1 l2 : List (String × List String)}
    (hnd : (fi.map Prod.fst).Nodup) (hperm : fi.Perm (l1 ++ (p, rel) :: l2)) :
    (fiDel fi p).Perm (l1 ++ l2) := by
  have hmem : (p, rel) ∈ fi := hperm.mem_iff.mpr (by simp)
  obtain ⟨e0, hfind⟩ : ∃ e0, fi.find? (fun e => e.1 == p) = some e0 := by
    have h3 : (fi.find? (fun e => e.1 == p)).isSome = true :=
      List.find?_isSome.mpr ⟨(p, rel), hmem, by simp⟩
    exact Option.isSome_iff_exists.mp h3
  have he0 : e0.1 = p := by
    have h2 := List.find?_some hfind
    simpa using h2
  obtain ⟨f1, f2, hsplit, hall⟩ := find?_split hfind
  have he0rel : e0 = (p, rel) := by
    have hnd2 : (fi.map Prod.fst).Nodup := hnd
    rw [hsplit] at hnd2
    have := mem_eq_of_key_unique Prod.fst f1 e0 f2 hnd2 (p, rel)
      (by rw [← hsplit]; exact hmem) (by simp [he0])
    exact this.symm
  rw [he0rel] at hsplit
  have hdel : fiDel fi p = f1 ++ f2 := by
    rw [hsplit]
    exact fiDel_split p f1 (p, rel) f2 hall rfl
  rw [hdel]
  have hperm2 : (f1 ++ (p, rel) :: f2).Perm (l1 ++ (p, rel) :: l2) := by
    rw [← hsplit]
    exact hperm
  have h4 : ((p, rel) :: (f1 ++ f2)).Perm ((p, rel) :: (l1 ++ l2)) :=
    (List.perm_middle.symm.trans hperm2).trans List.perm_middle
  exact h4.cons_inv

/-- Every output of a successful `exceptMap` comes from some input. -/
theorem exceptMap_ok_mem {α β : Type} {f : α → Except String β} :
    ∀ {l : List α} {ys : List β}, exceptMap f l = .ok ys →
    ∀ y ∈ ys, ∃ x ∈ l, f x = .ok y := by
  intro l
  induction l with
  | nil =>
      intro ys h y hy
      rw [exceptMap] at h
      injection h with h2
      subst h2
      simp at hy
  | cons x xs ih =>
      intro ys h y hy
      rw [exceptMap] at h
      cases hfx : f x with
      | error e =>
          rw [hfx] at h
          exact Except.noConfusion h
      | ok z =>
          rw [hfx] at h
          cases hrest : exceptMap f xs with
          | error e =>
              rw [hrest] at h
              exact Except.noConfusion h
          | ok zs =>
              rw [hrest] at h
              injection h with h2
              subst h2
              rcases List.mem_cons.mp hy with rfl | hy2
              · exact ⟨x, by simp, hfx⟩
              · obtain ⟨x2, hx2, hfx2⟩ := ih hrest y hy2
                exact ⟨x2, by simp [hx2], hfx2⟩

/-- An invariant preserved by every step of a successful `exceptFoldl` holds
of the result. -/
theorem exceptFoldl_inv {σ α : Type} {g : σ → α → Except String σ} {P : σ → Prop} :
    ∀ {l : List α} {s0 out : σ}, P s0 →
    (∀ s x s2, x ∈ l → P s → g s x = .ok s2 → P s2) →
    exceptFoldl g s0 l = .ok out → P out := by
  intro l
  induction l with
  | nil =>
      intro s0 out h0 _ h
      rw [exceptFoldl] at h
      injection h with h2
      subst h2
      exact h0
  | cons x xs ih =>
      intro s0 out h0 hstep h
      rw [exceptFoldl] at h
      cases hgx : g s0 x with
      | error e =>
          rw [hgx] at h
          exact Except.noConfusion h
      | ok s1 =>
          rw [hgx] at h
          exact ih (hstep s0 x s1 (by simp) h0 hgx)
            (fun s y s2 hy => hstep s y s2 (by simp [hy])) h

/-- A `fileIndex.get` hit is a member of the index. -/
theorem fiGet_mem {fi : FileIndex} {p : String} {a : List String}
    (h : fiGet fi p = some a) : (p, a) ∈ fi := by
  rw [fiGet] at h
  cases hfind : fi.find? (fun e => e.1 == p) with
  | none =>
      rw [hfind] at h
      exact Option.noConfusion h
  | some e0 =>
      rw [hfind] at h
      injection h with h2
      have he0 : e0.1 = p := by
        have h3 := List.find?_some hfind
        simpa using h3
      have hm := List.mem_of_find?_eq_some hfind
      rcases e0 with ⟨q, b⟩
      simp only at he0 h2
      subst he0
      subst h2
      exact hm

/-- A key outside the index misses `fileIndex.get`. -/
theorem fiGet_none {fi : FileIndex} {p : String} (h : p ∉ fi.map Prod.fst) :
    fiGet fi p = none := by
  rw [fiGet, find?_none_of_not_memKeys fi p h]
  rfl

/-- A canonical file stores the dedupe key of its groups. -/
theorem canon_file_dk {opts : BuildOpts} {addr : List String} {f : RouteNodeFile}
    (h : canonFile opts addr f = true) {pp : ParsedPath} {ws0 : List String}
    (hpp : parsePathOne opts.toParseOpts pp.file = .ok (pp, ws0)) (hq : f.path = pp.file)
    {g : List String} (hG2 : groupsOfSegs pp.segments = g) :
    f.dedupeKey = dedupeKeyOf pp g := by
  obtain ⟨_, hfe⟩ := canonFile_spec h hpp hq
  rw [hfe, hG2]
  rfl

/-- When the walked file's address continues below this node, no file held
here can carry its path. -/
theorem entry_file_none {opts : BuildOpts} {pp : ParsedPath} {ws0 : List String}
    (hpp : parsePathOne opts.toParseOpts pp.file = .ok (pp, ws0))
    {files : List RouteNodeFile} {addr : List String} {k : String} {E : List String}
    (hall : files.all (canonFile opts addr) = true)
    (hE : effKeys pp.segments = addr ++ k :: E)
    {f : RouteNodeFile} (hf : f ∈ files) (hq : f.path = pp.file) : False := by
  have hspec := canonFile_spec (List.all_eq_true.mp hall f hf) hpp hq
  rw [hspec.1] at hE
  exact self_append_cons hE

/-- When the walked file's address ends at this node, no child subtree can
hold its path. -/
theorem entry_child_none {opts : BuildOpts} {pp : ParsedPath} {ws0 : List String}
    (hpp : parsePathOne opts.toParseOpts pp.file = .ok (pp, ws0))
    {ch : List RouteNode} {addr : List String}
    (hcc : canonicalChildren opts ch addr = true)
    (hE : effKeys pp.segments = addr) {rel : List String}
    (hmem : (pp.file, rel) ∈ treeEntriesChildren ch) : False := by
  obtain ⟨c, hcm, rel2, hrel2, hm2⟩ := te_child_mem hmem
  obtain ⟨pp2, ws2, hp2, he2⟩ :=
    canon_path_addr c (addr ++ [c.rawSegment]) pp.file rel2
      (canonicalChildren_mem ch addr hcc c hcm) hm2
  have hpd := pp_det hpp hp2
  subst hpd
  rw [hE, List.append_assoc] at he2
  exact self_append_cons he2

/-- An entry for the walked file inside the children lies in the child keyed
by the next segment of its own parse. -/
theorem entry_child_locate {opts : BuildOpts} {pp : ParsedPath} {ws0 : List String}
    (hpp : parsePathOne opts.toParseOpts pp.file = .ok (pp, ws0))
    {ch : List RouteNode} {addr : List String} {k : String} {E : List String}
    (hcc : canonicalChildren opts ch addr = true)
    (hE : effKeys pp.segments = addr ++ k :: E) {rel : List String}
    (hmem : (pp.file, rel) ∈ treeEntriesChildren ch) :
    ∃ c ∈ ch, c.rawSegment = k ∧ rel = k :: E ∧ (pp.file, E) ∈ treeEntries c := by
  obtain ⟨c, hcm, rel2, hrel2, hm2⟩ := te_child_mem hmem
  obtain ⟨pp2, ws2, hp2, he2⟩ :=
    canon_path_addr c (addr ++ [c.rawSegment]) pp.file rel2
      (canonicalChildren_mem ch addr hcc c hcm) hm2
  have hpd := pp_det hpp hp2
  subst hpd
  rw [hE, List.append_assoc] at he2
  have h3 : k :: E = c.rawSegment :: rel2 := List.append_cancel_left he2
  injection h3 with h4 h5
  refine ⟨c, hcm, h4.symm, ?_, ?_⟩
  · rw [hrel2, ← h4, ← h5]
  · rw [h5]
    exact hm2

/-- The single-insertion walk of `insertParsedPath`: from a canonical subtree
it preserves canonical placement, key uniqueness and nonempty descendants, and
changes the entry table in exactly one of three ways — no change (first wins),
appending the walked file's entry, or replacing the entry of the one file it
displaces — with the matching point update of the file index. -/
theorem insertAux_walk {opts : BuildOpts} {pp : ParsedPath} {ws0 : List String}
    {prio : Int} {strat : DupStrategy}
    (hpp : parsePathOne opts.toParseOpts pp.file = .ok (pp, ws0)) :
    ∀ (segs : List (List Token)) (node : RouteNode) (g : List String)
      (fi : FileIndex) (addr : List String) (n2 : RouteNode) (fi2 : FileIndex),
    insertAux node segs g pp prio strat fi addr = .ok (n2, fi2) →
    canonicalNode opts node addr = true →
    childKeysNodup node = true →
    noEmptyDesc node = true →
    effKeys pp.segments = addr ++ effKeys segs →
    groupsOfSegs pp.segments = g ++ groupsOfSegs segs →
    n2.rawSegment = node.rawSegment ∧
    canonicalNode opts n2 addr = true ∧
    childKeysNodup n2 = true ∧
    noEmptyDesc n2 = true ∧
    ((n2 = node ∧ fi2 = fi ∧ treeEntries node ≠ []) ∨
      ((∃ l1 l2, treeEntries node = l1 ++ l2 ∧
          treeEntries n2 = l1 ++ (pp.file, effKeys segs) :: l2) ∧
        fi2 = fiSet fi pp.file (addr ++ effKeys segs) ∧
        (∀ rel, (pp.file, rel) ∉ treeEntries node)) ∨
      (∃ ex, (∃ l1 l2, treeEntries node = l1 ++ (ex, effKeys segs) :: l2 ∧
          treeEntries n2 = l1 ++ (pp.file, effKeys segs) :: l2) ∧
        fi2 = fiSet (fiDel fi ex) pp.file (addr ++ effKeys segs) ∧
        (∀ rel, (pp.file, rel) ∈ treeEntries node → pp.file = ex)))
  | [], node, g, fi, addr, n2, fi2 => by
      intro h hc hk hn hE hG
      obtain ⟨raw, sg, files, ch⟩ := node
      have hEnil : effKeys [] = ([] : List String) := rfl
      have hE2 : effKeys pp.segments = addr := by
        rw [hE]
        exact List.append_nil addr
      have hG2 : groupsOfSegs pp.segments = g := by
        rw [hG]
        exact List.append_nil g
      have hcS := hc
      rw [canonicalNode] at hcS
      simp only [Bool.and_eq_true, decide_eq_true_eq] at hcS
      simp only [insertAux, RouteNode.files, RouteNode.withFiles] at h
      simp only [hEnil, List.append_nil]
      cases hfind : files.find? (fun f => f.dedupeKey == dedupeKeyOf pp g) with
      | none =>
          simp only [hfind, Except.ok.injEq, Prod.mk.injEq] at h
          obtain ⟨hn2, hfi2⟩ := h
          subst hn2
          subst hfi2
          refine ⟨rfl, ?_, ?_, ?_, Or.inr (Or.inl ⟨⟨files.map (fun f => (f.path, ([] : List String))), treeEntriesChildren ch, by rw [te_mk], ?_⟩, rfl, ?_⟩)⟩
          · rw [canonicalNode]
            simp only [Bool.and_eq_true, decide_eq_true_eq]
            refine ⟨⟨?_, ?_⟩, hcS.2⟩
            · rw [List.all_append, List.all_cons, List.all_nil]
              simp only [Bool.and_eq_true]
              exact ⟨hcS.1.1, ⟨canonFile_entry hpp hG2 hE2, trivial⟩⟩
            · rw [List.map_append, List.map_cons, List.map_nil]
              refine List.nodup_append.mpr ⟨hcS.1.2, List.nodup_singleton _, ?_⟩
              intro a ha hb
              simp only [List.mem_singleton] at hb
              obtain ⟨f, hf, hfa⟩ := List.mem_map.mp ha
              have hne := List.find?_eq_none.mp hfind f hf
              have : (mkFileEntry pp prio g).dedupeKey = dedupeKeyOf pp g := rfl
              rw [hb, this] at hfa
              simp [hfa] at hne
          · rw [childKeysNodup] at hk ⊢
            exact hk
          · rw [noEmptyDesc] at hn ⊢
            exact hn
          · rw [te_mk, List.map_append, List.map_cons, List.map_nil, List.append_assoc]
            rfl
          · intro rel hmem
            rw [te_mk] at hmem
            rcases List.mem_append.mp hmem with h1 | h2
            · obtain ⟨f, hf, heq⟩ := List.mem_map.mp h1
              injection heq with hq hrel
              have hdk := canon_file_dk (List.all_eq_true.mp hcS.1.1 f hf) hpp hq hG2
              have hne := List.find?_eq_none.mp hfind f hf
              simp [hdk] at hne
            · exact entry_child_none hpp hcS.2 hE2 h2
      | some existing =>
          simp only [hfind] at h
          by_cases hs1 : strat = DupStrategy.error
          · rw [if_pos hs1] at h
            exact Except.noConfusion h
          rw [if_neg hs1] at h
          by_cases hs2 : strat = DupStrategy.lastWins ∨ prio < existing.priority
          · rw [if_pos hs2] at h
            simp only [Except.ok.injEq, Prod.mk.injEq] at h
            obtain ⟨hn2, hfi2⟩ := h
            subst hn2
            subst hfi2
            have hexmem := List.mem_of_find?_eq_some hfind
            have hexdk : existing.dedupeKey = dedupeKeyOf pp g := by
              have h2 := List.find?_some hfind
              simpa using h2
            obtain ⟨w1, w2, hws, hwall⟩ := find?_split hfind
            have hrepl : replaceFirstDedupe files (dedupeKeyOf pp g) (mkFileEntry pp prio g) = w1 ++ mkFileEntry pp prio g :: w2 := by
              rw [hws]
              exact replaceFirstDedupe_split _ _ w1 existing w2 hwall hexdk
            have hmdk : (w1 ++ mkFileEntry pp prio g :: w2).map (fun f => f.dedupeKey) = files.map (fun f => f.dedupeKey) := by
              rw [hws]
              simp only [List.map_append, List.map_cons]
              rw [hexdk]
              rfl
            have hallS := hcS.1.1
            rw [hws, List.all_append, List.all_cons] at hallS
            simp only [Bool.and_eq_true] at hallS
            refine ⟨rfl, ?_, ?_, ?_, Or.inr (Or.inr ⟨existing.path, ⟨w1.map (fun f => (f.path, ([] : List String))), w2.map (fun f => (f.path, ([] : List String))) ++ treeEntriesChildren ch, ?_, ?_⟩, rfl, ?_⟩)⟩
            · rw [canonicalNode]
              simp only [Bool.and_eq_true, decide_eq_true_eq]
              refine ⟨⟨?_, ?_⟩, hcS.2⟩
              · rw [hrepl, List.all_append, List.all_cons]
                simp only [Bool.and_eq_true]
                exact ⟨hallS.1, ⟨canonFile_entry hpp hG2 hE2, hallS.2.2⟩⟩
              · rw [hrepl, hmdk]
                exact hcS.1.2
            · rw [childKeysNodup] at hk ⊢
              exact hk
            · rw [noEmptyDesc] at hn ⊢
              exact hn
            · rw [te_mk, hws, List.map_append, List.map_cons, List.append_assoc]
              rfl
            · rw [te_mk, hrepl, List.map_append, List.map_cons, List.append_assoc]
              rfl
            · intro rel hmem
              rw [te_mk] at hmem
              rcases List.mem_append.mp hmem with h1 | h2
              · obtain ⟨f, hf, heq⟩ := List.mem_map.mp h1
                injection heq with hq hrel
                have hdk := canon_file_dk (List.all_eq_true.mp hcS.1.1 f hf) hpp hq hG2
                have hnd := hcS.1.2
                rw [hws] at hnd
                have hfeq : f = existing := by
                  refine mem_eq_of_key_unique (fun f => f.dedupeKey) w1 existing w2 hnd f ?_ ?_
                  · rw [← hws]
                    exact hf
                  · show f.dedupeKey = existing.dedupeKey
                    rw [hdk, hexdk]
                exact (hfeq ▸ hq).symm
              · exact absurd h2 (fun h2 => entry_child_none hpp hcS.2 hE2 h2)
          · rw [if_neg hs2] at h
            simp only [Except.ok.injEq, Prod.mk.injEq] at h
            obtain ⟨hn2, hfi2⟩ := h
            subst hn2
            subst hfi2
            refine ⟨rfl, hc, hk, hn, Or.inl ⟨rfl, rfl, ?_⟩⟩
            intro heq
            rw [te_mk] at heq
            obtain ⟨h1, _⟩ := List.append_eq_nil.mp heq
            have hmem := List.mem_of_find?_eq_some hfind
            rw [List.map_eq_nil_iff.mp h1] at hmem
            exact absurd hmem (List.not_mem_nil _)
  | seg :: rest, node, g, fi, addr, n2, fi2 => by
      intro h hc hk hn hE hG
      obtain ⟨raw, sg, files, ch⟩ := node
      have hcS := hc
      rw [canonicalNode] at hcS
      simp only [Bool.and_eq_true, decide_eq_true_eq] at hcS
      have hkS := hk
      rw [childKeysNodup] at hkS
      simp only [Bool.and_eq_true, decide_eq_true_eq] at hkS
      have hnS := hn
      rw [noEmptyDesc] at hnS
      simp only [insertAux, RouteNode.children, RouteNode.withChildren] at h
      by_cases hg2 : seg.all (fun t => t.type = .group) = true
      · rw [if_pos hg2] at h
        have hE' : effKeys pp.segments = addr ++ effKeys rest := by
          rw [hE, effKeys_cons_group hg2]
        have hG' : groupsOfSegs pp.segments = (g ++ List.map (fun t => t.value) seg) ++ groupsOfSegs rest := by
          rw [hG, groupsOfSegs_cons_group hg2, ← List.append_assoc]
        simp only [effKeys_cons_group hg2]
        exact insertAux_walk hpp rest (.mk raw sg files ch) (g ++ List.map (fun t => t.value) seg) fi addr n2 fi2 h hc hk hn hE' hG'
      · rw [if_neg hg2] at h
        simp only [effKeys_cons_key hg2]
        have hEk : effKeys pp.segments = addr ++ segmentToKey seg :: effKeys rest := by
          rw [hE, effKeys_cons_key hg2]
        have hE' : effKeys pp.segments = (addr ++ [segmentToKey seg]) ++ effKeys rest := by
          rw [List.append_assoc, hEk, List.singleton_append]
        have hG' : groupsOfSegs pp.segments = g ++ groupsOfSegs rest := by
          rw [hG, groupsOfSegs_cons_key hg2]
        cases hget : getChild (.mk raw sg files ch) (segmentToKey seg) with
        | some c =>
            simp only [hget, Option.getD_some] at h
            have hfind2 : ch.find? (fun x => x.rawSegment == segmentToKey seg) = some c := hget
            have hck : c.rawSegment = segmentToKey seg := by
              have h2 := List.find?_some hfind2
              simpa using h2
            have hcmem : c ∈ ch := List.mem_of_find?_eq_some hfind2
            obtain ⟨d1, d2, hchs, hdall⟩ := find?_split hfind2
            cases hrec : insertAux c rest g pp prio strat fi (addr ++ [segmentToKey seg]) with
            | error e =>
                rw [hrec] at h
                exact Except.noConfusion h
            | ok pr =>
                rcases pr with ⟨child2, fi2'⟩
                simp only [hrec, Except.ok.injEq, Prod.mk.injEq] at h
                obtain ⟨hn2, hfi2⟩ := h
                subst hn2
                subst hfi2
                have hcc : canonicalNode opts c (addr ++ [segmentToKey seg]) = true := by
                  have h2 := canonicalChildren_mem ch addr hcS.2 c hcmem
                  rw [hck] at h2
                  exact h2
                have hkc : childKeysNodup c = true := childKeysNodup_of_mem ch c hkS.2 hcmem
                have hnc : noEmptyDesc c = true := (noEmpty_of_mem ch c hnS hcmem).2
                obtain ⟨hraw2, hcan2, hkey2, hne2, hbr⟩ :=
                  insertAux_walk hpp rest c g fi (addr ++ [segmentToKey seg]) child2 fi2' hrec hcc hkc hnc hE' hG'
                have hck2 : child2.rawSegment = segmentToKey seg := by
                  rw [hraw2, hck]
                have hset : setChildList ch (segmentToKey seg) child2 = d1 ++ child2 :: d2 := by
                  rw [hchs]
                  exact setChildList_split _ child2 d1 c d2 hdall hck
                have hteC2ne : treeEntries child2 ≠ [] := by
                  rcases hbr with ⟨h1, _, h3⟩ | ⟨⟨l1, l2, _, htb⟩, _, _⟩ | ⟨ex, ⟨l1, l2, _, htb⟩, _, _⟩
                  · rw [h1]
                    exact h3
                  · rw [htb]
                    simp
                  · rw [htb]
                    simp
                have hccS := hcS.2
                rw [hchs, canonicalChildren_append, canonicalChildren] at hccS
                simp only [Bool.and_eq_true] at hccS
                have hkLS := hkS.2
                rw [hchs, childKeysNodupList_append, childKeysNodupList] at hkLS
                simp only [Bool.and_eq_true] at hkLS
                have hnLS := hnS
                rw [hchs, noEmptyDescList_append, noEmptyDescList] at hnLS
                simp only [Bool.and_eq_true, decide_eq_true_eq] at hnLS
                have hcommon1 : canonicalNode opts (.mk raw sg files (setChildList ch (segmentToKey seg) child2)) addr = true := by
                  rw [canonicalNode]
                  simp only [Bool.and_eq_true, decide_eq_true_eq]
                  refine ⟨⟨hcS.1.1, hcS.1.2⟩, ?_⟩
                  rw [hset, canonicalChildren_append, canonicalChildren]
                  simp only [Bool.and_eq_true]
                  refine ⟨hccS.1, ?_, hccS.2.2⟩
                  rw [hck2]
                  exact hcan2
                have hcommon2 : childKeysNodup (.mk raw sg files (setChildList ch (segmentToKey seg) child2)) = true := by
                  rw [childKeysNodup]
                  simp only [Bool.and_eq_true, decide_eq_true_eq]
                  constructor
                  · rw [hset]
                    have heqm : (d1 ++ child2 :: d2).map RouteNode.rawSegment = (d1 ++ c :: d2).map RouteNode.rawSegment := by
                      simp only [List.map_append, List.map_cons]
                      rw [hraw2]
                    rw [heqm, ← hchs]
                    exact hkS.1
                  · rw [hset, childKeysNodupList_append, childKeysNodupList]
                    simp only [Bool.and_eq_true]
                    exact ⟨hkLS.1, hkey2, hkLS.2.2⟩
                have hcommon3 : noEmptyDesc (.mk raw sg files (setChildList ch (segmentToKey seg) child2)) = true := by
                  rw [noEmptyDesc, hset, noEmptyDescList_append, noEmptyDescList]
                  simp only [Bool.and_eq_true, decide_eq_true_eq]
                  exact ⟨hnLS.1, ⟨⟨te_ne_nonempty hteC2ne, hne2⟩, hnLS.2.2⟩⟩
                have hkeysnd := hkS.1
                rw [hchs] at hkeysnd
                obtain ⟨hknotd1, hknotd2, _⟩ := nodup_of_middle RouteNode.rawSegment d1 c d2 hkeysnd
                refine ⟨rfl, hcommon1, hcommon2, hcommon3, ?_⟩
                rcases hbr with ⟨hc2eq, hfie, hcne⟩ | ⟨⟨l1, l2, hta, htb⟩, hfi, hnin⟩ | ⟨ex, ⟨l1, l2, hta, htb⟩, hfi, hpin⟩
                · refine Or.inl ⟨?_, hfie, ?_⟩
                  · rw [hc2eq, set_find?_id ch (segmentToKey seg) c hfind2]
                  · intro heq
                    rw [te_mk, hchs, teCh_append, teCh_cons] at heq
                    obtain ⟨_, h2⟩ := List.append_eq_nil.mp heq
                    obtain ⟨_, h4⟩ := List.append_eq_nil.mp h2
                    obtain ⟨h5, _⟩ := List.append_eq_nil.mp h4
                    exact hcne (List.map_eq_nil_iff.mp h5)
                · refine Or.inr (Or.inl ⟨⟨files.map (fun f => (f.path, ([] : List String))) ++ (treeEntriesChildren d1 ++ List.map (fun e => (e.1, segmentToKey seg :: e.2)) l1), List.map (fun e => (e.1, segmentToKey seg :: e.2)) l2 ++ treeEntriesChildren d2, ?_, ?_⟩, ?_, ?_⟩)
                  · rw [te_mk, hchs, teCh_append, teCh_cons]
                    simp only [hck, hta, List.map_append, List.append_assoc]
                  · rw [te_mk, hset, teCh_append, teCh_cons]
                    simp only [hck2, htb, List.map_append, List.map_cons, List.append_assoc, List.cons_append]
                  · rw [List.append_assoc] at hfi
                    exact hfi
                  · intro rel hmem
                    rw [te_mk] at hmem
                    rcases List.mem_append.mp hmem with h1 | h2
                    · obtain ⟨f, hf, heq⟩ := List.mem_map.mp h1
                      injection heq with hq _
                      exact entry_file_none hpp hcS.1.1 hEk hf hq
                    · obtain ⟨c', hc'm, hc'k, _, hm2⟩ := entry_child_locate hpp hcS.2 hEk h2
                      rw [hchs] at hc'm
                      rcases List.mem_append.mp hc'm with hd1 | hcd2
                      · have := hdall c' hd1
                        simp [hc'k] at this
                      · rcases List.mem_cons.mp hcd2 with rfl | hd2
                        · exact hnin _ hm2
                        · have : c'.rawSegment ∈ d2.map RouteNode.rawSegment :=
                            List.mem_map_of_mem RouteNode.rawSegment hd2
                          rw [hc'k, ← hck] at this
                          exact hknotd2 this
                · refine Or.inr (Or.inr ⟨ex, ⟨files.map (fun f => (f.path, ([] : List String))) ++ (treeEntriesChildren d1 ++ List.map (fun e => (e.1, segmentToKey seg :: e.2)) l1), List.map (fun e => (e.1, segmentToKey seg :: e.2)) l2 ++ treeEntriesChildren d2, ?_, ?_⟩, ?_, ?_⟩)
                  · rw [te_mk, hchs, teCh_append, teCh_cons]
                    simp only [hck, hta, List.map_append, List.map_cons, List.append_assoc, List.cons_append]
                  · rw [te_mk, hset, teCh_append, teCh_cons]
                    simp only [hck2, htb, List.map_append, List.map_cons, List.append_assoc, List.cons_append]
                  · rw [List.append_assoc] at hfi
                    exact hfi
                  · intro rel hmem
                    rw [te_mk] at hmem
                    rcases List.mem_append.mp hmem with h1 | h2
                    · obtain ⟨f, hf, heq⟩ := List.mem_map.mp h1
                      injection heq with hq _
                      exact absurd (entry_file_none hpp hcS.1.1 hEk hf hq) (fun hx => hx)
                    · obtain ⟨c', hc'm, hc'k, _, hm2⟩ := entry_child_locate hpp hcS.2 hEk h2
                      rw [hchs] at hc'm
                      rcases List.mem_append.mp hc'm with hd1 | hcd2
                      · have := hdall c' hd1
                        simp [hc'k] at this
                      · rcases List.mem_cons.mp hcd2 with rfl | hd2
                        · exact hpin _ hm2
                        · have : c'.rawSegment ∈ d2.map RouteNode.rawSegment :=
                            List.mem_map_of_mem RouteNode.rawSegment hd2
                          rw [hc'k, ← hck] at this
                          exact absurd this hknotd2
        | none =>
            simp only [hget, Option.getD_none] at h
            have hfindn : ch.find? (fun x => x.rawSegment == segmentToKey seg) = none := hget
            have hknotin : ∀ x ∈ ch, (x.rawSegment == segmentToKey seg) = false := by
              intro x hx
              have h2 := List.find?_eq_none.mp hfindn x hx
              simpa using h2
            cases hrec : insertAux (.mk (segmentToKey seg) seg [] []) rest g pp prio strat fi (addr ++ [segmentToKey seg]) with
            | error e =>
                rw [hrec] at h
                exact Except.noConfusion h
            | ok pr =>
                rcases pr with ⟨child2, fi2'⟩
                simp only [hrec, Except.ok.injEq, Prod.mk.injEq] at h
                obtain ⟨hn2, hfi2⟩ := h
                subst hn2
                subst hfi2
                have hcc : canonicalNode opts (.mk (segmentToKey seg) seg [] []) (addr ++ [segmentToKey seg]) = true := by
                  rw [canonicalNode, canonicalChildren]
                  simp
                have hkc : childKeysNodup (.mk (segmentToKey seg) seg [] []) = true := by
                  rw [childKeysNodup, childKeysNodupList]
                  simp
                have hnc : noEmptyDesc (.mk (segmentToKey seg) seg [] []) = true := by
                  rw [noEmptyDesc, noEmptyDescList]
                obtain ⟨hraw2, hcan2, hkey2, hne2, hbr⟩ :=
                  insertAux_walk hpp rest (.mk (segmentToKey seg) seg [] []) g fi (addr ++ [segmentToKey seg]) child2 fi2' hrec hcc hkc hnc hE' hG'
                have hck2 : child2.rawSegment = segmentToKey seg := hraw2
                have hset : setChildList ch (segmentToKey seg) child2 = ch ++ [child2] :=
                  set_absent_append ch (segmentToKey seg) child2 hfindn
                rcases hbr with ⟨_, _, hcne⟩ | ⟨⟨l1, l2, hta, htb⟩, hfi, _⟩ | ⟨ex, ⟨l1, l2, hta, _⟩, _, _⟩
                · exact absurd rfl hcne
                · have h0 : ([] : List (String × List String)) = l1 ++ l2 := hta
                  obtain ⟨hl1, hl2⟩ := List.append_eq_nil.mp h0.symm
                  subst hl1
                  subst hl2
                  have hteC2ne : treeEntries child2 ≠ [] := by
                    rw [htb]
                    simp
                  refine ⟨rfl, ?_, ?_, ?_, Or.inr (Or.inl ⟨⟨files.map (fun f => (f.path, ([] : List String))) ++ treeEntriesChildren ch, [], ?_, ?_⟩, ?_, ?_⟩)⟩
                  · rw [canonicalNode]
                    simp only [Bool.and_eq_true, decide_eq_true_eq]
                    refine ⟨⟨hcS.1.1, hcS.1.2⟩, ?_⟩
                    rw [hset, canonicalChildren_append, canonicalChildren, canonicalChildren]
                    simp only [Bool.and_eq_true]
                    refine ⟨hcS.2, ?_, trivial⟩
                    rw [hck2]
                    exact hcan2
                  · rw [childKeysNodup]
                    simp only [Bool.and_eq_true, decide_eq_true_eq]
                    constructor
                    · rw [hset, List.map_append, List.map_cons, List.map_nil]
                      refine List.nodup_append.mpr ⟨hkS.1, List.nodup_singleton _, ?_⟩
                      intro a ha hb
                      simp only [List.mem_singleton] at hb
                      obtain ⟨x, hx, hxa⟩ := List.mem_map.mp ha
                      have := hknotin x hx
                      rw [hxa, hb, hck2] at this
                      simp at this
                    · rw [hset, childKeysNodupList_append, childKeysNodupList, childKeysNodupList]
                      simp only [Bool.and_eq_true]
                      exact ⟨hkS.2, hkey2, trivial⟩
                  · rw [noEmptyDesc, hset, noEmptyDescList_append, noEmptyDescList, noEmptyDescList]
                    simp only [Bool.and_eq_true, decide_eq_true_eq]
                    exact ⟨hnS, ⟨⟨te_ne_nonempty hteC2ne, hne2⟩, trivial⟩⟩
                  · rw [List.append_nil, te_mk]
                  · rw [te_mk, hset, teCh_append, teCh_cons]
                    simp only [hck2, htb, List.map_cons, List.map_nil, List.append_assoc, List.cons_append, treeEntriesChildren, List.nil_append, List.append_nil]
                  · rw [List.append_assoc] at hfi
                    exact hfi
                  · intro rel hmem
                    rw [te_mk] at hmem
                    rcases List.mem_append.mp hmem with h1 | h2
                    · obtain ⟨f, hf, heq⟩ := List.mem_map.mp h1
                      injection heq with hq _
                      exact entry_file_none hpp hcS.1.1 hEk hf hq
                    · obtain ⟨c', hc'm, hc'k, _, _⟩ := entry_child_locate hpp hcS.2 hEk h2
                      have := hknotin c' hc'm
                      simp [hc'k] at this
                · have h0 : ([] : List (String × List String)) = l1 ++ (ex, effKeys rest) :: l2 := hta
                  obtain ⟨_, h2⟩ := List.append_eq_nil.mp h0.symm
                  exact List.noConfusion h2

/-- `removeAt` with an empty address splices the file at the node itself. -/
theorem removeAt_nil (raw : String) (sg : List Token) (files : List RouteNodeFile)
    (ch : List RouteNode) (p : String) :
    removeAt (.mk raw sg files ch) [] p = .mk raw sg (removeFirstFile files p) ch := rfl

/-- `children` on a constructor. -/
theorem children_mk (raw : String) (sg : List Token) (files : List RouteNodeFile)
    (ch : List RouteNode) : RouteNode.children (.mk raw sg files ch) = ch := rfl

/-- `withChildren` on a constructor. -/
theorem withChildren_mk (raw : String) (sg : List Token) (files : List RouteNodeFile)
    (ch x : List RouteNode) : RouteNode.withChildren (.mk raw sg files ch) x = .mk raw sg files x := rfl

/-- `updateAt` through a present child. -/
theorem updateAt_cons_some {n : RouteNode} {k : String} {ks : List String}
    {f : RouteNode → RouteNode} {c0 : RouteNode} (h : getChild n k = some c0) :
    updateAt n (k :: ks) f = n.withChildren (setChildList n.children k (updateAt c0 ks f)) := by
  rw [updateAt, h]

/-- `pruneAddr` through a present child. -/
theorem pruneAddr_cons_some {n : RouteNode} {k : String} {ks : List String}
    {c0 : RouteNode} (h : getChild n k = some c0) :
    pruneAddr n (k :: ks) =
      (if (pruneAddr c0 ks).files.isEmpty = true ∧ (pruneAddr c0 ks).children.isEmpty = true
        then n.withChildren (delChildList n.children k)
        else n.withChildren (setChildList n.children k (pruneAddr c0 ks))) := by
  rw [pruneAddr, h]

/-- `removeAt` at a step of the address: recurse into the keyed child, then
either delete it (emptied) or store the pruned child back. -/
theorem removeAt_cons_some {raw : String} {sg : List Token} {files : List RouteNodeFile}
    {ch : List RouteNode} {k : String} {ks : List String} {p : String} {c : RouteNode}
    {d1 d2 : List RouteNode}
    (hget : getChild (.mk raw sg files ch) k = some c)
    (hchs : ch = d1 ++ c :: d2) (hdall : ∀ x ∈ d1, (x.rawSegment == k) = false)
    (hck : c.rawSegment = k) :
    removeAt (.mk raw sg files ch) (k :: ks) p =
      (if (removeAt c ks p).files.isEmpty = true ∧ (removeAt c ks p).children.isEmpty = true
        then RouteNode.mk raw sg files (d1 ++ d2)
        else RouteNode.mk raw sg files (d1 ++ removeAt c ks p :: d2)) := by
  have hfpres : ∀ m : RouteNode,
      (m.withFiles (removeFirstFile m.files p)).rawSegment = m.rawSegment := by
    intro m
    rcases m with ⟨r2, s2, f2, c2⟩
    rfl
  have hraw_uc :
      (updateAt c ks (fun m => m.withFiles (removeFirstFile m.files p))).rawSegment = k := by
    rw [updateAt_raw _ hfpres ks c, hck]
  have hgc2 : getChild
      (.mk raw sg files (setChildList ch k
        (updateAt c ks (fun m => m.withFiles (removeFirstFile m.files p))))) k =
      some (updateAt c ks (fun m => m.withFiles (removeFirstFile m.files p))) :=
    find?_set_same ch k _ hraw_uc
  simp only [removeAt]
  rw [updateAt_cons_some hget]
  simp only [children_mk, withChildren_mk]
  rw [pruneAddr_cons_some hgc2]
  simp only [children_mk, withChildren_mk]
  by_cases hemp :
      (pruneAddr (updateAt c ks (fun m => m.withFiles (removeFirstFile m.files p))) ks).files.isEmpty = true ∧
      (pruneAddr (updateAt c ks (fun m => m.withFiles (removeFirstFile m.files p))) ks).children.isEmpty = true
  · rw [if_pos hemp, if_pos hemp]
    congr 1
    rw [hchs, setChildList_split k _ d1 c d2 hdall hck]
    exact delChildList_split k d1 _ d2 hdall hraw_uc
  · rw [if_neg hemp, if_neg hemp]
    congr 1
    rw [set_set_same ch k _ _ hraw_uc, hchs, setChildList_split k _ d1 c d2 hdall hck]

/-- With distinct child keys, every entry's address navigates to a node that
holds a file with the entry's path. -/
theorem te_navigate : ∀ (rel : List String) (n : RouteNode) (p : String),
    childKeysNodup n = true → (p, rel) ∈ treeEntries n →
    ∃ tgt, navigate n rel = some tgt ∧ tgt.files.any (fun f => f.path == p) = true
  | [], n, p, _, hm => by
      obtain ⟨raw, sg, files, ch⟩ := n
      rw [te_mk] at hm
      rcases List.mem_append.mp hm with h1 | h2
      · obtain ⟨f, hf, heq⟩ := List.mem_map.mp h1
        injection heq with hq _
        refine ⟨.mk raw sg files ch, rfl, ?_⟩
        refine List.any_eq_true.mpr ⟨f, hf, ?_⟩
        simp [hq]
      · obtain ⟨c, _, rel2, hrel2, _⟩ := te_child_mem h2
        exact List.noConfusion hrel2
  | k :: ks, n, p, hk, hm => by
      obtain ⟨raw, sg, files, ch⟩ := n
      have hkS := hk
      rw [childKeysNodup] at hkS
      simp only [Bool.and_eq_true, decide_eq_true_eq] at hkS
      rw [te_mk] at hm
      rcases List.mem_append.mp hm with h1 | h2
      · obtain ⟨f, hf, heq⟩ := List.mem_map.mp h1
        injection heq with _ hrel
        exact List.noConfusion hrel
      · obtain ⟨c, hcm, rel2, hrel2, hm2⟩ := te_child_mem h2
        injection hrel2 with hk1 hks
        subst hk1
        rw [← hks] at hm2
        obtain ⟨tgt, hnav, hany⟩ :=
          te_navigate ks c p (childKeysNodup_of_mem ch c hkS.2 hcm) hm2
        refine ⟨tgt, ?_, hany⟩
        rw [navigate,
          show getChild (.mk raw sg files ch) c.rawSegment = some c from
            find?_mem_nodup ch hkS.1 c hcm]
        exact hnav

mutual

/-- The DFS fallback misses a path held nowhere in the subtree. -/
theorem removeFromNode_none : ∀ (n : RouteNode) (p : String),
    (∀ rel, (p, rel) ∉ treeEntries n) → removeFromNode n p = none
  | .mk raw sg files ch, p, hnin => by
      rw [removeFromNode]
      have hany : ¬ files.any (fun f => f.path == p) = true := by
        intro h
        obtain ⟨f, hf, hq⟩ := List.any_eq_true.mp h
        refine hnin [] ?_
        rw [te_mk]
        refine List.mem_append.mpr (Or.inl (List.mem_map.mpr ⟨f, hf, ?_⟩))
        simp only [beq_iff_eq] at hq
        rw [hq]
      have hch : removeFromChildren ch p = none := removeFromChildren_none ch p (by
        intro rel hrel
        refine hnin rel ?_
        rw [te_mk]
        exact List.mem_append.mpr (Or.inr hrel))
      rw [if_neg hany, hch]

/-- The DFS fallback over children misses an absent path. -/
theorem removeFromChildren_none : ∀ (cs : List RouteNode) (p : String),
    (∀ rel, (p, rel) ∉ treeEntriesChildren cs) → removeFromChildren cs p = none
  | [], _, _ => rfl
  | c :: cs, p, hnin => by
      rw [removeFromChildren]
      have hc : removeFromNode c p = none := removeFromNode_none c p (by
        intro rel hrel
        refine hnin (c.rawSegment :: rel) ?_
        rw [teCh_cons]
        exact List.mem_append.mpr (Or.inl (List.mem_map.mpr ⟨(p, rel), hrel, rfl⟩)))
      have hcs : removeFromChildren cs p = none := removeFromChildren_none cs p (by
        intro rel hrel
        refine hnin rel ?_
        rw [teCh_cons]
        exact List.mem_append.mpr (Or.inr hrel))
      rw [hc, hcs]

end

/-- The fast-path removal walk: splicing the navigated file and pruning the
address preserves the structural invariants and removes exactly one entry of
the walked path from the entry table. -/
theorem remove_walk {opts : BuildOpts} {p : String} :
    ∀ (A : List String) (node : RouteNode) (addr : List String) (tgt : RouteNode),
    navigate node A = some tgt →
    tgt.files.any (fun f => f.path == p) = true →
    canonicalNode opts node addr = true →
    childKeysNodup node = true →
    noEmptyDesc node = true →
    (removeAt node A p).rawSegment = node.rawSegment ∧
    canonicalNode opts (removeAt node A p) addr = true ∧
    childKeysNodup (removeAt node A p) = true ∧
    noEmptyDesc (removeAt node A p) = true ∧
    ∃ l1 l2 rel, treeEntries node = l1 ++ (p, rel) :: l2 ∧
      treeEntries (removeAt node A p) = l1 ++ l2
  | [], node, addr, tgt, hnav, hany, hc, hk, hn => by
      obtain ⟨raw, sg, files, ch⟩ := node
      rw [navigate] at hnav
      injection hnav with htgt
      subst htgt
      have hany2 : files.any (fun f => f.path == p) = true := hany
      obtain ⟨f0, hfind⟩ := any_find?_some hany2
      have hf0p : f0.path = p := by
        have h2 := List.find?_some hfind
        simpa using h2
      obtain ⟨w1, w2, hws, hwall⟩ := find?_split hfind
      have hrem : removeFirstFile files p = w1 ++ w2 := by
        rw [hws]
        exact removeFirstFile_split p w1 f0 w2 hwall hf0p
      have hcS := hc
      rw [canonicalNode] at hcS
      simp only [Bool.and_eq_true, decide_eq_true_eq] at hcS
      have hallS := hcS.1.1
      rw [hws, List.all_append, List.all_cons] at hallS
      simp only [Bool.and_eq_true] at hallS
      have hndS := hcS.1.2
      rw [hws] at hndS
      obtain ⟨_, _, hnd2⟩ := nodup_of_middle (fun f => f.dedupeKey) w1 f0 w2 hndS
      have hre : removeAt (.mk raw sg files ch) [] p = .mk raw sg (w1 ++ w2) ch := by
        rw [removeAt_nil, hrem]
      rw [hre]
      refine ⟨rfl, ?_, ?_, ?_,
        w1.map (fun f => (f.path, ([] : List String))),
        w2.map (fun f => (f.path, ([] : List String))) ++ treeEntriesChildren ch, [], ?_, ?_⟩
      · rw [canonicalNode]
        simp only [Bool.and_eq_true, decide_eq_true_eq]
        refine ⟨⟨?_, hnd2⟩, hcS.2⟩
        rw [List.all_append]
        simp only [Bool.and_eq_true]
        exact ⟨hallS.1, hallS.2.2⟩
      · rw [childKeysNodup] at hk ⊢
        exact hk
      · rw [noEmptyDesc] at hn ⊢
        exact hn
      · rw [te_mk, hws]
        simp only [List.map_append, List.map_cons, List.append_assoc, List.cons_append, hf0p]
      · rw [te_mk]
        simp only [List.map_append, List.append_assoc]
  | k :: ks, node, addr, tgt, hnav, hany, hc, hk, hn => by
      obtain ⟨raw, sg, files, ch⟩ := node
      rw [navigate] at hnav
      cases hget : getChild (.mk raw sg files ch) k with
      | none =>
          rw [hget] at hnav
          exact Option.noConfusion hnav
      | some c =>
          rw [hget] at hnav
          have hnav2 : navigate c ks = some tgt := hnav
          have hfind2 : ch.find? (fun x => x.rawSegment == k) = some c := hget
          have hck : c.rawSegment = k := by
            have h2 := List.find?_some hfind2
            simpa using h2
          have hcmem : c ∈ ch := List.mem_of_find?_eq_some hfind2
          obtain ⟨d1, d2, hchs, hdall⟩ := find?_split hfind2
          have hcS := hc
          rw [canonicalNode] at hcS
          simp only [Bool.and_eq_true, decide_eq_true_eq] at hcS
          have hkS := hk
          rw [childKeysNodup] at hkS
          simp only [Bool.and_eq_true, decide_eq_true_eq] at hkS
          have hnS := hn
          rw [noEmptyDesc] at hnS
          have hcc : canonicalNode opts c (addr ++ [k]) = true := by
            have h2 := canonicalChildren_mem ch addr hcS.2 c hcmem
            rw [hck] at h2
            exact h2
          have hkc := childKeysNodup_of_mem ch c hkS.2 hcmem
          have hnc := (noEmpty_of_mem ch c hnS hcmem).2
          obtain ⟨hraw2, hcan2, hkey2, hne2, m1, m2, relx, hta, htb⟩ :=
            remove_walk ks c (addr ++ [k]) tgt hnav2 hany hcc hkc hnc
          have hck2 : (removeAt c ks p).rawSegment = k := by
            rw [hraw2, hck]
          have hccS := hcS.2
          rw [hchs, canonicalChildren_append, canonicalChildren] at hccS
          simp only [Bool.and_eq_true] at hccS
          have hkLS := hkS.2
          rw [hchs, childKeysNodupList_append, childKeysNodupList] at hkLS
          simp only [Bool.and_eq_true] at hkLS
          have hnLS := hnS
          rw [hchs, noEmptyDescList_append, noEmptyDescList] at hnLS
          simp only [Bool.and_eq_true, decide_eq_true_eq] at hnLS
          have hkeysnd := hkS.1
          rw [hchs] at hkeysnd
          obtain ⟨hknotd1, hknotd2, hkndrest⟩ :=
            nodup_of_middle RouteNode.rawSegment d1 c d2 hkeysnd
          rw [@removeAt_cons_some raw sg files ch k ks p c d1 d2 hget hchs hdall hck]
          by_cases hemp : (removeAt c ks p).files.isEmpty = true ∧
              (removeAt c ks p).children.isEmpty = true
          · rw [if_pos hemp]
            have hteC0 : treeEntries (removeAt c ks p) = [] :=
              te_nil _ (List.isEmpty_iff.mp hemp.1) (List.isEmpty_iff.mp hemp.2)
            rw [hteC0] at htb
            obtain ⟨hm1, hm2⟩ := List.append_eq_nil.mp htb.symm
            subst hm1
            subst hm2
            refine ⟨rfl, ?_, ?_, ?_,
              files.map (fun f => (f.path, ([] : List String))) ++ treeEntriesChildren d1,
              treeEntriesChildren d2, k :: relx, ?_, ?_⟩
            · rw [canonicalNode]
              simp only [Bool.and_eq_true, decide_eq_true_eq]
              refine ⟨⟨hcS.1.1, hcS.1.2⟩, ?_⟩
              rw [canonicalChildren_append]
              simp only [Bool.and_eq_true]
              exact ⟨hccS.1, hccS.2.2⟩
            · rw [childKeysNodup]
              simp only [Bool.and_eq_true, decide_eq_true_eq]
              constructor
              · exact hkndrest
              · rw [childKeysNodupList_append]
                simp only [Bool.and_eq_true]
                exact ⟨hkLS.1, hkLS.2.2⟩
            · rw [noEmptyDesc, noEmptyDescList_append]
              simp only [Bool.and_eq_true, decide_eq_true_eq]
              exact ⟨hnLS.1, hnLS.2.2⟩
            · rw [te_mk, hchs, teCh_append, teCh_cons]
              simp only [hck, hta, List.map_append, List.map_cons, List.map_nil,
                List.append_assoc, List.cons_append, List.nil_append]
            · rw [te_mk, teCh_append]
              simp only [List.append_assoc]
          · rw [if_neg hemp]
            refine ⟨rfl, ?_, ?_, ?_,
              files.map (fun f => (f.path, ([] : List String))) ++
                (treeEntriesChildren d1 ++
                  List.map (fun e => (e.1, k :: e.2)) m1),
              List.map (fun e => (e.1, k :: e.2)) m2 ++ treeEntriesChildren d2,
              k :: relx, ?_, ?_⟩
            · rw [canonicalNode]
              simp only [Bool.and_eq_true, decide_eq_true_eq]
              refine ⟨⟨hcS.1.1, hcS.1.2⟩, ?_⟩
              rw [canonicalChildren_append, canonicalChildren]
              simp only [Bool.and_eq_true]
              refine ⟨hccS.1, ?_, hccS.2.2⟩
              rw [hck2]
              exact hcan2
            · rw [childKeysNodup]
              simp only [Bool.and_eq_true, decide_eq_true_eq]
              constructor
              · have heqm : (d1 ++ removeAt c ks p :: d2).map RouteNode.rawSegment =
                    (d1 ++ c :: d2).map RouteNode.rawSegment := by
                  simp only [List.map_append, List.map_cons]
                  rw [hraw2]
                rw [heqm]
                exact hkeysnd
              · rw [childKeysNodupList_append, childKeysNodupList]
                simp only [Bool.and_eq_true]
                exact ⟨hkLS.1, hkey2, hkLS.2.2⟩
            · rw [noEmptyDesc, noEmptyDescList_append, noEmptyDescList]
              simp only [Bool.and_eq_true, decide_eq_true_eq]
              exact ⟨hnLS.1, ⟨⟨hemp, hne2⟩, hnLS.2.2⟩⟩
            · rw [te_mk, hchs, teCh_append, teCh_cons]
              simp only [hck, hta, List.map_append, List.map_cons, List.append_assoc,
                List.cons_append]
            · rw [te_mk, teCh_append, teCh_cons]
              simp only [hck2, htb, List.map_append, List.append_assoc]

/-- One insertion of a parsed path preserves the fold invariant. -/
theorem pairInv_insert {opts : BuildOpts} {pp : ParsedPath} {ws : List String}
    (hpp : parsePathOne opts.toParseOpts pp.file = .ok (pp, ws)) {prio : Int}
    {s : RouteNode × FileIndex} {root2 : RouteNode} {fi2 : FileIndex}
    (hinv : pairInv opts s)
    (h : insertAux s.1 pp.segments [] pp prio opts.duplicateStrategy s.2 [] = .ok (root2, fi2)) :
    pairInv opts (root2, fi2) := by
  obtain ⟨r, fi⟩ := s
  obtain ⟨hc, hk, hn, hperm, hnd⟩ := hinv
  obtain ⟨hraw2, hcan2, hkey2, hne2, hbr⟩ :=
    insertAux_walk hpp pp.segments r [] fi [] root2 fi2 h hc hk hn rfl rfl
  have hPN : fi2.Perm (treeEntries root2) ∧ (fi2.map Prod.fst).Nodup := by
    rcases hbr with ⟨hr, hf, _⟩ | ⟨⟨l1, l2, hta, htb⟩, hfi, hnin⟩ |
      ⟨ex, ⟨l1, l2, hta, htb⟩, hfi, hpin⟩
    · subst hr
      subst hf
      exact ⟨hperm, hnd⟩
    · have hpnot : pp.file ∉ fi.map Prod.fst := by
        intro hm
        obtain ⟨e, hem, he⟩ := List.mem_map.mp hm
        rcases e with ⟨q, rel⟩
        have hq : q = pp.file := he
        subst hq
        exact hnin rel (hperm.mem_iff.mp hem)
      rw [List.nil_append] at hfi
      rw [hfi, fiSet_absent fi pp.file _ (find?_none_of_not_memKeys fi pp.file hpnot)]
      constructor
      · rw [htb]
        have hperm2 : fi.Perm (l1 ++ l2) := by
          rw [← hta]
          exact hperm
        exact (List.perm_append_singleton _ _).trans
          ((hperm2.cons _).trans List.perm_middle.symm)
      · rw [List.map_append, List.map_cons, List.map_nil]
        refine List.nodup_append.mpr ⟨hnd, List.nodup_singleton _, ?_⟩
        intro a ha hb
        simp only [List.mem_singleton] at hb
        subst hb
        exact hpnot ha
    · have hperm2 : fi.Perm (l1 ++ (ex, effKeys pp.segments) :: l2) := by
        rw [← hta]
        exact hperm
      have hdelperm := fiDel_perm hnd hperm2
      have hdelsub := fiDel_sublist fi ex
      have hpnot2 : pp.file ∉ (fiDel fi ex).map Prod.fst := by
        by_cases hpe : pp.file = ex
        · rw [hpe]
          exact keys_fiDel_not_mem fi ex hnd
        · intro hm
          obtain ⟨e, hem, he⟩ := List.mem_map.mp hm
          rcases e with ⟨q, rel⟩
          have hq : q = pp.file := he
          subst hq
          exact hpe (hpin rel (hperm.mem_iff.mp (hdelsub.subset hem)))
      rw [List.nil_append] at hfi
      rw [hfi, fiSet_absent _ pp.file _ (find?_none_of_not_memKeys _ pp.file hpnot2)]
      constructor
      · rw [htb]
        exact (List.perm_append_singleton _ _).trans
          ((hdelperm.cons _).trans List.perm_middle.symm)
      · rw [List.map_append, List.map_cons, List.map_nil]
        refine List.nodup_append.mpr
          ⟨hnd.sublist (hdelsub.map Prod.fst), List.nodup_singleton _, ?_⟩
        intro a ha hb
        simp only [List.mem_singleton] at hb
        subst hb
        exact hpnot2 ha
  exact ⟨hcan2, hkey2, hne2, hPN.1, hPN.2⟩

/-- `addFile` preserves the tree invariant. -/
theorem treeInv_addFile {opts : BuildOpts} {t : RouteTree} (hinv : treeInv opts t)
    {p : String} {prio : Int} {t2 : RouteTree} (h : addFile opts t p prio = .ok t2) :
    treeInv opts t2 := by
  rw [addFile] at h
  cases hpp : parsePathOne opts.toParseOpts p with
  | error e =>
      rw [hpp] at h
      exact Except.noConfusion h
  | ok pr =>
      rcases pr with ⟨pp, ws⟩
      simp only [hpp] at h
      cases hins : insertAux t.root pp.segments [] pp prio opts.duplicateStrategy t.fileIndex [] with
      | error e =>
          rw [hins] at h
          exact Except.noConfusion h
      | ok pr2 =>
          rcases pr2 with ⟨root2, fi2⟩
          simp only [hins, Except.ok.injEq] at h
          subst h
          have hppf : pp.file = p := parsePathOne_file hpp
          have hpp2 : parsePathOne opts.toParseOpts pp.file = .ok (pp, ws) := by
            rw [hppf]
            exact hpp
          have hpi : pairInv opts (t.root, t.fileIndex) :=
            ⟨hinv.1, hinv.2.1, hinv.2.2.1, hinv.2.2.2.1, hinv.2.2.2.2⟩
          have h2 := pairInv_insert hpp2 hpi hins
          exact ⟨h2.1, h2.2.1, h2.2.2.1, h2.2.2.2.1, h2.2.2.2.2⟩

/-- `removeFile` preserves the tree invariant. -/
theorem treeInv_removeFile {opts : BuildOpts} {t : RouteTree} (hinv : treeInv opts t)
    (p : String) : treeInv opts (removeFile t p).2 := by
  obtain ⟨hc, hk, hn, hperm, hnd⟩ := hinv
  cases hfg : fiGet t.fileIndex p with
  | none =>
      have hnot : ∀ rel, (p, rel) ∉ treeEntries t.root := by
        intro rel hm
        have hm2 : (p, rel) ∈ t.fileIndex := hperm.mem_iff.mpr hm
        rw [fiGet] at hfg
        have h3 := Option.map_eq_none'.mp hfg
        have h4 := List.find?_eq_none.mp h3 (p, rel) hm2
        simp at h4
      have hrfn : removeFromNode t.root p = none := removeFromNode_none t.root p hnot
      simp only [removeFile, hfg, hrfn]
      exact ⟨hc, hk, hn, hperm, hnd⟩
  | some addr =>
      have hmem1 : (p, addr) ∈ treeEntries t.root := hperm.mem_iff.mp (fiGet_mem hfg)
      obtain ⟨tgt, hnav, hany⟩ := te_navigate addr t.root p hk hmem1
      obtain ⟨hraw2, hcan2, hkey2, hne2, l1, l2, relx, hta, htb⟩ :=
        remove_walk addr t.root [] tgt hnav hany hc hk hn
      simp only [removeFile, hfg, hnav]
      rw [if_pos hany]
      show treeInv opts (RouteTree.mk (removeAt t.root addr p) true (fiDel t.fileIndex p))
      have hperm2 : t.fileIndex.Perm (l1 ++ (p, relx) :: l2) := by
        rw [← hta]
        exact hperm
      refine ⟨hcan2, hkey2, hne2, ?_, ?_⟩
      · show (fiDel t.fileIndex p).Perm (treeEntries (removeAt t.root addr p))
        rw [htb]
        exact fiDel_perm hnd hperm2
      · show ((fiDel t.fileIndex p).map Prod.fst).Nodup
        exact hnd.sublist ((fiDel_sublist _ _).map Prod.fst)

/-- The empty tree satisfies the invariant. -/
theorem treeInv_empty {opts : BuildOpts} : treeInv opts ⟨rootNode, true, []⟩ :=
  ⟨rfl, rfl, rfl, List.Perm.nil, List.nodup_nil⟩

/-- `buildTree` establishes the tree invariant. -/
theorem treeInv_buildTree {opts : BuildOpts} {input : List String} {t : RouteTree}
    (h : buildTree opts input = .ok t) : treeInv opts t := by
  rw [buildTree] at h
  by_cases hin : input = []
  · rw [if_pos hin] at h
    injection h with h2
    subst h2
    exact treeInv_empty
  · rw [if_neg hin] at h
    cases hps : parsePath opts.toParseOpts input with
    | error e =>
        rw [hps] at h
        exact Except.noConfusion h
    | ok parsed =>
        simp only [hps] at h
        cases hfold : exceptFoldl
            (fun (acc : RouteNode × FileIndex) p =>
              insertAux acc.1 p.1.segments [] p.1 0 opts.duplicateStrategy acc.2 [])
            (rootNode, []) parsed with
        | error e =>
            rw [hfold] at h
            exact Except.noConfusion h
        | ok pr =>
            rcases pr with ⟨root, fi⟩
            simp only [hfold, Except.ok.injEq] at h
            subst h
            have hinv0 : pairInv opts (rootNode, ([] : FileIndex)) :=
              ⟨rfl, rfl, rfl, List.Perm.nil, List.nodup_nil⟩
            have hstep : ∀ (s : RouteNode × FileIndex) (x : ParsedPath × List String)
                (s2 : RouteNode × FileIndex), x ∈ parsed → pairInv opts s →
                (fun (acc : RouteNode × FileIndex) p =>
                  insertAux acc.1 p.1.segments [] p.1 0 opts.duplicateStrategy acc.2 []) s x
                  = .ok s2 →
                pairInv opts s2 := by
              intro s x s2 hx hs hstep0
              obtain ⟨fp, hfp, hone⟩ := exceptMap_ok_mem hps x hx
              rcases x with ⟨pp, ws⟩
              have hppf : pp.file = fp := parsePathOne_file hone
              have hone2 : parsePathOne opts.toParseOpts pp.file = .ok (pp, ws) := by
                rw [hppf]
                exact hone
              rcases s2 with ⟨root2, fi2⟩
              exact pairInv_insert hone2 hs hstep0
            have hfin := exceptFoldl_inv hinv0 hstep hfold
            exact ⟨hfin.1, hfin.2.1, hfin.2.2.1, hfin.2.2.2.1, hfin.2.2.2.2⟩

/-- One API operation preserves the tree invariant. -/
theorem treeInv_applyOp {opts : BuildOpts} {t t2 : RouteTree} {op : TreeOp}
    (hinv : treeInv opts t) (h : applyOp opts t op = .ok t2) : treeInv opts t2 := by
  cases op with
  | add p prio =>
      rw [applyOp] at h
      exact treeInv_addFile hinv h
  | remove p =>
      rw [applyOp] at h
      injection h with h2
      subst h2
      exact treeInv_removeFile hinv p

/-- A sequence of API operations preserves the tree invariant. -/
theorem treeInv_applyOps {opts : BuildOpts} :
    ∀ {ops : List TreeOp} {t t2 : RouteTree}, treeInv opts t →
    applyOps opts t ops = .ok t2 → treeInv opts t2 := by
  intro ops
  induction ops with
  | nil =>
      intro t t2 hinv h
      rw [applyOps] at h
      injection h with h2
      subst h2
      exact hinv
  | cons op ops ih =>
      intro t t2 hinv h
      rw [applyOps] at h
      cases hop : applyOp opts t op with
      | error e =>
          rw [hop] at h
          exact Except.noConfusion h
      | ok t1 =>
          rw [hop] at h
          exact ih (treeInv_applyOp hinv hop) h

end Unrouting
